import Mathlib

/-!
blockchainparser: a shallow embedding of the block-file decoder

The Go package reads Bitcoin block files through a cursor (`BlockFile`), decodes
headers and transactions, and derives hash identities with a double SHA-256.
The definitions below follow `block_file.go`, `transaction.go`, `block.go` and
`util.go` function by function.  Conventions:

* a Go `byte` is a `Fin 256`; fixed-width unsigned integers are `Nat`, signed ones `Int`;
* a method on `*BlockFile` is a function returning its result paired with the new cursor;
* a Go slice is a `List`; the two memoized hash fields, which the code tests against
  `nil`, are an `Option`.
-/

namespace blockchainparser

abbrev Byte := Fin 256

/-- Go's `byte(n)` conversion: the low eight bits of `n`. -/
def byte (n : Nat) : Byte := Fin.ofNat n

/-! ## `encoding/binary` -/

namespace LittleEndian

/-- `binary.LittleEndian.PutUint16` on a fresh 2-byte buffer. -/
def PutUint16 (v : Nat) : List Byte := [byte v, byte (v / 256)]

/-- `binary.LittleEndian.PutUint32` on a fresh 4-byte buffer. -/
def PutUint32 (v : Nat) : List Byte :=
  [byte v, byte (v / 256), byte (v / 65536), byte (v / 16777216)]

/-- `binary.LittleEndian.PutUint64` on a fresh 8-byte buffer. -/
def PutUint64 (v : Nat) : List Byte :=
  [byte v, byte (v / 256), byte (v / 65536), byte (v / 16777216),
   byte (v / 4294967296), byte (v / 1099511627776), byte (v / 281474976710656),
   byte (v / 72057594037927936)]

/-- `binary.LittleEndian.Uint16`: `b[0] | b[1]<<8`. -/
def Uint16 : List Byte → Nat
  | b0 :: b1 :: _ => b0.val + 256 * b1.val
  | _ => 0

/-- `binary.LittleEndian.Uint32`. -/
def Uint32 : List Byte → Nat
  | b0 :: b1 :: b2 :: b3 :: _ => b0.val + 256 * b1.val + 65536 * b2.val + 16777216 * b3.val
  | _ => 0

/-- `binary.LittleEndian.Uint64`. -/
def Uint64 : List Byte → Nat
  | b0 :: b1 :: b2 :: b3 :: b4 :: b5 :: b6 :: b7 :: _ =>
    b0.val + 256 * b1.val + 65536 * b2.val + 16777216 * b3.val + 4294967296 * b4.val
      + 1099511627776 * b5.val + 281474976710656 * b6.val + 72057594037927936 * b7.val
  | _ => 0

end LittleEndian

namespace BigEndian

/-- `binary.BigEndian.PutUint16` on a fresh 2-byte buffer. -/
def PutUint16 (v : Nat) : List Byte := [byte (v / 256), byte v]

/-- `binary.BigEndian.PutUint32` on a fresh 4-byte buffer. -/
def PutUint32 (v : Nat) : List Byte :=
  [byte (v / 16777216), byte (v / 65536), byte (v / 256), byte v]

/-- `binary.BigEndian.PutUint64` on a fresh 8-byte buffer. -/
def PutUint64 (v : Nat) : List Byte :=
  [byte (v / 72057594037927936), byte (v / 281474976710656), byte (v / 1099511627776),
   byte (v / 4294967296), byte (v / 16777216), byte (v / 65536), byte (v / 256), byte v]

end BigEndian

/-- Conversion `int32(u)` of an unsigned 32-bit value (two's complement). -/
def toInt32 (u : Nat) : Int := if u < 2147483648 then (u : Int) else (u : Int) - 4294967296

/-- Conversion `int64(u)` of an unsigned 64-bit value (two's complement). -/
def toInt64 (u : Nat) : Int :=
  if u < 9223372036854775808 then (u : Int) else (u : Int) - 18446744073709551616

/-- Conversion `uint32(i)` of a signed integer. -/
def toUint32 (i : Int) : Nat := (i % 4294967296).toNat

/-- Conversion `uint64(i)` of a signed integer. -/
def toUint64 (i : Int) : Nat := (i % 18446744073709551616).toNat

/-! ## `crypto/sha256` (FIPS 180-4), the hash behind `DoubleSha256` -/

namespace sha256

def K : List Nat := [
  0x428a2f98, 0x71374491, 0xb5c0fbcf, 0xe9b5dba5, 0x3956c25b, 0x59f111f1, 0x923f82a4, 0xab1c5ed5,
  0xd807aa98, 0x12835b01, 0x243185be, 0x550c7dc3, 0x72be5d74, 0x80deb1fe, 0x9bdc06a7, 0xc19bf174,
  0xe49b69c1, 0xefbe4786, 0x0fc19dc6, 0x240ca1cc, 0x2de92c6f, 0x4a7484aa, 0x5cb0a9dc, 0x76f988da,
  0x983e5152, 0xa831c66d, 0xb00327c8, 0xbf597fc7, 0xc6e00bf3, 0xd5a79147, 0x06ca6351, 0x14292967,
  0x27b70a85, 0x2e1b2138, 0x4d2c6dfc, 0x53380d13, 0x650a7354, 0x766a0abb, 0x81c2c92e, 0x92722c85,
  0xa2bfe8a1, 0xa81a664b, 0xc24b8b70, 0xc76c51a3, 0xd192e819, 0xd6990624, 0xf40e3585, 0x106aa070,
  0x19a4c116, 0x1e376c08, 0x2748774c, 0x34b0bcb5, 0x391c0cb3, 0x4ed8aa4a, 0x5b9cca4f, 0x682e6ff3,
  0x748f82ee, 0x78a5636f, 0x84c87814, 0x8cc70208, 0x90befffa, 0xa4506ceb, 0xbef9a3f7, 0xc67178f2]

def rotr (x n : Nat) : Nat := ((x >>> n) ||| (x <<< (32 - n))) % 4294967296

def add32 (x y : Nat) : Nat := (x + y) % 4294967296

def not32 (x : Nat) : Nat := 4294967295 - x

def bsig0 (x : Nat) : Nat := rotr x 2 ^^^ rotr x 13 ^^^ rotr x 22

def bsig1 (x : Nat) : Nat := rotr x 6 ^^^ rotr x 11 ^^^ rotr x 25

def ssig0 (x : Nat) : Nat := rotr x 7 ^^^ rotr x 18 ^^^ (x >>> 3)

def ssig1 (x : Nat) : Nat := rotr x 17 ^^^ rotr x 19 ^^^ (x >>> 10)

def ch (x y z : Nat) : Nat := (x &&& y) ^^^ (not32 x &&& z)

def maj (x y z : Nat) : Nat := (x &&& y) ^^^ (x &&& z) ^^^ (y &&& z)

/-- Big-endian 32-bit words of a block. -/
def words : List Byte → List Nat
  | a :: b :: c :: d :: t => (a.val * 16777216 + b.val * 65536 + c.val * 256 + d.val) :: words t
  | _ => []

/-- Message schedule: `w` is the window of the last 16 words, oldest first; the result
is the next `n` words. -/
def schedule : Nat → List Nat → List Nat
  | 0, _ => []
  | n + 1, w =>
    match w with
    | w0 :: w1 :: rest =>
      let x := add32 (add32 (ssig1 (rest.getD 12 0)) (rest.getD 7 0)) (add32 (ssig0 w1) w0)
      x :: schedule n (w1 :: rest ++ [x])
    | _ => []

/-- The eight working variables. -/
structure St where
  a : Nat
  b : Nat
  c : Nat
  d : Nat
  e : Nat
  f : Nat
  g : Nat
  h : Nat

def round (s : St) (k w : Nat) : St :=
  let t1 := add32 (add32 (add32 s.h (bsig1 s.e)) (add32 (ch s.e s.f s.g) k)) w
  let t2 := add32 (bsig0 s.a) (maj s.a s.b s.c)
  ⟨add32 t1 t2, s.a, s.b, s.c, add32 s.d t1, s.e, s.f, s.g⟩

def rounds : St → List Nat → List Nat → St
  | s, k :: ks, w :: ws => rounds (round s k w) ks ws
  | s, _, _ => s

def compress (h : St) (blk : List Byte) : St :=
  let w := words blk
  let s := rounds h K (w ++ schedule 48 w)
  ⟨add32 h.a s.a, add32 h.b s.b, add32 h.c s.c, add32 h.d s.d,
   add32 h.e s.e, add32 h.f s.f, add32 h.g s.g, add32 h.h s.h⟩

def blocks : Nat → St → List Byte → St
  | 0, h, _ => h
  | n + 1, h, m => blocks n (compress h (m.take 64)) (m.drop 64)

/-- The `k` low bytes of `n`, most significant first. -/
def be (n : Nat) : Nat → List Byte
  | 0 => []
  | k + 1 => byte (n / 256 ^ k) :: be n k

def pad (m : List Byte) : List Byte :=
  m ++ [0x80] ++ List.replicate ((119 - m.length % 64) % 64) 0 ++ be (8 * m.length) 8

/-- The 32-byte digest: `h := sha256.New(); h.Write(m); h.Sum(nil)`. -/
def Sum (m : List Byte) : List Byte :=
  let p := pad m
  let s := blocks (p.length / 64) ⟨0x6a09e667, 0xbb67ae85, 0x3c6ef372, 0xa54ff53a,
    0x510e527f, 0x9b05688c, 0x1f83d9ab, 0x5be0cd19⟩ p
  be s.a 4 ++ be s.b 4 ++ be s.c 4 ++ be s.d 4 ++ be s.e 4 ++ be s.f 4 ++ be s.g 4 ++ be s.h 4

end sha256

/-! ## util.go -/

abbrev Hash256 := List Byte

/-- `DoubleSha256`: the digest of the digest. -/
def DoubleSha256 (data : List Byte) : Hash256 := sha256.Sum (sha256.Sum data)

/-! ## block_file.go: the cursor -/

/-- Failures the package can report. -/
inductive Err where
  /-- `os.File.Seek` refused the offset (negative position or unknown `whence`). -/
  | seek
  /-- The value `errors.New("Invalid block header: Can not find Magic ID")`. -/
  | invalidMagic
  /-- A run-time panic (index out of range). -/
  | indexOutOfRange
  /-- A run-time panic (`makeslice: len out of range`), which unwinds through every
  caller. -/
  | makeslice
  deriving DecidableEq, Repr

/-- An open `*os.File` on a regular file: its bytes and the read offset. -/
structure File where
  contents : List Byte
  offset : Nat
  deriving DecidableEq, Repr

/-- `file.Read(val)` for a freshly made buffer `val` of `n` zero bytes.  The call copies
the bytes that are left, at most `n`, and advances the offset by that many; the rest of
the buffer keeps its zeros.  The returned count and error are dropped by every caller. -/
def File.Read (f : File) (n : Nat) : List Byte × File :=
  let got := (f.contents.drop f.offset).take n
  (got ++ List.replicate (n - got.length) 0, { f with offset := f.offset + got.length })

/-- `file.Seek(offset, whence)`: `whence` 0 is absolute, 1 relative to the offset,
2 relative to the end. -/
def File.Seek (f : File) (offset : Int) (whence : Nat) : Except Err Int × File :=
  let target : Option Int :=
    if whence = 0 then some offset
    else if whence = 1 then some ((f.offset : Int) + offset)
    else if whence = 2 then some ((f.contents.length : Int) + offset)
    else none
  match target with
  | some t => if t < 0 then (.error .seek, f) else (.ok t, { f with offset := t.toNat })
  | none => (.error .seek, f)

structure BlockFile where
  file : File
  FileNum : Nat
  deriving DecidableEq, Repr

/-- The largest size in bytes that `make` allocates: the `maxAlloc` of the Go runtime on
64-bit Linux, 2^48.  A `make` of more bytes panics with `makeslice: len out of range`.
(An allocation below it that the machine cannot serve ends the process; that is outside
this development.) -/
def maxAlloc : Nat := 281474976710656

namespace BlockFile

def Seek (blockFile : BlockFile) (offset : Int) (whence : Nat) : Except Err Int × BlockFile :=
  let r := blockFile.file.Seek offset whence
  (r.1, { blockFile with file := r.2 })

def Peek (blockFile : BlockFile) (length : Nat) : Except Err (List Byte) × BlockFile :=
  match blockFile.file.Seek 0 1 with
  | (.error e, f) => (.error e, { blockFile with file := f })
  | (.ok pos, f) =>
    let r := f.Read length
    match r.2.Seek pos 0 with
    | (.error e, f2) => (.error e, { blockFile with file := f2 })
    | (.ok _, f2) => (.ok r.1, { blockFile with file := f2 })

/-- `ReadBytes(length)` once its `make([]byte, length)` has returned, which it does for
`length ≤ maxAlloc`; `ReadBytesOrPanic` is the call with the panic of `make`. -/
def ReadBytes (blockFile : BlockFile) (length : Nat) : List Byte × BlockFile :=
  let r := blockFile.file.Read length
  (r.1, { blockFile with file := r.2 })

/-- `ReadBytes(length)` for a `length` that is read from the stream.  The call starts with
`make([]byte, length)`, which panics with `makeslice: len out of range` when `length` is
above `maxAlloc`: then the result is `none` and the cursor is where it was. -/
def ReadBytesOrPanic (blockFile : BlockFile) (length : Nat) :
    Option (List Byte) × BlockFile :=
  if length ≤ maxAlloc then
    (some (blockFile.ReadBytes length).1, (blockFile.ReadBytes length).2)
  else (none, blockFile)

def ReadByte (blockFile : BlockFile) : Byte × BlockFile :=
  let r := blockFile.ReadBytes 1
  (r.1.getD 0 0, r.2)

def ReadUint16 (blockFile : BlockFile) : Nat × BlockFile :=
  let r := blockFile.ReadBytes 2
  (LittleEndian.Uint16 r.1, r.2)

def ReadInt32 (blockFile : BlockFile) : Int × BlockFile :=
  let r := blockFile.ReadBytes 4
  (toInt32 (LittleEndian.Uint32 r.1), r.2)

def ReadUint32 (blockFile : BlockFile) : Nat × BlockFile :=
  let r := blockFile.ReadBytes 4
  (LittleEndian.Uint32 r.1, r.2)

def ReadInt64 (blockFile : BlockFile) : Int × BlockFile :=
  let r := blockFile.ReadBytes 8
  (toInt64 (LittleEndian.Uint64 r.1), r.2)

def ReadUint64 (blockFile : BlockFile) : Nat × BlockFile :=
  let r := blockFile.ReadBytes 8
  (LittleEndian.Uint64 r.1, r.2)

def ReadVarint (blockFile : BlockFile) : Nat × BlockFile :=
  let r := blockFile.ReadByte
  if r.1 = 0xFF then r.2.ReadUint64
  else if r.1 = 0xFE then r.2.ReadUint32
  else if r.1 = 0xFD then r.2.ReadUint16
  else (r.1.val, r.2)

end BlockFile

/-! ## transaction.go -/

/-- `Varint(n)` for an unsigned 64-bit `n`; `uint32(n)` and `uint16(n)` truncate. -/
def Varint (n : Nat) : List Byte :=
  if n > 4294967295 then [0xFF] ++ BigEndian.PutUint64 n
  else if n > 65535 then [0xFE] ++ BigEndian.PutUint32 (n % 4294967296)
  else if n > 255 then [0xFD] ++ BigEndian.PutUint16 (n % 65536)
  else [byte n]

structure TxInput where
  Hash : Hash256
  Index : Nat
  Script : List Byte
  Sequence : Nat
  ScriptWitness : List (List Byte)
  deriving DecidableEq, Repr

def TxInput.Binary (inp : TxInput) : List Byte :=
  inp.Hash ++ LittleEndian.PutUint32 inp.Index ++ Varint inp.Script.length ++ inp.Script
    ++ LittleEndian.PutUint32 inp.Sequence

structure TxOutput where
  Value : Int
  Script : List Byte
  deriving DecidableEq, Repr

def TxOutput.Binary (out : TxOutput) : List Byte :=
  LittleEndian.PutUint64 (toUint64 out.Value) ++ Varint out.Script.length ++ out.Script

structure Transaction where
  hash : Option Hash256
  Version : Int
  Locktime : Nat
  Vin : List TxInput
  Vout : List TxOutput
  StartPos : Nat
  deriving DecidableEq, Repr

/-- The byte string `bin` that `Txid` builds before hashing. -/
def Transaction.txidBin (tx : Transaction) : List Byte :=
  LittleEndian.PutUint32 (toUint32 tx.Version)
    ++ Varint tx.Vin.length ++ (tx.Vin.map TxInput.Binary).flatten
    ++ Varint tx.Vout.length ++ (tx.Vout.map TxOutput.Binary).flatten
    ++ LittleEndian.PutUint32 tx.Locktime

/-- `Txid()`, the value returned.  The receiver is passed by value. -/
def Transaction.Txid (tx : Transaction) : Hash256 :=
  match tx.hash with
  | some h => h
  | none => DoubleSha256 tx.txidBin

/-! ## block.go -/

/-- A `time.Time` at whole seconds, as `time.Unix(sec, 0)` builds it. -/
structure Time where
  sec : Int
  deriving DecidableEq, Repr

/-- `time.Unix(sec, 0)`. -/
def Time.ofUnix (sec : Int) : Time := ⟨sec⟩

/-- `t.Unix()`. -/
def Time.Unix (t : Time) : Int := t.sec

structure BlockHeader where
  hash : Option Hash256
  Version : Int
  HashPrev : Hash256
  HashMerkle : Hash256
  Timestamp : Time
  TargetDifficulty : Nat
  Nonce : Nat
  deriving DecidableEq, Repr

structure Block extends BlockHeader where
  MagicId : Nat
  Length : Nat
  TransactionCount : Nat
  Transactions : List Transaction
  StartPos : Nat
  deriving DecidableEq, Repr

/-- The zero `time.Time{}` (1 January of year 1), as its `Unix()` second count. -/
def Time.zero : Time := ⟨-62135596800⟩

/-- The value of `&Block{}`. -/
def Block.zero : Block :=
  { hash := none, Version := 0, HashPrev := [], HashMerkle := [], Timestamp := Time.zero,
    TargetDifficulty := 0, Nonce := 0, MagicId := 0, Length := 0, TransactionCount := 0,
    Transactions := [], StartPos := 0 }

/-- The byte string `bin` that `Hash` builds before hashing. -/
def BlockHeader.hashBin (blockHeader : BlockHeader) : List Byte :=
  LittleEndian.PutUint32 (toUint32 blockHeader.Version)
    ++ blockHeader.HashPrev ++ blockHeader.HashMerkle
    ++ LittleEndian.PutUint32 (toUint32 blockHeader.Timestamp.Unix)
    ++ LittleEndian.PutUint32 blockHeader.TargetDifficulty
    ++ LittleEndian.PutUint32 blockHeader.Nonce

/-- `Hash()` on a `*BlockHeader`: the value returned and the header afterwards. -/
def BlockHeader.Hash (blockHeader : BlockHeader) : Hash256 × BlockHeader :=
  match blockHeader.hash with
  | some h => (h, blockHeader)
  | none =>
    let h := DoubleSha256 blockHeader.hashBin
    (h, { blockHeader with hash := some h })

def ParseBlockHeaderFromFile (blockFile : BlockFile) (block : Block) :
    Option Err × Block × BlockFile :=
  let r1 := blockFile.ReadUint32
  let r2 := r1.2.ReadInt32
  let r3 := r2.2.ReadBytes 32
  let r4 := r3.2.ReadBytes 32
  let r5 := r4.2.ReadUint32
  let r6 := r5.2.ReadUint32
  let r7 := r6.2.ReadUint32
  (none,
   { block with
     Length := r1.1, Version := r2.1, HashPrev := r3.1, HashMerkle := r4.1,
     Timestamp := Time.ofUnix (r5.1 : Int), TargetDifficulty := r6.1, Nonce := r7.1 },
   r7.2)

/-- The input loop of `ParseBlockTransactionFromFile`: `n` iterations left. -/
def readInputs : Nat → BlockFile → List TxInput → Option (List TxInput) × BlockFile
  | 0, blockFile, vin => (some vin, blockFile)
  | n + 1, blockFile, vin =>
    let r1 := blockFile.ReadBytes 32
    let r2 := r1.2.ReadUint32
    let r3 := r2.2.ReadVarint
    match r3.2.ReadBytesOrPanic r3.1 with
    | (none, bfp) => (none, bfp)
    | (some script, bf4) =>
      let r5 := bf4.ReadUint32
      readInputs n r5.2
        (vin ++ [{ Hash := r1.1, Index := r2.1, Script := script, Sequence := r5.1,
                   ScriptWitness := [] }])

/-- The output loop of `ParseBlockTransactionFromFile`: `n` iterations left. -/
def readOutputs : Nat → BlockFile → List TxOutput → Option (List TxOutput) × BlockFile
  | 0, blockFile, vout => (some vout, blockFile)
  | n + 1, blockFile, vout =>
    let r1 := blockFile.ReadUint64
    let r2 := r1.2.ReadVarint
    match r2.2.ReadBytesOrPanic r2.1 with
    | (none, bfp) => (none, bfp)
    | (some script, bf3) =>
      readOutputs n bf3 (vout ++ [{ Value := toInt64 r1.1, Script := script }])

/-- The inner witness loop: `n` items left, `items` read so far. -/
def readWitnessItems :
    Nat → BlockFile → List (List Byte) → Option (List (List Byte)) × BlockFile
  | 0, blockFile, items => (some items, blockFile)
  | n + 1, blockFile, items =>
    let r1 := blockFile.ReadVarint
    match r1.2.ReadBytesOrPanic r1.1 with
    | (none, bfp) => (none, bfp)
    | (some item, bf2) => readWitnessItems n bf2 (items ++ [item])

/-- The assignment `tx.Vin[i].ScriptWitness = w`. -/
def setScriptWitness : List TxInput → Nat → List (List Byte) → List TxInput
  | [], _, _ => []
  | inp :: rest, 0, w => { inp with ScriptWitness := w } :: rest
  | inp :: rest, i + 1, w => inp :: setScriptWitness rest i w

/-- The outer witness loop: `n` inputs left, `i` the index of the next one.  The stack is
made by `make([][]byte, witnessCount)`, of 24-byte slice headers, which panics when that
is more than `maxAlloc` bytes. -/
def readWitnesses : Nat → Nat → BlockFile → List TxInput → Option (List TxInput) × BlockFile
  | 0, _, blockFile, vin => (some vin, blockFile)
  | n + 1, i, blockFile, vin =>
    let r1 := blockFile.ReadVarint
    if r1.1 * 24 ≤ maxAlloc then
      match readWitnessItems r1.1 r1.2 [] with
      | (none, bfp) => (none, bfp)
      | (some w, bf2) => readWitnesses n (i + 1) bf2 (setScriptWitness vin i w)
    else (none, r1.2)

/-- `ParseBlockTransactionFromFile`.  The results `.error .indexOutOfRange` and
`.error .makeslice` stand for a run-time panic, which no caller recovers; the cursor given
with them is where the panic left it. -/
def ParseBlockTransactionFromFile (blockFile : BlockFile) :
    Except Err Transaction × BlockFile :=
  match blockFile.Seek 0 1 with
  | (.error e, bf0) => (.error e, bf0)
  | (.ok curPos, bf0) =>
    let r1 := bf0.ReadInt32
    match r1.2.Peek 1 with
    | (.error _, bf1) => (.error .indexOutOfRange, bf1)
    | (.ok p, bf1) =>
      let hdr : (Nat × Nat) × BlockFile :=
        if p.getD 0 0 = 0 then
          let d := bf1.ReadByte
          let fl := d.2.ReadByte
          let n := fl.2.ReadVarint
          ((fl.1.val, n.1), n.2)
        else
          let n := bf1.ReadVarint
          ((0, n.1), n.2)
      let txFlag := hdr.1.1
      let txInputLength := hdr.1.2
      match readInputs txInputLength hdr.2 [] with
      | (none, bfp) => (.error .makeslice, bfp)
      | (some vin, bfi) =>
        let nout := bfi.ReadVarint
        match readOutputs nout.1 nout.2 [] with
        | (none, bfp) => (.error .makeslice, bfp)
        | (some vout, bfo) =>
          match (if txFlag % 2 = 1 then readWitnesses txInputLength 0 bfo vin
                 else (some vin, bfo)) with
          | (none, bfp) => (.error .makeslice, bfp)
          | (some vinw, bfw) =>
            let lt := bfw.ReadUint32
            (.ok { hash := none, Version := r1.1, Locktime := lt.1, Vin := vinw, Vout := vout,
                   StartPos := curPos.toNat },
             lt.2)

/-- The loop of `ParseBlockTransactionsFromFile`: `n` transactions left. -/
def readTransactions : Nat → BlockFile → Block → Option Err × Block × BlockFile
  | 0, blockFile, block => (none, block, blockFile)
  | n + 1, blockFile, block =>
    match ParseBlockTransactionFromFile blockFile with
    | (.error e, bf) => (some e, block, bf)
    | (.ok tx, bf) =>
      readTransactions n bf { block with Transactions := block.Transactions ++ [tx] }

def ParseBlockTransactionsFromFile (blockFile : BlockFile) (block : Block) :
    Option Err × Block × BlockFile :=
  let r := blockFile.ReadVarint
  readTransactions r.1 r.2 { block with TransactionCount := r.1 }

/-- `ParseBlockFromFile`.  An error that a callee returns is answered by seeking back to
`curPos`; a panic of a callee passes through, with the cursor where the panic left it. -/
def ParseBlockFromFile (blockFile : BlockFile) (magicHeader : Nat) :
    Except Err Block × BlockFile :=
  match blockFile.Seek 0 1 with
  | (.error e, bf0) => (.error e, bf0)
  | (.ok curPos, bf0) =>
    let m := bf0.ReadUint32
    if m.1 ≠ magicHeader then
      (.error .invalidMagic, (m.2.Seek curPos 0).2)
    else
      match ParseBlockHeaderFromFile m.2 { Block.zero with MagicId := m.1 } with
      | (some e, _, bf1) => (.error e, (bf1.Seek curPos 0).2)
      | (none, block1, bf1) =>
        match ParseBlockTransactionsFromFile bf1 block1 with
        | (some e, _, bf2) =>
          (.error e,
           if e = .makeslice ∨ e = .indexOutOfRange then bf2 else (bf2.Seek curPos 0).2)
        | (none, block2, bf2) => (.ok block2, bf2)

/-- A cursor at `offset` over `contents`. -/
def BlockFile.ofBytes (contents : List Byte) (offset : Nat) : BlockFile :=
  { file := { contents := contents, offset := offset }, FileNum := 0 }

/-- The cursor `blockFile` moved forward by `k` bytes. -/
def BlockFile.advance (blockFile : BlockFile) (k : Nat) : BlockFile :=
  { blockFile with file := { blockFile.file with offset := blockFile.file.offset + k } }

deriving instance DecidableEq for Except

/-! ## Concrete streams -/

/-- A legacy transaction of 306 bytes: version 1, one input (previous hash 32 zero bytes,
index 0, script length 253 as `FD FD 00`, 253 zero script bytes, sequence `FFFFFFFF`),
no outputs, locktime 0. -/
def legacyTxScript253 : List Byte :=
  [1, 0, 0, 0] ++ [1] ++ List.replicate 32 0 ++ [0, 0, 0, 0] ++ [0xFD, 0xFD, 0x00]
    ++ List.replicate 253 0 ++ [0xFF, 0xFF, 0xFF, 0xFF] ++ [0] ++ [0, 0, 0, 0]

/-- The transaction that `legacyTxScript253` decodes to. -/
def parsedTxScript253 : Transaction :=
  { hash := none, Version := 1, Locktime := 0,
    Vin := [{ Hash := List.replicate 32 0, Index := 0, Script := List.replicate 253 0,
              Sequence := 4294967295, ScriptWitness := [] }],
    Vout := [], StartPos := 0 }

/-- The network tag `BLOCK_MAGIC_ID_BITCOIN`. -/
def BLOCK_MAGIC_ID_BITCOIN : Nat := 0xd9b4bef9

/-- The network tag `BLOCK_MAGIC_ID_TESTNET`. -/
def BLOCK_MAGIC_ID_TESTNET : Nat := 0x0709110b

/-- The 80-byte header `01 00 00 00` followed by 76 zero bytes. -/
def headerV1 : List Byte := [1, 0, 0, 0] ++ List.replicate 76 0

/-- The header that `headerV1` is the serialization of, its hash not yet computed. -/
def headerV1Decoded : BlockHeader :=
  { hash := none, Version := 1, HashPrev := List.replicate 32 0,
    HashMerkle := List.replicate 32 0, Timestamp := Time.ofUnix 0, TargetDifficulty := 0,
    Nonce := 0 }

/-- A record body: length field 81, `headerV1`, transaction count 0. -/
def recordBodyV1 : List Byte := [0x51, 0, 0, 0] ++ headerV1 ++ [0]

/-- A mainnet record cut off right after the magic. -/
def truncatedAfterMagic : List Byte := [0xf9, 0xbe, 0xb4, 0xd9]

/-- A mainnet record announcing one transaction, cut off two bytes into it. -/
def truncatedInTx : List Byte :=
  [0xf9, 0xbe, 0xb4, 0xd9] ++ [0x51, 0, 0, 0] ++ headerV1 ++ [1] ++ [1, 0]

/-- What `ParseBlockFromFile` returns on `truncatedAfterMagic`. -/
def blockOfTruncatedAfterMagic : Block :=
  { hash := none, Version := 0, HashPrev := List.replicate 32 0,
    HashMerkle := List.replicate 32 0, Timestamp := Time.ofUnix 0, TargetDifficulty := 0,
    Nonce := 0, MagicId := BLOCK_MAGIC_ID_BITCOIN, Length := 0, TransactionCount := 0,
    Transactions := [], StartPos := 0 }

/-- What `ParseBlockFromFile` returns on `truncatedInTx`. -/
def blockOfTruncatedInTx : Block :=
  { hash := none, Version := 1, HashPrev := List.replicate 32 0,
    HashMerkle := List.replicate 32 0, Timestamp := Time.ofUnix 0, TargetDifficulty := 0,
    Nonce := 0, MagicId := BLOCK_MAGIC_ID_BITCOIN, Length := 81, TransactionCount := 1,
    Transactions := [{ hash := none, Version := 1, Locktime := 0, Vin := [], Vout := [],
                       StartPos := 89 }],
    StartPos := 0 }

/-- A stream whose bytes at offset 1 are not the mainnet magic. -/
def probeStream : List Byte := [0xAA, 0xf9, 0xbe, 0xb4, 0xd8, 1, 2]

/-- A stream holding, at offset 2, the 2-byte form of 0x1234 and six more bytes. -/
def varintStream : List Byte := [7, 7, 0xFD, 0x34, 0x12, 1, 2, 3, 4, 5, 6]

/-- A transaction with one input carrying a two-item witness stack. -/
def txWithWitness : Transaction :=
  { hash := none, Version := 2, Locktime := 0,
    Vin := [{ Hash := List.replicate 32 9, Index := 1, Script := [0x51], Sequence := 4294967295,
              ScriptWitness := [[0x30, 0x44], [0x02]] }],
    Vout := [{ Value := 5000, Script := [0x6a] }], StartPos := 0 }

/-- The transaction `txWithWitness` with the witness stack removed. -/
def txWithoutWitness : Transaction :=
  { hash := none, Version := 2, Locktime := 0,
    Vin := [{ Hash := List.replicate 32 9, Index := 1, Script := [0x51], Sequence := 4294967295,
              ScriptWitness := [] }],
    Vout := [{ Value := 5000, Script := [0x6a] }], StartPos := 0 }

/-- The extended-encoding stream `01000000 00 01 00 00 00000000`: version 1, marker,
flag 1, no inputs, no outputs, locktime 0. -/
def extendedNoInputs : List Byte := [1, 0, 0, 0, 0, 1, 0, 0, 0, 0, 0, 0]

/-- Version 1, no inputs, no outputs, locktime 0, decoded at offset 0. -/
def emptyTxV1 : Transaction :=
  { hash := none, Version := 1, Locktime := 0, Vin := [], Vout := [], StartPos := 0 }

/-- The legacy serialization of a version-1 transaction with no inputs and one output
(value 0, empty script), locktime 0: `01000000 00 01 0000000000000000 00 00000000`. -/
def legacyZeroInputs : List Byte :=
  [1, 0, 0, 0] ++ [0] ++ [1] ++ List.replicate 8 0 ++ [0] ++ [0, 0, 0, 0]

/-- An extended-encoding stream of 70 bytes: version 2, marker, flag 1, one input (script
`51`), one output (value 5000, script `6a`), a witness stack of two items (`30 44` and
`02`), locktime 0.  It decodes to `txWithWitness`. -/
def segwitStream : List Byte :=
  [2, 0, 0, 0, 0, 1, 1] ++ List.replicate 32 9
    ++ [1, 0, 0, 0, 1, 0x51, 0xFF, 0xFF, 0xFF, 0xFF, 1, 0x88, 0x13, 0, 0, 0, 0, 0, 0, 1, 0x6a,
        2, 2, 0x30, 0x44, 1, 0x02, 0, 0, 0, 0]

/-- The legacy serialization of `txWithoutWitness` (62 bytes). -/
def legacyStream : List Byte :=
  [2, 0, 0, 0, 1] ++ List.replicate 32 9
    ++ [1, 0, 0, 0, 1, 0x51, 0xFF, 0xFF, 0xFF, 0xFF, 1, 0x88, 0x13, 0, 0, 0, 0, 0, 0, 1, 0x6a,
        0, 0, 0, 0]

/-! ## transaction.go: `HasWitness` -/

/-- The loop of `HasWitness`: return `true` at the first input whose witness stack has an
item. -/
def hasWitnessLoop : List TxInput → Bool
  | [] => false
  | inp :: rest => if inp.ScriptWitness.length > 0 then true else hasWitnessLoop rest

def Transaction.HasWitness (tx : Transaction) : Bool := hasWitnessLoop tx.Vin

/-! ## The witness step as section 4.5 of the specification words it -/

/-- Read `k` witness items: for each, a CompactSize length and that many bytes; `none`
when an item is longer than `make` allocates. -/
def readStackItems : Nat → BlockFile → Option (List (List Byte)) × BlockFile
  | 0, blockFile => (some [], blockFile)
  | k + 1, blockFile =>
    let len := blockFile.ReadVarint
    match len.2.ReadBytesOrPanic len.1 with
    | (none, bfp) => (none, bfp)
    | (some item, bf1) =>
      match readStackItems k bf1 with
      | (none, bfp) => (none, bfp)
      | (some items, bf2) => (some (item :: items), bf2)

/-- Read one witness stack: a CompactSize item count, then that many items; `none` when
the stack of that many items cannot be made or an item cannot. -/
def readStack (blockFile : BlockFile) : Option (List (List Byte)) × BlockFile :=
  let count := blockFile.ReadVarint
  if count.1 * 24 ≤ maxAlloc then readStackItems count.1 count.2 else (none, count.2)

/-- Read `n` witness stacks one after the other. -/
def readStacks : Nat → BlockFile → Option (List (List (List Byte))) × BlockFile
  | 0, blockFile => (some [], blockFile)
  | n + 1, blockFile =>
    match readStack blockFile with
    | (none, bfp) => (none, bfp)
    | (some s, bf1) =>
      match readStacks n bf1 with
      | (none, bfp) => (none, bfp)
      | (some r, bf2) => (some (s :: r), bf2)

/-- Give each input, in order, the stack at the same place in `stks`. -/
def attachWitnesses (vin : List TxInput) (stks : List (List (List Byte))) : List TxInput :=
  List.zipWith (fun inp w => { inp with ScriptWitness := w }) vin stks

/-! ## db/databuf.go -/

namespace db

/-- A `DataBuf`: `b` holds the bytes of the slice up to its capacity, that is the value
followed by the bytes that stand behind it in its backing array, and `pos` is the read
position.  The code never takes `len(buf.b)`; it only forms slice expressions
`buf.b[lo:hi]`, whose upper bound in Go is `cap(buf.b)`. -/
structure DataBuf where
  b : List Byte
  pos : Nat
  deriving DecidableEq, Repr

/-- `NewDataBuf(b)` for a slice with the bytes `b` and, behind them in its backing array,
the bytes `spare`: `len(b) = b.length` and `cap(b) = b.length + spare.length`.  Without
the second argument the slice has no spare capacity. -/
def NewDataBuf (b : List Byte) (spare : List Byte := []) : DataBuf :=
  { b := b ++ spare, pos := 0 }

namespace DataBuf

/-- The slice expression `buf.b[buf.pos : buf.pos+length]`; `none` is the run-time panic
for bounds out of range, which Go raises when `buf.pos+length` is above the capacity. -/
def slice (buf : DataBuf) (length : Nat) : Option (List Byte) :=
  if buf.pos + length ≤ buf.b.length then some ((buf.b.drop buf.pos).take length) else none

def ShiftByte (buf : DataBuf) : Option (Byte × DataBuf) :=
  match buf.slice 1 with
  | none => none
  | some val => some (val.getD 0 0, { buf with pos := buf.pos + 1 })

def ShiftBytes (buf : DataBuf) (length : Nat) : Option (List Byte × DataBuf) :=
  match buf.slice length with
  | none => none
  | some val => some (val, { buf with pos := buf.pos + length })

def ShiftU32bit (buf : DataBuf) : Option (Nat × DataBuf) :=
  match buf.slice 4 with
  | none => none
  | some val => some (LittleEndian.Uint32 val, { buf with pos := buf.pos + 4 })

def Shift32bit (buf : DataBuf) : Option (Int × DataBuf) :=
  match buf.slice 4 with
  | none => none
  | some val => some (toInt32 (LittleEndian.Uint32 val), { buf with pos := buf.pos + 4 })

/-- The loop of `ShiftVarint`.  The first argument is `buf.b` from `buf.pos` on, up to the
capacity: each turn takes its first byte (`buf.b[buf.pos : buf.pos+1][0]`, a panic when
the capacity is used up) and advances `pos`; `n` is the unsigned 64-bit accumulator. -/
def varintLoop : List Byte → Nat → Nat → Option (Nat × Nat)
  | [], _, _ => none
  | b :: rest, n, pos =>
    let n1 := ((n <<< 7) % 18446744073709551616) ||| (b.val &&& 0x7F)
    if b.val &&& 0x80 > 0 then varintLoop rest ((n1 + 1) % 18446744073709551616) (pos + 1)
    else some (n1, pos + 1)

def ShiftVarint (buf : DataBuf) : Option (Nat × DataBuf) :=
  match varintLoop (buf.b.drop buf.pos) 0 buf.pos with
  | none => none
  | some r => some (r.1, { buf with pos := r.2 })

end DataBuf

/-! ## db/db.go: the metadata records -/

def BLOCK_HAVE_DATA : Nat := 8

def BLOCK_HAVE_UNDO : Nat := 16

structure BlockIndexRecord where
  Version : Int
  Height : Int
  Status : Nat
  NTx : Nat
  NFile : Int
  NDataPos : Nat
  NUndoPos : Nat
  HashPrev : Hash256
  HashMerkleRoot : Hash256
  NTime : Time
  NBits : Nat
  NNonce : Nat
  deriving DecidableEq, Repr

structure FileInfoRecord where
  NumOfBlocks : Nat
  Size : Nat
  UndoSize : Nat
  HeightFirst : Nat
  HeightLast : Nat
  TimeFirst : Time
  TimeLast : Time
  deriving DecidableEq, Repr

structure TxIndexRecord where
  NFile : Int
  NDataPos : Nat
  NTxOffset : Nat
  deriving DecidableEq, Repr

/-- Conversion `uint32(v)` of an unsigned 64-bit value. -/
def u32 (v : Nat) : Nat := v % 4294967296

/-- Conversion `int32(v)` of an unsigned 64-bit value. -/
def i32 (v : Nat) : Int := toInt32 (v % 4294967296)

/-- The body of `NewBlockIndexRecordFromBytes` on its `dataBuf`: the record and the buffer
afterwards.  The fields `NFile`, `NDataPos`, `NUndoPos` start at zero in `&BlockIndexRecord{}`. -/
def decodeBlockIndexRecord (dataBuf : DataBuf) : Option (BlockIndexRecord × DataBuf) := do
  let r0 ← dataBuf.ShiftVarint
  let rH ← r0.2.ShiftVarint
  let rS ← rH.2.ShiftVarint
  let rN ← rS.2.ShiftVarint
  let status := u32 rS.1
  let rF ← (if status &&& (BLOCK_HAVE_DATA ||| BLOCK_HAVE_UNDO) > 0
    then (rN.2.ShiftVarint).map (fun r => (i32 r.1, r.2)) else some ((0 : Int), rN.2))
  let rD ← (if status &&& BLOCK_HAVE_DATA > 0
    then (rF.2.ShiftVarint).map (fun r => (u32 r.1, r.2)) else some ((0 : Nat), rF.2))
  let rU ← (if status &&& BLOCK_HAVE_UNDO > 0
    then (rD.2.ShiftVarint).map (fun r => (u32 r.1, r.2)) else some ((0 : Nat), rD.2))
  let h1 ← rU.2.Shift32bit
  let h2 ← h1.2.ShiftBytes 32
  let h3 ← h2.2.ShiftBytes 32
  let h4 ← h3.2.ShiftU32bit
  let h5 ← h4.2.ShiftU32bit
  let h6 ← h5.2.ShiftU32bit
  pure ({ Version := h1.1, Height := i32 rH.1, Status := status, NTx := u32 rN.1,
          NFile := rF.1, NDataPos := rD.1, NUndoPos := rU.1, HashPrev := h2.1,
          HashMerkleRoot := h3.1, NTime := Time.ofUnix (h4.1 : Int), NBits := h5.1,
          NNonce := h6.1 }, h6.2)

/-- `NewBlockIndexRecordFromBytes(b)` for a slice `b` with the bytes `spare` behind it in
its backing array; `none` is a run-time panic. -/
def NewBlockIndexRecordFromBytes (b : List Byte) (spare : List Byte := []) :
    Option BlockIndexRecord :=
  (decodeBlockIndexRecord (NewDataBuf b spare)).map (fun r => r.1)

/-- The body of `NewFileInfoRecordFromBytes` on its `dataBuf`. -/
def decodeFileInfoRecord (dataBuf : DataBuf) : Option (FileInfoRecord × DataBuf) := do
  let r1 ← dataBuf.ShiftVarint
  let r2 ← r1.2.ShiftVarint
  let r3 ← r2.2.ShiftVarint
  let r4 ← r3.2.ShiftVarint
  let r5 ← r4.2.ShiftVarint
  let r6 ← r5.2.ShiftVarint
  let r7 ← r6.2.ShiftVarint
  pure ({ NumOfBlocks := u32 r1.1, Size := u32 r2.1, UndoSize := u32 r3.1,
          HeightFirst := u32 r4.1, HeightLast := u32 r5.1,
          TimeFirst := Time.ofUnix (toInt64 r6.1), TimeLast := Time.ofUnix (toInt64 r7.1) },
        r7.2)

/-- `NewFileInfoRecordFromBytes(b)` for a slice `b` with the bytes `spare` behind it in
its backing array; `none` is a run-time panic. -/
def NewFileInfoRecordFromBytes (b : List Byte) (spare : List Byte := []) :
    Option FileInfoRecord :=
  (decodeFileInfoRecord (NewDataBuf b spare)).map (fun r => r.1)

/-- The body of `NewTxIndexRecordFromBytes` on its `dataBuf`. -/
def decodeTxIndexRecord (dataBuf : DataBuf) : Option (TxIndexRecord × DataBuf) := do
  let r1 ← dataBuf.ShiftVarint
  let r2 ← r1.2.ShiftVarint
  let r3 ← r2.2.ShiftVarint
  pure ({ NFile := i32 r1.1, NDataPos := u32 r2.1, NTxOffset := u32 r3.1 }, r3.2)

/-- `NewTxIndexRecordFromBytes(b)` for a slice `b` with the bytes `spare` behind it in
its backing array; `none` is a run-time panic. -/
def NewTxIndexRecordFromBytes (b : List Byte) (spare : List Byte := []) :
    Option TxIndexRecord :=
  (decodeTxIndexRecord (NewDataBuf b spare)).map (fun r => r.1)

/-! ### ContinuationVarint encodings -/

/-- A complete ContinuationVarint encoding: every byte but the last has its top bit set
and the last has it clear. -/
def isVarint : List Byte → Bool
  | [] => false
  | [b] => decide (b.val < 128)
  | b :: rest => decide (128 ≤ b.val) && isVarint rest

/-- The value that `ShiftVarint` reads from the bytes `e` (0 when it panics). -/
def varintValue (e : List Byte) : Nat :=
  match DataBuf.varintLoop e 0 0 with
  | some r => r.1
  | none => 0

/-- The fixed-width header tuple of a `BlockIndexRecord`, read from the 80 bytes `H`, next
to the values `height`, `status`, `ntx`, `nfile`, `ndata`, `nundo`. -/
def recordOf (height : Int) (status ntx : Nat) (nfile : Int) (ndata nundo : Nat)
    (H : List Byte) : BlockIndexRecord :=
  { Version := toInt32 (LittleEndian.Uint32 (H.take 4)), Height := height, Status := status,
    NTx := ntx, NFile := nfile, NDataPos := ndata, NUndoPos := nundo,
    HashPrev := (H.drop 4).take 32, HashMerkleRoot := (H.drop 36).take 32,
    NTime := Time.ofUnix (LittleEndian.Uint32 ((H.drop 68).take 4) : Int),
    NBits := LittleEndian.Uint32 ((H.drop 72).take 4),
    NNonce := LittleEndian.Uint32 ((H.drop 76).take 4) }

/-! ### Readers and the bytes they consume -/

/-- The buffer `buf` with its position moved forward by `k` bytes. -/
def DataBuf.skip (buf : DataBuf) (k : Nat) : DataBuf := { buf with pos := buf.pos + k }

/-- The bytes of `buf` from its position to its capacity. -/
def DataBuf.remaining (buf : DataBuf) : List Byte := buf.b.drop buf.pos

/-- A reader `f` is determined by the bytes it consumes: when it succeeds, it has consumed
a prefix `got` of the remaining bytes and left the rest of the buffer alone, and on every
buffer whose remaining bytes start with `got` it returns the same value and consumes the
same bytes. -/
def Reads {α : Type} (f : DataBuf → Option (α × DataBuf)) : Prop :=
  ∀ buf v buf1, f buf = some (v, buf1) →
    ∃ got rest, buf.remaining = got ++ rest ∧ buf1 = buf.skip got.length
      ∧ ∀ buf2 rest2, buf2.remaining = got ++ rest2 → f buf2 = some (v, buf2.skip got.length)



/-- The part of `NewBlockIndexRecordFromBytes` that follows the discarded leading varint,
on the buffer as that varint left it. -/
def decodeBlockIndexRecordBody (dataBuf : DataBuf) : Option (BlockIndexRecord × DataBuf) := do
  let rH ← dataBuf.ShiftVarint
  let rS ← rH.2.ShiftVarint
  let rN ← rS.2.ShiftVarint
  let status := u32 rS.1
  let rF ← (if status &&& (BLOCK_HAVE_DATA ||| BLOCK_HAVE_UNDO) > 0
    then (rN.2.ShiftVarint).map (fun r => (i32 r.1, r.2)) else some ((0 : Int), rN.2))
  let rD ← (if status &&& BLOCK_HAVE_DATA > 0
    then (rF.2.ShiftVarint).map (fun r => (u32 r.1, r.2)) else some ((0 : Nat), rF.2))
  let rU ← (if status &&& BLOCK_HAVE_UNDO > 0
    then (rD.2.ShiftVarint).map (fun r => (u32 r.1, r.2)) else some ((0 : Nat), rD.2))
  let h1 ← rU.2.Shift32bit
  let h2 ← h1.2.ShiftBytes 32
  let h3 ← h2.2.ShiftBytes 32
  let h4 ← h3.2.ShiftU32bit
  let h5 ← h4.2.ShiftU32bit
  let h6 ← h5.2.ShiftU32bit
  pure ({ Version := h1.1, Height := i32 rH.1, Status := status, NTx := u32 rN.1,
          NFile := rF.1, NDataPos := rD.1, NUndoPos := rU.1, HashPrev := h2.1,
          HashMerkleRoot := h3.1, NTime := Time.ofUnix (h4.1 : Int), NBits := h5.1,
          NNonce := h6.1 }, h6.2)

end db

/-! ## util.go: `ReverseHex` -/

/-- The assignment `newb[i], newb[opp] = newb[opp], newb[i]`: both right-hand sides are
read before either element is written. -/
def swapBytes (newb : List Byte) (i opp : Nat) : List Byte :=
  (newb.set i (newb.getD opp 0)).set opp (newb.getD i 0)

/-- The loop of `ReverseHex`, `for i := len(newb)/2 - 1; i >= 0; i--`: `k` iterations are
left and the next one runs with `i = k - 1`. -/
def reverseHexLoop : Nat → List Byte → List Byte
  | 0, newb => newb
  | k + 1, newb => reverseHexLoop k (swapBytes newb k (newb.length - 1 - k))

/-- `ReverseHex(b)`: the loop runs on a copy of `b`. -/
def ReverseHex (b : List Byte) : List Byte := reverseHexLoop (b.length / 2) b

/-! ## encoding/hex, with a Go `string` as the list of its bytes -/

namespace hex

/-- An entry of `hextable = "0123456789abcdef"`. -/
def hextable (d : Nat) : Byte := if d < 10 then byte (48 + d) else byte (87 + d)

/-- `hex.EncodeToString(src)`. -/
def EncodeToString : List Byte → List Byte
  | [] => []
  | v :: src => hextable (v.val / 16) :: hextable (v.val % 16) :: EncodeToString src

/-- The value of a hex digit, upper or lower case; `none` for any other character. -/
def fromHexChar (c : Byte) : Option Nat :=
  if 48 ≤ c.val ∧ c.val ≤ 57 then some (c.val - 48)
  else if 97 ≤ c.val ∧ c.val ≤ 102 then some (c.val - 97 + 10)
  else if 65 ≤ c.val ∧ c.val ≤ 70 then some (c.val - 65 + 10)
  else none

/-- The errors of `hex.DecodeString`. -/
inductive HexErr where
  | InvalidByteError (c : Byte)
  | ErrLength
  deriving DecidableEq, Repr

/-- `hex.DecodeString(s)`: pairs of digits from the left; a character that is no digit is
reported where it is met, an odd length after the pairs before it were found good. -/
def DecodeString : List Byte → Except HexErr (List Byte)
  | [] => .ok []
  | [c] =>
    match fromHexChar c with
    | none => .error (.InvalidByteError c)
    | some _ => .error .ErrLength
  | p :: q :: s =>
    match fromHexChar p with
    | none => .error (.InvalidByteError p)
    | some a =>
      match fromHexChar q with
      | none => .error (.InvalidByteError q)
      | some b =>
        match DecodeString s with
        | .error e => .error e
        | .ok rest => .ok (byte (a * 16 + b) :: rest)

end hex

/-- `hash.String()`: the display form of a hash. -/
def Hash256.String (hash : Hash256) : List Byte := hex.EncodeToString (ReverseHex hash)

/-! ## transaction.go: calling `Txid` -/

/-- The body of `Txid()` run on its receiver variable `tx`: the value returned and `tx`
after the assignment `tx.hash = DoubleSha256(bin)`. -/
def Transaction.txidBody (tx : Transaction) : Hash256 × Transaction :=
  match tx.hash with
  | some h => (h, tx)
  | none =>
    let h := DoubleSha256 tx.txidBin
    (h, { tx with hash := some h })

/-- A call `t.Txid()`: the value returned and the caller's `t` after the call.  The method
is declared `func (tx Transaction) Txid()`, so the body runs on a copy of `t` and what it
assigns to `tx.hash` is dropped on return. -/
def Transaction.callTxid (t : Transaction) : Hash256 × Transaction :=
  ((Transaction.txidBody t).1, t)

/-! ## transaction.go: reading at a position taken from the index -/

/-- `pos-8` on `uint32`. -/
def sub32 (a b : Nat) : Nat := (a + 4294967296 - b % 4294967296) % 4294967296

/-- `NewTxFromFile`, from the result `opened` of `NewBlockFile(blockchainDataDir, num)`
on. -/
def NewTxFromFile (opened : Except Err BlockFile) (magicHeader : Nat) (pos txPos : Nat) :
    Except Err Transaction :=
  match opened with
  | .error e => .error e
  | .ok blockFile =>
    match blockFile.Seek ((sub32 pos 8 : Nat) : Int) 0 with
    | (.error e, _) => .error e
    | (.ok _, bf0) =>
      let m := bf0.ReadUint32
      if m.1 ≠ magicHeader then .error .invalidMagic
      else
        match ParseBlockHeaderFromFile m.2 { Block.zero with MagicId := m.1 } with
        | (some e, _, _) => .error e
        | (none, _, bf1) =>
          match bf1.Seek ((txPos : Nat) : Int) 1 with
          | (.error e, _) => .error e
          | (.ok _, bf2) => (ParseBlockTransactionFromFile bf2).1

/-! ## The record layout in the words of the format -/

/-- Decode `n` transactions one after the other, each from where the one before it ended;
`none` when one of them is refused. -/
def decodeTransactions : Nat → BlockFile → Option (List Transaction × BlockFile)
  | 0, blockFile => some ([], blockFile)
  | n + 1, blockFile =>
    match ParseBlockTransactionFromFile blockFile with
    | (.error _, _) => none
    | (.ok tx, bf) =>
      match decodeTransactions n bf with
      | none => none
      | some r => some (tx :: r.1, r.2)

/-- The header that the 80 bytes `H` serialize, its hash not yet computed. -/
def headerOf (H : List Byte) : BlockHeader :=
  { hash := none,
    Version := toInt32 (LittleEndian.Uint32 (H.take 4)),
    HashPrev := (H.drop 4).take 32,
    HashMerkle := (H.drop 36).take 32,
    Timestamp := Time.ofUnix (LittleEndian.Uint32 ((H.drop 68).take 4) : Int),
    TargetDifficulty := LittleEndian.Uint32 ((H.drop 72).take 4),
    Nonce := LittleEndian.Uint32 ((H.drop 76).take 4) }

/-- The first `k` bytes left at the cursor, with zero bytes where the file has ended. -/
def BlockFile.padded (blockFile : BlockFile) (k : Nat) : List Byte :=
  ((blockFile.file.contents.drop blockFile.file.offset) ++ List.replicate k 0).take k

/-- The number of bytes left at the cursor. -/
def BlockFile.left (blockFile : BlockFile) : Nat :=
  blockFile.file.contents.length - blockFile.file.offset

/-- The cursor after a read of `k` bytes: moved forward by `k`, or to the end of the file
when fewer than `k` bytes were left. -/
def BlockFile.after (blockFile : BlockFile) (k : Nat) : BlockFile :=
  blockFile.advance (min k blockFile.left)

/-! ## More concrete streams -/

/-- One byte, then a mainnet record with `recordBodyV1` (no transactions). -/
def recordAtOne : List Byte := [0xAA] ++ [0xf9, 0xbe, 0xb4, 0xd9] ++ recordBodyV1

/-- A file of 200 bytes: 12 bytes, a mainnet record whose header starts at offset 20 and
that announces no transaction, 5 more bytes, and the 62 bytes of `legacyStream` at offset
106; zero bytes to the end. -/
def fileWithTx : List Byte :=
  List.replicate 12 7 ++ [0xf9, 0xbe, 0xb4, 0xd9] ++ recordBodyV1 ++ List.replicate 5 7
    ++ legacyStream ++ List.replicate 32 0

/-- A file of 24 bytes that ends inside a record header: 12 bytes, the mainnet magic at
offset 12, the length field, and the first 4 of the 80 header bytes. -/
def fileCutInHeader : List Byte :=
  List.replicate 12 7 ++ [0xf9, 0xbe, 0xb4, 0xd9] ++ [0x51, 0, 0, 0] ++ [1, 0, 0, 0]

/-- A legacy stream whose first input announces a script of 2^64 - 1 bytes: version 1,
one input with an all-zero hash and index 0, and the script length `FF FF .. FF`. -/
def oversizedScriptStream : List Byte :=
  [1, 0, 0, 0] ++ [1] ++ List.replicate 32 0 ++ [0, 0, 0, 0] ++ List.replicate 9 0xFF

/-- A mainnet record at offset 0 announcing one transaction: length field 143, `headerV1`,
count 1, and the 62 bytes of `legacyStream`. -/
def recordOneTx : List Byte :=
  [0xf9, 0xbe, 0xb4, 0xd9] ++ [0x8F, 0, 0, 0] ++ headerV1 ++ [1] ++ legacyStream

/-! ## Fields within the range of their Go types -/

/-- The bounds on an input whose serialization uses a one-byte script length: a hash of
32 bytes, `Index` and `Sequence` unsigned 32-bit, and a script of at most 252 bytes. -/
def TxInput.small (inp : TxInput) : Prop :=
  inp.Hash.length = 32 ∧ inp.Index < 4294967296 ∧ inp.Script.length ≤ 252
    ∧ inp.Sequence < 4294967296

/-- The bounds on an output whose serialization uses a one-byte script length: `Value`
signed 64-bit and a script of at most 252 bytes. -/
def TxOutput.small (out : TxOutput) : Prop :=
  -9223372036854775808 ≤ out.Value ∧ out.Value < 9223372036854775808
    ∧ out.Script.length ≤ 252

instance (inp : TxInput) : Decidable inp.small := by
  unfold TxInput.small
  infer_instance

instance (out : TxOutput) : Decidable out.small := by
  unfold TxOutput.small
  infer_instance

/-! ## rpc/rpc.go and rpc/structs.go -/

namespace rpc

/-- `pack_varint(val)` for an unsigned 64-bit `val`. -/
def pack_varint (val : Nat) : List Byte :=
  if val > 0xFFFFFFFF then [0xFF] ++ LittleEndian.PutUint64 val
  else if val > 0xFFFF then [0xFE] ++ LittleEndian.PutUint32 (val % 4294967296)
  else if val > 0xFC then [0xFD] ++ LittleEndian.PutUint16 (val % 65536)
  else [byte val]

/-- A `TxnBuf`: the bytes of the slice, up to its capacity, and the read position. -/
structure TxnBuf where
  b : List Byte
  pos : Nat
  deriving DecidableEq, Repr

namespace TxnBuf

/-- The slice expression `txnBuf.b[txnBuf.pos : txnBuf.pos+length]`; `none` is the
run-time panic of a slice that runs past the capacity. -/
def slice (txnBuf : TxnBuf) (length : Nat) : Option (List Byte) :=
  if txnBuf.pos + length ≤ txnBuf.b.length then some ((txnBuf.b.drop txnBuf.pos).take length)
  else none

def shift_byte (txnBuf : TxnBuf) : Option (Byte × TxnBuf) :=
  match txnBuf.slice 1 with
  | none => none
  | some val => some (val.getD 0 0, { txnBuf with pos := txnBuf.pos + 1 })

def shift_16bit (txnBuf : TxnBuf) : Option (Nat × TxnBuf) :=
  match txnBuf.slice 2 with
  | none => none
  | some val => some (LittleEndian.Uint16 val, { txnBuf with pos := txnBuf.pos + 2 })

def shift_32bit (txnBuf : TxnBuf) : Option (Nat × TxnBuf) :=
  match txnBuf.slice 4 with
  | none => none
  | some val => some (LittleEndian.Uint32 val, { txnBuf with pos := txnBuf.pos + 4 })

def shift_64bit (txnBuf : TxnBuf) : Option (Nat × TxnBuf) :=
  match txnBuf.slice 8 with
  | none => none
  | some val => some (LittleEndian.Uint64 val, { txnBuf with pos := txnBuf.pos + 8 })

def shift_varint (txnBuf : TxnBuf) : Option (Nat × TxnBuf) :=
  match txnBuf.shift_byte with
  | none => none
  | some (intType, buf) =>
    if intType = 0xFF then buf.shift_64bit
    else if intType = 0xFE then buf.shift_32bit
    else if intType = 0xFD then buf.shift_16bit
    else some (intType.val, buf)

end TxnBuf

end rpc

/-! ## db/db.go: lookups by hash -/

namespace db

/-- The `Get` of the LevelDB handle inside an `IndexDb`: the value stored under a key,
taken up to the capacity of the slice that is returned, or the number of the error it
reports. -/
structure IndexDb where
  Get : List Byte → Except Nat (List Byte)

/-- The errors of the lookups: the one of `hex.DecodeString` or the one of `Get`. -/
inductive LookupErr where
  | decode (e : hex.HexErr)
  | get (e : Nat)
  deriving DecidableEq, Repr

/-- `GetBlockIndexRecord`; `"b"` is the byte 0x62.  The inner `none` is the panic of
`NewBlockIndexRecordFromBytes`. -/
def GetBlockIndexRecord (indexDb : IndexDb) (blockHash : List Byte) :
    Except LookupErr (Option BlockIndexRecord) :=
  match indexDb.Get ([0x62] ++ blockHash) with
  | .error e => .error (.get e)
  | .ok data => .ok (NewBlockIndexRecordFromBytes data)

def GetBlockIndexRecordByBigEndianHex (indexDb : IndexDb) (blockHash : List Byte) :
    Except LookupErr (Option BlockIndexRecord) :=
  match hex.DecodeString blockHash with
  | .error e => .error (.decode e)
  | .ok blockHashInBytes => GetBlockIndexRecord indexDb (ReverseHex blockHashInBytes)

/-- `GetTxIndexRecord`; `"t"` is the byte 0x74. -/
def GetTxIndexRecord (indexDb : IndexDb) (txHash : List Byte) :
    Except LookupErr (Option TxIndexRecord) :=
  match indexDb.Get ([0x74] ++ txHash) with
  | .error e => .error (.get e)
  | .ok data => .ok (NewTxIndexRecordFromBytes data)

def GetTxIndexRecordByBigEndianHex (indexDb : IndexDb) (txHash : List Byte) :
    Except LookupErr (Option TxIndexRecord) :=
  match hex.DecodeString txHash with
  | .error e => .error (.decode e)
  | .ok txHashInBytes => GetTxIndexRecord indexDb (ReverseHex txHashInBytes)


/-! ## db/databuf.go: the value of a ContinuationVarint -/

/-- The accumulator `n` of `ShiftVarint` after the continuation bytes `cs`, started at `n`
and computed without the reduction modulo 2^64: each byte turns `n` into
`n * 128 + (b mod 128) + 1`. -/
def contAcc (cs : List Byte) (n : Nat) : Nat :=
  cs.foldl (fun a c => a * 128 + c.val % 128 + 1) n

/-- The closed form of the value of an encoding `e` of `k + 1` bytes with the 7-bit digits
`d_0 .. d_k`: the sum over `i` of `d_i * 128^(k-i)` plus the sum over `j = 1..k` of
`128^j`. -/
def closedForm (e : List Byte) : Nat :=
  (∑ i ∈ Finset.range e.length, ((e.getD i 0).val % 128) * 128 ^ (e.length - 1 - i))
    + ∑ j ∈ Finset.range (e.length - 1), 128 ^ (j + 1)

end db

end blockchainparser

namespace blockchainparser

set_option maxRecDepth 1000000

/-! ## The cursor: reading bytes that are there -/

theorem drop_of_drop_eq_append {l got rest : List Byte} {off : Nat}
    (h : l.drop off = got ++ rest) : l.drop (off + got.length) = rest := by
  rw [← List.drop_drop, h, List.drop_left]

theorem File.Read_of_drop (f : File) (got rest : List Byte)
    (h : f.contents.drop f.offset = got ++ rest) :
    f.Read got.length = (got, { f with offset := f.offset + got.length }) := by
  simp [File.Read, h]

theorem BlockFile.ReadBytes_advance (bf : BlockFile) (got rest : List Byte)
    (h : bf.file.contents.drop bf.file.offset = got ++ rest) :
    bf.ReadBytes got.length = (got, bf.advance got.length) := by
  simp [BlockFile.ReadBytes, BlockFile.advance, File.Read_of_drop bf.file got rest h]

theorem BlockFile.advance_drop (bf : BlockFile) (got rest : List Byte)
    (h : bf.file.contents.drop bf.file.offset = got ++ rest) :
    (bf.advance got.length).file.contents.drop (bf.advance got.length).file.offset = rest := by
  simpa [BlockFile.advance] using drop_of_drop_eq_append h

theorem BlockFile.advance_advance (bf : BlockFile) (a b : Nat) :
    (bf.advance a).advance b = bf.advance (a + b) := by
  simp [BlockFile.advance, Nat.add_assoc]

theorem BlockFile.advance_zero (bf : BlockFile) : bf.advance 0 = bf := by
  obtain ⟨⟨contents, offset⟩, num⟩ := bf
  rfl

theorem BlockFile.ReadBytes_at (bf : BlockFile) (k n : Nat) (pre got rest : List Byte)
    (h : bf.file.contents.drop bf.file.offset = pre ++ (got ++ rest))
    (hk : pre.length = k) (hn : got.length = n) :
    (bf.advance k).ReadBytes n = (got, bf.advance (k + n)) := by
  subst hk hn
  have d := BlockFile.advance_drop bf pre _ h
  rw [BlockFile.ReadBytes_advance (bf.advance pre.length) got rest d, BlockFile.advance_advance]

theorem File.Seek_current (f : File) : f.Seek 0 1 = (.ok (f.offset : Int), f) := by
  simp [File.Seek]

theorem File.Seek_absolute (f : File) (n : Nat) :
    f.Seek (n : Int) 0 = (.ok (n : Int), { f with offset := n }) := by
  simp [File.Seek]

theorem BlockFile.Seek_cur (bf : BlockFile) :
    bf.Seek 0 1 = (.ok (bf.file.offset : Int), bf) := by
  simp [BlockFile.Seek, File.Seek_current]

theorem BlockFile.Seek_set (bf : BlockFile) (n : Nat) :
    bf.Seek (n : Int) 0 = (.ok (n : Int), { bf with file := { bf.file with offset := n } }) := by
  simp [BlockFile.Seek, File.Seek_absolute]

/-! ## Fixed-width integers -/

theorem byte_val (n : Nat) : (byte n).val = n % 256 := rfl

theorem PutUint32_Uint32 (b0 b1 b2 b3 : Byte) :
    LittleEndian.PutUint32 (LittleEndian.Uint32 [b0, b1, b2, b3]) = [b0, b1, b2, b3] := by
  have h0 := b0.isLt
  have h1 := b1.isLt
  have h2 := b2.isLt
  have h3 := b3.isLt
  simp only [LittleEndian.PutUint32, LittleEndian.Uint32, List.cons.injEq, and_true,
    Fin.ext_iff, byte_val]
  refine ⟨?_, ?_, ?_, ?_⟩ <;> omega

theorem Uint32_lt (l : List Byte) : LittleEndian.Uint32 l < 4294967296 := by
  unfold LittleEndian.Uint32
  split
  · rename_i b0 b1 b2 b3 _
    have h0 := b0.isLt
    have h1 := b1.isLt
    have h2 := b2.isLt
    have h3 := b3.isLt
    omega
  · omega

theorem PutUint32_Uint32_of_length (l : List Byte) (h : l.length = 4) :
    LittleEndian.PutUint32 (LittleEndian.Uint32 l) = l := by
  match l, h with
  | [b0, b1, b2, b3], _ => exact PutUint32_Uint32 b0 b1 b2 b3

theorem toUint32_toInt32 (u : Nat) (h : u < 4294967296) : toUint32 (toInt32 u) = u := by
  unfold toUint32 toInt32
  split <;> omega

theorem toUint32_natCast (u : Nat) (h : u < 4294967296) : toUint32 (u : Int) = u := by
  unfold toUint32
  omega

/-! ## The header decoder on 84 available bytes -/

theorem ParseBlockHeaderFromFile_segments (blockFile : BlockFile) (block : Block)
    (L v hp hm ts bits nonce rest : List Byte)
    (hL : L.length = 4) (hv : v.length = 4) (hhp : hp.length = 32) (hhm : hm.length = 32)
    (hts : ts.length = 4) (hbits : bits.length = 4) (hnonce : nonce.length = 4)
    (hcur : blockFile.file.contents.drop blockFile.file.offset
      = L ++ (v ++ (hp ++ (hm ++ (ts ++ (bits ++ (nonce ++ rest))))))) :
    ParseBlockHeaderFromFile blockFile block =
      (none,
       { block with
         Length := LittleEndian.Uint32 L, Version := toInt32 (LittleEndian.Uint32 v),
         HashPrev := hp, HashMerkle := hm,
         Timestamp := Time.ofUnix (LittleEndian.Uint32 ts : Int),
         TargetDifficulty := LittleEndian.Uint32 bits, Nonce := LittleEndian.Uint32 nonce },
       blockFile.advance 84) := by
  have e1 : blockFile.ReadBytes 4 = (L, blockFile.advance 4) := by
    have := BlockFile.ReadBytes_at blockFile 0 4 [] L _ hcur rfl hL
    rwa [BlockFile.advance_zero] at this
  have e2 : (blockFile.advance 4).ReadBytes 4 = (v, blockFile.advance 8) :=
    BlockFile.ReadBytes_at blockFile 4 4 L v _ hcur hL hv
  have e3 : (blockFile.advance 8).ReadBytes 32 = (hp, blockFile.advance 40) :=
    BlockFile.ReadBytes_at blockFile 8 32 (L ++ v) hp _ (by simpa using hcur)
      (by simp [hL, hv]) hhp
  have e4 : (blockFile.advance 40).ReadBytes 32 = (hm, blockFile.advance 72) :=
    BlockFile.ReadBytes_at blockFile 40 32 (L ++ (v ++ hp)) hm _ (by simpa using hcur)
      (by simp [hL, hv, hhp]) hhm
  have e5 : (blockFile.advance 72).ReadBytes 4 = (ts, blockFile.advance 76) :=
    BlockFile.ReadBytes_at blockFile 72 4 (L ++ (v ++ (hp ++ hm))) ts _ (by simpa using hcur)
      (by simp [hL, hv, hhp, hhm]) hts
  have e6 : (blockFile.advance 76).ReadBytes 4 = (bits, blockFile.advance 80) :=
    BlockFile.ReadBytes_at blockFile 76 4 (L ++ (v ++ (hp ++ (hm ++ ts)))) bits _
      (by simpa using hcur) (by simp [hL, hv, hhp, hhm, hts]) hbits
  have e7 : (blockFile.advance 80).ReadBytes 4 = (nonce, blockFile.advance 84) :=
    BlockFile.ReadBytes_at blockFile 80 4 (L ++ (v ++ (hp ++ (hm ++ (ts ++ bits))))) nonce _
      (by simpa using hcur) (by simp [hL, hv, hhp, hhm, hts, hbits]) hnonce
  simp only [ParseBlockHeaderFromFile, BlockFile.ReadUint32, BlockFile.ReadInt32,
    e1, e2, e3, e4, e5, e6, e7]

/-- An 80-byte string is its six header fields in a row. -/
theorem header_split (H : List Byte) (hH : H.length = 80) :
    H = H.take 4 ++ ((H.drop 4).take 32 ++ ((H.drop 36).take 32
      ++ ((H.drop 68).take 4 ++ ((H.drop 72).take 4 ++ (H.drop 76).take 4)))) := by
  have t : (H.drop 76).take 4 = H.drop 76 := List.take_of_length_le (by simp [hH])
  rw [t]
  have a1 : ∀ (l : List Byte) (a b : Nat), (l.drop a).take b ++ l.drop (a + b) = l.drop a := by
    intro l a b
    rw [← List.drop_drop, List.take_append_drop]
  have s1 := a1 H 72 4
  have s2 := a1 H 68 4
  have s3 := a1 H 36 32
  have s4 := a1 H 4 32
  simp only [Nat.reduceAdd] at s1 s2 s3 s4
  rw [s1, s2, s3, s4, List.take_append_drop]

/-! ## Inputs that agree up to their witness stacks -/

theorem map_Binary_of_forall₂ {l1 l2 : List TxInput}
    (h : List.Forall₂ (fun a b : TxInput => a.Hash = b.Hash ∧ a.Index = b.Index
      ∧ a.Script = b.Script ∧ a.Sequence = b.Sequence) l1 l2) :
    l1.map TxInput.Binary = l2.map TxInput.Binary := by
  induction h with
  | nil => rfl
  | cons hab _ ih =>
    obtain ⟨h1, h2, h3, h4⟩ := hab
    simp [TxInput.Binary, h1, h2, h3, h4, ih]

/-! ## Framing -/

theorem ParseBlockFromFile_of_mismatch (blockFile : BlockFile) (magicHeader : Nat)
    (h : blockFile.ReadUint32.1 ≠ magicHeader) :
    ParseBlockFromFile blockFile magicHeader = (.error .invalidMagic, blockFile) := by
  unfold ParseBlockFromFile
  rw [BlockFile.Seek_cur]
  dsimp only
  rw [if_pos h, BlockFile.Seek_set]
  obtain ⟨⟨contents, offset⟩, num⟩ := blockFile
  rfl

end blockchainparser

namespace blockchainparser

set_option maxRecDepth 1000000

/-! ## Claims about the CompactSize codec and the transaction id -/

/-- C1, evaluated at a legacy transaction whose only input has a 253-byte script.
`ParseBlockTransactionFromFile` decodes all 306 bytes of `legacyTxScript253`, but `Txid`
re-serialises the script length with `Varint 253`, the single byte `FD`, so it hashes a
304-byte string and its result is not `DoubleSha256` of the stream. -/
theorem Txid_legacy_script253_differs :
    ParseBlockTransactionFromFile (BlockFile.ofBytes legacyTxScript253 0)
        = (.ok parsedTxScript253, BlockFile.ofBytes legacyTxScript253 306)
      ∧ legacyTxScript253.length = 306
      ∧ parsedTxScript253.txidBin.length = 304
      ∧ parsedTxScript253.Txid ≠ DoubleSha256 legacyTxScript253 := by
  refine ⟨by decide, by decide, by decide, by decide⟩

/-- C2, evaluated at four of the listed values: reading back `Varint n` with
`ReadVarint` gives 0 for 253 and for 255 (the single byte is taken as a prefix and the
payload is missing), 256 for 65536 and 16777216 for 4294967296 (the payload was written
big-endian and is read little-endian). -/
theorem ReadVarint_Varint_fails :
    ((BlockFile.ofBytes (Varint 253) 0).ReadVarint).1 = 0
      ∧ ((BlockFile.ofBytes (Varint 255) 0).ReadVarint).1 = 0
      ∧ ((BlockFile.ofBytes (Varint 65536) 0).ReadVarint).1 = 256
      ∧ ((BlockFile.ofBytes (Varint 4294967296) 0).ReadVarint).1 = 16777216 := by
  decide

/-- C3, evaluated at the listed values: `Varint 252` is `[FC]`, but `Varint 253` is the
single byte `[FD]`, not `[FD, FD, 00]`, and `Varint 65536` is `[FE, 00, 01, 00, 00]`
(big-endian payload), not `[FE, 00, 00, 01, 00]`. -/
theorem Varint_not_shortest_little_endian :
    Varint 252 = [0xFC]
      ∧ Varint 253 = [0xFD] ∧ Varint 253 ≠ [0xFD, 0xFD, 0x00]
      ∧ Varint 65536 = [0xFE, 0x00, 0x01, 0x00, 0x00]
      ∧ Varint 65536 ≠ [0xFE, 0x00, 0x00, 0x01, 0x00] := by
  decide

/-- C4: CompactSize decoding.  When the bytes at the cursor are `p, b1, .., b8` (at least
nine remain), `ReadVarint` returns `p` and consumes 1 byte if `p < 0xFD`; the
little-endian value of `b1 b2` and consumes 3 if `p = 0xFD`; the little-endian value of
`b1 .. b4` and consumes 5 if `p = 0xFE`; the little-endian value of `b1 .. b8` and
consumes 9 if `p = 0xFF`. -/
theorem ReadVarint_decode (blockFile : BlockFile) (p b1 b2 b3 b4 b5 b6 b7 b8 : Byte)
    (rest : List Byte)
    (h : blockFile.file.contents.drop blockFile.file.offset
          = p :: b1 :: b2 :: b3 :: b4 :: b5 :: b6 :: b7 :: b8 :: rest) :
    blockFile.ReadVarint =
      if p.val < 0xFD then (p.val, blockFile.advance 1)
      else if p.val = 0xFD then (b1.val + 256 * b2.val, blockFile.advance 3)
      else if p.val = 0xFE then
        (b1.val + 256 * b2.val + 65536 * b3.val + 16777216 * b4.val, blockFile.advance 5)
      else
        (b1.val + 256 * b2.val + 65536 * b3.val + 16777216 * b4.val + 4294967296 * b5.val
          + 1099511627776 * b6.val + 281474976710656 * b7.val + 72057594037927936 * b8.val,
         blockFile.advance 9) := by
  have h1 : blockFile.ReadBytes 1 = ([p], blockFile.advance 1) :=
    BlockFile.ReadBytes_advance blockFile [p] _ h
  have d1 : (blockFile.advance 1).file.contents.drop (blockFile.advance 1).file.offset
      = b1 :: b2 :: b3 :: b4 :: b5 :: b6 :: b7 :: b8 :: rest :=
    BlockFile.advance_drop blockFile [p] _ h
  have r2 : (blockFile.advance 1).ReadBytes 2 = ([b1, b2], (blockFile.advance 1).advance 2) :=
    BlockFile.ReadBytes_advance (blockFile.advance 1) [b1, b2] _ d1
  have r4 : (blockFile.advance 1).ReadBytes 4
      = ([b1, b2, b3, b4], (blockFile.advance 1).advance 4) :=
    BlockFile.ReadBytes_advance (blockFile.advance 1) [b1, b2, b3, b4] _ d1
  have r8 : (blockFile.advance 1).ReadBytes 8
      = ([b1, b2, b3, b4, b5, b6, b7, b8], (blockFile.advance 1).advance 8) :=
    BlockFile.ReadBytes_advance (blockFile.advance 1) [b1, b2, b3, b4, b5, b6, b7, b8] _ d1
  have e255 : ((0xFF : Byte) : Nat) = 255 := rfl
  have e254 : ((0xFE : Byte) : Nat) = 254 := rfl
  have e253 : ((0xFD : Byte) : Nat) = 253 := rfl
  have hp : p.val < 256 := p.isLt
  simp only [BlockFile.ReadVarint, BlockFile.ReadByte, h1, BlockFile.ReadUint64,
    BlockFile.ReadUint32, BlockFile.ReadUint16, r2, r4, r8, List.getD_cons_zero,
    LittleEndian.Uint16, LittleEndian.Uint32, LittleEndian.Uint64, Fin.ext_iff,
    BlockFile.advance_advance, e255, e254, e253]
  by_cases c1 : p.val = 255
  · simp [c1]
  · by_cases c2 : p.val = 254
    · simp [c2]
    · by_cases c3 : p.val = 253
      · simp [c3]
      · have : p.val < 253 := by omega
        simp [c1, c2, c3, this]

/-- C4 at `varintStream`, cursor at offset 2: the prefix `FD` and the payload `34 12`
give 0x1234 and the cursor moves to offset 5. -/
theorem ReadVarint_decode_witness :
    (BlockFile.ofBytes varintStream 2).file.contents.drop (BlockFile.ofBytes varintStream 2).file.offset
        = [0xFD, 0x34, 0x12, 1, 2, 3, 4, 5, 6]
      ∧ (BlockFile.ofBytes varintStream 2).ReadVarint = (0x1234, BlockFile.ofBytes varintStream 5) := by
  refine ⟨by decide, ?_⟩
  have h := ReadVarint_decode (BlockFile.ofBytes varintStream 2) 0xFD 0x34 0x12 1 2 3 4 5 6 []
    (by decide)
  rw [h]
  decide

/-- C5: `Txid` is witness-independent.  Two transactions with the same memoized-hash
field, `Version`, `Locktime` and `Vout`, whose inputs agree pairwise on `Hash`, `Index`,
`Script` and `Sequence` (only the `ScriptWitness` stacks may differ), have the same
`Txid`. -/
theorem Txid_witness_independent (tx1 tx2 : Transaction)
    (hhash : tx1.hash = tx2.hash) (hver : tx1.Version = tx2.Version)
    (hlock : tx1.Locktime = tx2.Locktime) (hout : tx1.Vout = tx2.Vout)
    (hin : List.Forall₂ (fun a b : TxInput => a.Hash = b.Hash ∧ a.Index = b.Index
      ∧ a.Script = b.Script ∧ a.Sequence = b.Sequence) tx1.Vin tx2.Vin) :
    tx1.Txid = tx2.Txid := by
  have hbin : tx1.txidBin = tx2.txidBin := by
    simp only [Transaction.txidBin, hver, hlock, hout, hin.length_eq, map_Binary_of_forall₂ hin]
  simp only [Transaction.Txid, hhash, hbin]

/-- C5 at `txWithWitness` and `txWithoutWitness`, which differ in the witness stack of
their input and in nothing else. -/
theorem Txid_witness_independent_witness :
    txWithWitness.Vin ≠ txWithoutWitness.Vin ∧ txWithWitness.Txid = txWithoutWitness.Txid :=
  ⟨by decide,
   Txid_witness_independent txWithWitness txWithoutWitness rfl rfl rfl rfl
     (List.Forall₂.cons ⟨rfl, rfl, rfl, rfl⟩ List.Forall₂.nil)⟩

/-! ## Claims about framing and the header -/

/-- C6: framing mismatch restores position.  When the next four bytes, read as a
little-endian unsigned 32-bit value, differ from the expected magic, `ParseBlockFromFile`
returns the error and no block, the cursor is exactly as before the call (same position),
and a following 4-byte read returns the same bytes as it would have before. -/
theorem ParseBlockFromFile_magic_mismatch (blockFile : BlockFile) (magicHeader : Nat)
    (h : blockFile.ReadUint32.1 ≠ magicHeader) :
    (ParseBlockFromFile blockFile magicHeader).1 = .error .invalidMagic
      ∧ (ParseBlockFromFile blockFile magicHeader).2.file.offset = blockFile.file.offset
      ∧ (ParseBlockFromFile blockFile magicHeader).2 = blockFile
      ∧ ((ParseBlockFromFile blockFile magicHeader).2.ReadBytes 4).1
          = (blockFile.ReadBytes 4).1 := by
  rw [ParseBlockFromFile_of_mismatch blockFile magicHeader h]
  exact ⟨rfl, rfl, rfl, rfl⟩

/-- C6 at `probeStream`, cursor at offset 1, probing for the mainnet magic: the bytes
`f9 be b4 d8` are not the magic, the call fails and the cursor stays at offset 1. -/
theorem ParseBlockFromFile_magic_mismatch_witness :
    (BlockFile.ofBytes probeStream 1).ReadUint32.1 ≠ BLOCK_MAGIC_ID_BITCOIN
      ∧ (ParseBlockFromFile (BlockFile.ofBytes probeStream 1) BLOCK_MAGIC_ID_BITCOIN).1
          = .error .invalidMagic
      ∧ (ParseBlockFromFile (BlockFile.ofBytes probeStream 1) BLOCK_MAGIC_ID_BITCOIN).2.file.offset
          = 1
      ∧ ((ParseBlockFromFile (BlockFile.ofBytes probeStream 1)
            BLOCK_MAGIC_ID_BITCOIN).2.ReadBytes 4).1 = [0xf9, 0xbe, 0xb4, 0xd8] := by
  have h := ParseBlockFromFile_magic_mismatch (BlockFile.ofBytes probeStream 1)
    BLOCK_MAGIC_ID_BITCOIN (by decide)
  refine ⟨by decide, h.1, h.2.1, ?_⟩
  rw [h.2.2.2]
  decide

/-- C7, evaluated at two truncated mainnet records.  On `truncatedAfterMagic` (the stream
ends inside the length field) and on `truncatedInTx` (it ends two bytes into the first
transaction) `ParseBlockFromFile` returns a block and no error, built from zero-filled
reads, and leaves the cursor at the end of the data, not at the record start. -/
theorem ParseBlockFromFile_truncated_returns_block :
    ParseBlockFromFile (BlockFile.ofBytes truncatedAfterMagic 0) BLOCK_MAGIC_ID_BITCOIN
        = (.ok blockOfTruncatedAfterMagic, BlockFile.ofBytes truncatedAfterMagic 4)
      ∧ ParseBlockFromFile (BlockFile.ofBytes truncatedInTx 0) BLOCK_MAGIC_ID_BITCOIN
        = (.ok blockOfTruncatedInTx, BlockFile.ofBytes truncatedInTx 91) := by
  refine ⟨by decide, by decide⟩

/-- C8: the header hash is over the on-disk bytes.  With the 4-byte length field `L` and
the 80-byte header `H` at the cursor, and a block whose cached hash is unset (as in
`&Block{}`), after `ParseBlockHeaderFromFile` the byte string that `Hash` serialises is
exactly `H`, it is 80 bytes long, and `Hash()` returns `DoubleSha256 H`. -/
theorem header_hash_on_disk_bytes (blockFile : BlockFile) (block : Block)
    (L H rest : List Byte) (hL : L.length = 4) (hH : H.length = 80)
    (hcur : blockFile.file.contents.drop blockFile.file.offset = L ++ H ++ rest)
    (hfresh : block.hash = none) :
    (ParseBlockHeaderFromFile blockFile block).2.1.toBlockHeader.hashBin = H
      ∧ (ParseBlockHeaderFromFile blockFile block).2.1.toBlockHeader.hashBin.length = 80
      ∧ (ParseBlockHeaderFromFile blockFile block).2.1.toBlockHeader.Hash.1
          = DoubleSha256 H := by
  have hsplit := header_split H hH
  have hseg := ParseBlockHeaderFromFile_segments blockFile block L (H.take 4)
    ((H.drop 4).take 32) ((H.drop 36).take 32) ((H.drop 68).take 4) ((H.drop 72).take 4)
    ((H.drop 76).take 4) rest hL (by simp [hH]) (by simp [hH]) (by simp [hH]) (by simp [hH])
    (by simp [hH]) (by simp [hH])
    (by rw [hcur]; conv_lhs => rw [hsplit]; simp only [List.append_assoc])
  have hbin : (ParseBlockHeaderFromFile blockFile block).2.1.toBlockHeader.hashBin = H := by
    rw [hseg]
    simp only [BlockHeader.hashBin, Time.Unix, Time.ofUnix]
    rw [toUint32_toInt32 _ (Uint32_lt _), toUint32_natCast _ (Uint32_lt _),
      PutUint32_Uint32_of_length _ (by simp [hH]), PutUint32_Uint32_of_length _ (by simp [hH]),
      PutUint32_Uint32_of_length _ (by simp [hH]), PutUint32_Uint32_of_length _ (by simp [hH])]
    conv_rhs => rw [hsplit]
    simp only [List.append_assoc]
  refine ⟨hbin, by rw [hbin, hH], ?_⟩
  have hnone : (ParseBlockHeaderFromFile blockFile block).2.1.toBlockHeader.hash = none := by
    rw [hseg]
    exact hfresh
  simp only [BlockHeader.Hash, hnone, hbin]

/-- C8 at `recordBodyV1`: length field `51 00 00 00`, then `headerV1`, then one more
byte, decoded into a fresh block. -/
theorem header_hash_on_disk_bytes_witness :
    ([0x51, 0, 0, 0] : List Byte).length = 4 ∧ headerV1.length = 80
      ∧ (BlockFile.ofBytes recordBodyV1 0).file.contents.drop
          (BlockFile.ofBytes recordBodyV1 0).file.offset = [0x51, 0, 0, 0] ++ headerV1 ++ [0]
      ∧ Block.zero.hash = none
      ∧ (ParseBlockHeaderFromFile (BlockFile.ofBytes recordBodyV1 0)
          Block.zero).2.1.toBlockHeader.hashBin = headerV1
      ∧ (ParseBlockHeaderFromFile (BlockFile.ofBytes recordBodyV1 0)
          Block.zero).2.1.toBlockHeader.Hash.1 = DoubleSha256 headerV1 := by
  have h := header_hash_on_disk_bytes (BlockFile.ofBytes recordBodyV1 0) Block.zero
    [0x51, 0, 0, 0] headerV1 [0] (by decide) (by decide) (by decide) rfl
  exact ⟨by decide, by decide, by decide, rfl, h.1, h.2.2⟩

/-- C9 as stated fails: with the cursor at the start of the 80-byte buffer `headerV1`,
`ParseBlockHeaderFromFile` takes the first four bytes `01 00 00 00` as the length field,
so it yields `Length = 1` and `Version = 0`, not `Version = 1`, and the nonce is read
past the end of the buffer. -/
theorem header_v1_at_buffer_start_version_zero :
    (ParseBlockHeaderFromFile (BlockFile.ofBytes headerV1 0) Block.zero).2.1.Length = 1
      ∧ (ParseBlockHeaderFromFile (BlockFile.ofBytes headerV1 0) Block.zero).2.1.Version = 0
      ∧ (ParseBlockHeaderFromFile (BlockFile.ofBytes headerV1 0) Block.zero).2.1.Version ≠ 1
      ∧ (ParseBlockHeaderFromFile (BlockFile.ofBytes headerV1 0) Block.zero).2.2.file.offset
          = 80 := by
  decide

/-- C9 amended: with the cursor at a 4-byte length field `l0 l1 l2 l3` that is followed
by the 80-byte buffer `headerV1`, `ParseBlockHeaderFromFile` returns no error, sets
`Length` to the little-endian value of the length field, `Version = 1`, `HashPrev` and
`HashMerkle` to 32 zero bytes, `Timestamp` to Unix time 0, `TargetDifficulty = 0` and
`Nonce = 0`, leaves the other fields of the block as they were, and moves the cursor to
offset 84. -/
theorem header_v1_decode (l0 l1 l2 l3 : Byte) (block : Block) :
    ParseBlockHeaderFromFile (BlockFile.ofBytes ([l0, l1, l2, l3] ++ headerV1) 0) block
      = (none,
         { block with
           Length := l0.val + 256 * l1.val + 65536 * l2.val + 16777216 * l3.val,
           Version := 1, HashPrev := List.replicate 32 0, HashMerkle := List.replicate 32 0,
           Timestamp := Time.ofUnix 0, TargetDifficulty := 0, Nonce := 0 },
         BlockFile.ofBytes ([l0, l1, l2, l3] ++ headerV1) 84) := by
  have h := ParseBlockHeaderFromFile_segments
    (BlockFile.ofBytes ([l0, l1, l2, l3] ++ headerV1) 0)
    block [l0, l1, l2, l3] [1, 0, 0, 0] (List.replicate 32 0) (List.replicate 32 0)
    [0, 0, 0, 0] [0, 0, 0, 0] [0, 0, 0, 0] [] rfl rfl rfl rfl rfl rfl rfl rfl
  rw [h]
  rfl

/-- C10: block-hash memoization is stable.  For a header whose cached hash is unset, the
first `Hash()` call returns `DoubleSha256` of the header serialization, stores that value
in the cached hash field and changes no other field; after any number `n` of further
calls, the next call still returns the value of the first call. -/
theorem Hash_memoized (blockHeader : BlockHeader) (h : blockHeader.hash = none) :
    blockHeader.Hash.1 = DoubleSha256 blockHeader.hashBin
      ∧ blockHeader.Hash.2
          = { blockHeader with hash := some (DoubleSha256 blockHeader.hashBin) }
      ∧ ∀ n : Nat, ((fun b : BlockHeader => b.Hash.2)^[n] blockHeader.Hash.2).Hash.1
          = blockHeader.Hash.1 := by
  have hfix : ∀ b : BlockHeader, b.hash = some (DoubleSha256 blockHeader.hashBin) →
      b.Hash = (DoubleSha256 blockHeader.hashBin, b) := by
    intro b hb
    simp [BlockHeader.Hash, hb]
  have h1 : blockHeader.Hash = (DoubleSha256 blockHeader.hashBin,
      { blockHeader with hash := some (DoubleSha256 blockHeader.hashBin) }) := by
    simp [BlockHeader.Hash, h]
  refine ⟨by rw [h1], by rw [h1], ?_⟩
  intro n
  have hiter : ∀ n : Nat, ((fun b : BlockHeader => b.Hash.2)^[n] blockHeader.Hash.2).hash
      = some (DoubleSha256 blockHeader.hashBin) := by
    intro n
    induction n with
    | zero => simp [h1]
    | succ k ih =>
      rw [Function.iterate_succ_apply', hfix _ ih]
      exact ih
  rw [hfix _ (hiter n), h1]

/-- C10 at `headerV1Decoded`: the first call returns the double hash of `headerV1`, and so
does the call after two further ones. -/
theorem Hash_memoized_witness :
    headerV1Decoded.hash = none
      ∧ headerV1Decoded.Hash.1 = DoubleSha256 headerV1Decoded.hashBin
      ∧ headerV1Decoded.hashBin = headerV1
      ∧ ((fun b : BlockHeader => b.Hash.2)^[2] headerV1Decoded.Hash.2).Hash.1
          = headerV1Decoded.Hash.1 :=
  ⟨rfl, (Hash_memoized headerV1Decoded rfl).1, by decide,
   (Hash_memoized headerV1Decoded rfl).2.2 2⟩

end blockchainparser

namespace blockchainparser

set_option maxRecDepth 1000000

namespace db

/-! ## The metadata decoders: helper lemmas -/

theorem top_bit_iff : ∀ b : Byte, (b.val &&& 0x80 > 0) ↔ 128 ≤ b.val := by decide

theorem DataBuf.skip_skip (buf : DataBuf) (a b : Nat) : (buf.skip a).skip b = buf.skip (a + b) := by
  simp [DataBuf.skip, Nat.add_assoc]

theorem DataBuf.skip_zero (buf : DataBuf) : buf.skip 0 = buf := rfl

theorem DataBuf.remaining_skip (buf : DataBuf) (got rest : List Byte)
    (h : buf.remaining = got ++ rest) : (buf.skip got.length).remaining = rest := by
  unfold DataBuf.remaining at *
  simpa [DataBuf.skip] using drop_of_drop_eq_append h

theorem DataBuf.length_of_remaining (buf : DataBuf) (got rest : List Byte)
    (h : buf.remaining = got ++ rest) (hg : got ≠ []) :
    buf.pos + got.length ≤ buf.b.length := by
  unfold DataBuf.remaining at h
  have hl := congrArg List.length h
  simp only [List.length_drop, List.length_append] at hl
  have : 0 < got.length := List.length_pos.mpr hg
  omega

theorem DataBuf.slice_of_remaining (buf : DataBuf) (got rest : List Byte)
    (h : buf.remaining = got ++ rest) (hg : got ≠ []) :
    buf.slice got.length = some got := by
  have hl := DataBuf.length_of_remaining buf got rest h hg
  unfold DataBuf.remaining at h
  simp [DataBuf.slice, hl, h]

/-- A complete encoding is read whole, whatever follows it. -/
theorem varintLoop_of_isVarint (e : List Byte) (he : isVarint e = true) :
    ∀ n : Nat, ∃ v : Nat, ∀ (pos : Nat) (rest : List Byte),
      DataBuf.varintLoop (e ++ rest) n pos = some (v, pos + e.length) := by
  induction e with
  | nil => simp [isVarint] at he
  | cons b t ih =>
    intro n
    cases t with
    | nil =>
      have hb : b.val < 128 := by simpa [isVarint] using he
      have hnot : ¬ (b.val &&& 0x80 > 0) := by
        rw [top_bit_iff]
        omega
      refine ⟨((n <<< 7) % 18446744073709551616) ||| (b.val &&& 0x7F), ?_⟩
      intro pos rest
      simp only [List.cons_append, List.nil_append, DataBuf.varintLoop, if_neg hnot,
        List.length_cons, List.length_nil]
    | cons c t2 =>
      have hb : 128 ≤ b.val ∧ isVarint (c :: t2) = true := by
        simpa [isVarint] using he
      have hset : b.val &&& 0x80 > 0 := (top_bit_iff b).mpr hb.1
      obtain ⟨v, hv⟩ := ih hb.2
        (((((n <<< 7) % 18446744073709551616) ||| (b.val &&& 0x7F)) + 1) % 18446744073709551616)
      refine ⟨v, ?_⟩
      intro pos rest
      have := hv (pos + 1) rest
      simp only [List.cons_append, DataBuf.varintLoop, if_pos hset, List.length_cons] at this ⊢
      rw [this]
      congr 2
      omega

theorem varintLoop_value (e : List Byte) (he : isVarint e = true) (pos : Nat)
    (rest : List Byte) :
    DataBuf.varintLoop (e ++ rest) 0 pos = some (varintValue e, pos + e.length) := by
  obtain ⟨v, hv⟩ := varintLoop_of_isVarint e he 0
  have h0 := hv 0 []
  rw [List.append_nil] at h0
  have hval : varintValue e = v := by simp [varintValue, h0]
  rw [hval]
  exact hv pos rest

theorem DataBuf.ShiftVarint_of_remaining (buf : DataBuf) (e rest : List Byte)
    (h : buf.remaining = e ++ rest) (he : isVarint e = true) :
    buf.ShiftVarint = some (varintValue e, buf.skip e.length) := by
  unfold DataBuf.remaining at h
  simp [DataBuf.ShiftVarint, h, varintLoop_value e he, DataBuf.skip]

theorem DataBuf.ShiftVarint_at (buf : DataBuf) (k : Nat) (pre e rest : List Byte)
    (h : buf.remaining = pre ++ (e ++ rest)) (hk : pre.length = k) (he : isVarint e = true) :
    (buf.skip k).ShiftVarint = some (varintValue e, buf.skip (k + e.length)) := by
  subst hk
  rw [DataBuf.ShiftVarint_of_remaining _ e rest (DataBuf.remaining_skip buf pre _ h) he,
    DataBuf.skip_skip]

theorem DataBuf.slice_at (buf : DataBuf) (k n : Nat) (pre got rest : List Byte)
    (h : buf.remaining = pre ++ (got ++ rest)) (hk : pre.length = k) (hn : got.length = n)
    (hpos : 0 < n) :
    (buf.skip k).slice n = some got := by
  subst hk hn
  exact DataBuf.slice_of_remaining _ got rest (DataBuf.remaining_skip buf pre _ h)
    (List.length_pos.mp hpos)

theorem lor_eq_zero (x y : Nat) : x ||| y = 0 ↔ x = 0 ∧ y = 0 := by
  constructor
  · intro h
    have key : ∀ i, (x.testBit i || y.testBit i) = false := by
      intro i
      have := congrArg (fun n => n.testBit i) h
      simpa [Nat.testBit_or] using this
    constructor
    · apply Nat.eq_of_testBit_eq
      intro i
      have := key i
      simp at this
      simp [this.1]
    · apply Nat.eq_of_testBit_eq
      intro i
      have := key i
      simp at this
      simp [this.2]
  · rintro ⟨rfl, rfl⟩
    rfl

theorem have_mask_iff (s : Nat) :
    s &&& (BLOCK_HAVE_DATA ||| BLOCK_HAVE_UNDO) > 0
      ↔ (s &&& BLOCK_HAVE_DATA > 0 ∨ s &&& BLOCK_HAVE_UNDO > 0) := by
  have h : s &&& (BLOCK_HAVE_DATA ||| BLOCK_HAVE_UNDO)
      = (s &&& BLOCK_HAVE_DATA) ||| (s &&& BLOCK_HAVE_UNDO) :=
    Nat.and_or_distrib_left s BLOCK_HAVE_DATA BLOCK_HAVE_UNDO
  have := lor_eq_zero (s &&& BLOCK_HAVE_DATA) (s &&& BLOCK_HAVE_UNDO)
  omega

theorem DataBuf.Shift32bit_at (buf : DataBuf) (k : Nat) (pre got rest : List Byte)
    (h : buf.remaining = pre ++ (got ++ rest)) (hk : pre.length = k) (hn : got.length = 4) :
    (buf.skip k).Shift32bit
      = some (toInt32 (LittleEndian.Uint32 got), buf.skip (k + 4)) := by
  unfold DataBuf.Shift32bit
  rw [DataBuf.slice_at buf k 4 pre got rest h hk hn (by omega)]
  simp [DataBuf.skip, Nat.add_assoc]

theorem DataBuf.ShiftU32bit_at (buf : DataBuf) (k : Nat) (pre got rest : List Byte)
    (h : buf.remaining = pre ++ (got ++ rest)) (hk : pre.length = k) (hn : got.length = 4) :
    (buf.skip k).ShiftU32bit = some (LittleEndian.Uint32 got, buf.skip (k + 4)) := by
  unfold DataBuf.ShiftU32bit
  rw [DataBuf.slice_at buf k 4 pre got rest h hk hn (by omega)]
  simp [DataBuf.skip, Nat.add_assoc]

theorem DataBuf.ShiftBytes_at (buf : DataBuf) (k n : Nat) (pre got rest : List Byte)
    (h : buf.remaining = pre ++ (got ++ rest)) (hk : pre.length = k) (hn : got.length = n)
    (hpos : 0 < n) :
    (buf.skip k).ShiftBytes n = some (got, buf.skip (k + n)) := by
  unfold DataBuf.ShiftBytes
  rw [DataBuf.slice_at buf k n pre got rest h hk hn hpos]
  simp [DataBuf.skip, Nat.add_assoc]

/-- A field that is read only under the condition `c`. -/
theorem DataBuf.optional_at {α : Type} (c : Prop) [Decidable c] (buf : DataBuf) (k : Nat)
    (pre e rest : List Byte) (conv : Nat → α) (zero : α)
    (h : buf.remaining = pre ++ (e ++ rest)) (hk : pre.length = k)
    (he : if c then isVarint e = true else e = []) :
    (if c then ((buf.skip k).ShiftVarint).map (fun r => (conv r.1, r.2))
      else some (zero, buf.skip k))
      = some (if c then conv (varintValue e) else zero, buf.skip (k + e.length)) := by
  by_cases hc : c
  · rw [if_pos hc] at he
    simp [hc, DataBuf.ShiftVarint_at buf k pre e rest h hk he]
  · rw [if_neg hc] at he
    subst he
    simp [hc]

/-- A fresh buffer has the value and then the spare bytes to read. -/
theorem NewDataBuf_remaining (b spare : List Byte) :
    (NewDataBuf b spare).remaining = b ++ spare := rfl

theorem decodeBlockIndexRecord_segments (e0 eh es en ef ed eu v hp hm ts bits nonce rest : List Byte)
    (h0 : isVarint e0 = true) (hh : isVarint eh = true) (hs : isVarint es = true)
    (hn : isVarint en = true)
    (hf : if (u32 (varintValue es) &&& BLOCK_HAVE_DATA > 0
                ∨ u32 (varintValue es) &&& BLOCK_HAVE_UNDO > 0)
          then isVarint ef = true else ef = [])
    (hd : if u32 (varintValue es) &&& BLOCK_HAVE_DATA > 0 then isVarint ed = true else ed = [])
    (hu : if u32 (varintValue es) &&& BLOCK_HAVE_UNDO > 0 then isVarint eu = true else eu = [])
    (hv : v.length = 4) (hhp : hp.length = 32) (hhm : hm.length = 32) (hts : ts.length = 4)
    (hbits : bits.length = 4) (hnonce : nonce.length = 4) (buf : DataBuf)
    (hrem : buf.remaining = e0 ++ (eh ++ (es ++ (en ++ (ef ++ (ed ++ (eu ++ (v ++ (hp ++ (hm
      ++ (ts ++ (bits ++ (nonce ++ rest))))))))))))) :
    decodeBlockIndexRecord buf
      = some ({ Version := toInt32 (LittleEndian.Uint32 v), Height := i32 (varintValue eh),
                Status := u32 (varintValue es), NTx := u32 (varintValue en),
                NFile := if (u32 (varintValue es) &&& BLOCK_HAVE_DATA > 0
                              ∨ u32 (varintValue es) &&& BLOCK_HAVE_UNDO > 0)
                         then i32 (varintValue ef) else 0,
                NDataPos := if u32 (varintValue es) &&& BLOCK_HAVE_DATA > 0
                            then u32 (varintValue ed) else 0,
                NUndoPos := if u32 (varintValue es) &&& BLOCK_HAVE_UNDO > 0
                            then u32 (varintValue eu) else 0,
                HashPrev := hp, HashMerkleRoot := hm,
                NTime := Time.ofUnix (LittleEndian.Uint32 ts : Int),
                NBits := LittleEndian.Uint32 bits, NNonce := LittleEndian.Uint32 nonce },
              buf.skip (e0.length + eh.length + es.length + en.length + ef.length
                + ed.length + eu.length + 80)) := by
  have s0 := DataBuf.ShiftVarint_at buf 0 [] e0 _ (by simpa using hrem) rfl h0
  have s1 := DataBuf.ShiftVarint_at buf (e0.length) e0 eh _ (by simpa using hrem) rfl hh
  have s2 := DataBuf.ShiftVarint_at buf (e0.length + eh.length) (e0 ++ eh) es _
    (by simpa using hrem) (by simp only [List.length_append]) hs
  have s3 := DataBuf.ShiftVarint_at buf (e0.length + eh.length + es.length) (e0 ++ eh ++ es) en _
    (by simpa using hrem) (by simp only [List.length_append]) hn
  have s4 := DataBuf.optional_at _ buf (e0.length + eh.length + es.length + en.length)
    (e0 ++ eh ++ es ++ en) ef _ i32 (0 : Int) (by simpa using hrem) (by simp only [List.length_append]) hf
  have s5 := DataBuf.optional_at _ buf
    (e0.length + eh.length + es.length + en.length + ef.length)
    (e0 ++ eh ++ es ++ en ++ ef) ed _ u32 (0 : Nat) (by simpa using hrem) (by simp only [List.length_append]) hd
  have s6 := DataBuf.optional_at _ buf
    (e0.length + eh.length + es.length + en.length + ef.length + ed.length)
    (e0 ++ eh ++ es ++ en ++ ef ++ ed) eu _ u32 (0 : Nat) (by simpa using hrem) (by simp only [List.length_append]) hu
  have t1 := DataBuf.Shift32bit_at buf
    (e0.length + eh.length + es.length + en.length + ef.length + ed.length + eu.length)
    (e0 ++ eh ++ es ++ en ++ ef ++ ed ++ eu) v _ (by simpa using hrem) (by simp only [List.length_append]) hv
  have t2 := DataBuf.ShiftBytes_at buf
    (e0.length + eh.length + es.length + en.length + ef.length + ed.length + eu.length + 4) 32
    (e0 ++ eh ++ es ++ en ++ ef ++ ed ++ eu ++ v) hp _ (by simpa using hrem) (by simp only [List.length_append]; omega) hhp
    (by omega)
  have t3 := DataBuf.ShiftBytes_at buf
    (e0.length + eh.length + es.length + en.length + ef.length + ed.length + eu.length + 4 + 32)
    32 (e0 ++ eh ++ es ++ en ++ ef ++ ed ++ eu ++ v ++ hp) hm _ (by simpa using hrem)
    (by simp only [List.length_append]; omega) hhm (by omega)
  have t4 := DataBuf.ShiftU32bit_at buf
    (e0.length + eh.length + es.length + en.length + ef.length + ed.length + eu.length + 4 + 32
      + 32)
    (e0 ++ eh ++ es ++ en ++ ef ++ ed ++ eu ++ v ++ hp ++ hm) ts _ (by simpa using hrem)
    (by simp only [List.length_append]; omega) hts
  have t5 := DataBuf.ShiftU32bit_at buf
    (e0.length + eh.length + es.length + en.length + ef.length + ed.length + eu.length + 4 + 32
      + 32 + 4)
    (e0 ++ eh ++ es ++ en ++ ef ++ ed ++ eu ++ v ++ hp ++ hm ++ ts) bits _ (by simpa using hrem)
    (by simp only [List.length_append]; omega) hbits
  have t6 := DataBuf.ShiftU32bit_at buf
    (e0.length + eh.length + es.length + en.length + ef.length + ed.length + eu.length + 4 + 32
      + 32 + 4 + 4)
    (e0 ++ eh ++ es ++ en ++ ef ++ ed ++ eu ++ v ++ hp ++ hm ++ ts ++ bits) nonce _
    (by simpa using hrem) (by simp only [List.length_append]; omega) hnonce
  rw [DataBuf.skip_zero] at s0
  simp only [Nat.zero_add] at s0
  unfold decodeBlockIndexRecord
  rw [s0]
  show (Option.bind (some (varintValue e0, buf.skip e0.length)) _) = _
  rw [Option.some_bind]
  dsimp only
  rw [s1]
  show (Option.bind (some _) _) = _
  rw [Option.some_bind]
  dsimp only
  rw [s2]
  show (Option.bind (some _) _) = _
  rw [Option.some_bind]
  dsimp only
  rw [s3]
  show (Option.bind (some _) _) = _
  rw [Option.some_bind]
  dsimp only
  simp only [have_mask_iff]
  rw [s4]
  show (Option.bind (some _) _) = _
  rw [Option.some_bind]
  dsimp only
  rw [s5]
  show (Option.bind (some _) _) = _
  rw [Option.some_bind]
  dsimp only
  rw [s6]
  show (Option.bind (some _) _) = _
  rw [Option.some_bind]
  dsimp only
  rw [t1]
  show (Option.bind (some _) _) = _
  rw [Option.some_bind]
  dsimp only
  rw [t2]
  show (Option.bind (some _) _) = _
  rw [Option.some_bind]
  dsimp only
  rw [t3]
  show (Option.bind (some _) _) = _
  rw [Option.some_bind]
  dsimp only
  rw [t4]
  show (Option.bind (some _) _) = _
  rw [Option.some_bind]
  dsimp only
  rw [t5]
  show (Option.bind (some _) _) = _
  rw [Option.some_bind]
  dsimp only
  rw [t6]
  show (Option.bind (some _) _) = _
  rw [Option.some_bind]
  have harith : e0.length + eh.length + es.length + en.length + ef.length + ed.length
      + eu.length + 4 + 32 + 32 + 4 + 4 + 4
      = e0.length + eh.length + es.length + en.length + ef.length + ed.length + eu.length + 80 := by
    omega
  rw [harith]
  rfl

theorem decodeBlockIndexRecord_eq_body (buf : DataBuf) :
    decodeBlockIndexRecord buf = buf.ShiftVarint >>= fun r0 => decodeBlockIndexRecordBody r0.2 :=
  rfl

theorem Reads.pure {α : Type} (a : α) : Reads (fun buf => some (a, buf)) := by
  intro buf v buf1 h
  simp only [Option.some.injEq, Prod.mk.injEq] at h
  obtain ⟨rfl, rfl⟩ := h
  refine ⟨[], buf.remaining, by simp, rfl, ?_⟩
  intro buf2 rest2 _
  rfl

theorem Reads.bind {α β : Type} {f : DataBuf → Option (α × DataBuf)}
    {g : α × DataBuf → Option (β × DataBuf)} (hf : Reads f)
    (hg : ∀ a, Reads (fun buf => g (a, buf))) : Reads (fun buf => f buf >>= g) := by
  intro buf v buf1 h
  simp only [Option.bind_eq_bind, Option.bind_eq_some] at h
  obtain ⟨⟨a, bufa⟩, hfa, hga⟩ := h
  obtain ⟨got1, rest1, hr1, hb1, hall1⟩ := hf buf a bufa hfa
  obtain ⟨got2, rest2, hr2, hb2, hall2⟩ := hg a bufa v buf1 hga
  subst hb1
  rw [DataBuf.remaining_skip buf got1 rest1 hr1] at hr2
  subst hr2
  refine ⟨got1 ++ got2, rest2, by rw [hr1, List.append_assoc], ?_, ?_⟩
  · rw [hb2, DataBuf.skip_skip, List.length_append]
  · intro buf2 r2 h2
    rw [List.append_assoc] at h2
    have e1 := hall1 buf2 _ h2
    have e2 : g (a, buf2.skip got1.length) = some (v, (buf2.skip got1.length).skip got2.length) :=
      hall2 (buf2.skip got1.length) r2 (DataBuf.remaining_skip buf2 got1 _ h2)
    simp only [Option.bind_eq_bind, e1, Option.some_bind]
    rw [e2, DataBuf.skip_skip, List.length_append]

theorem Reads.map {α β : Type} {f : DataBuf → Option (α × DataBuf)} (conv : α → β)
    (hf : Reads f) : Reads (fun buf => (f buf).map (fun r => (conv r.1, r.2))) := by
  intro buf v buf1 h
  simp only [Option.map_eq_some', Prod.mk.injEq] at h
  obtain ⟨⟨a, bufa⟩, hfa, rfl, rfl⟩ := h
  obtain ⟨got, rest, hr, hb, hall⟩ := hf buf a bufa hfa
  refine ⟨got, rest, hr, hb, ?_⟩
  intro buf2 r2 h2
  simp [hall buf2 r2 h2]

theorem Reads.ite {α : Type} (c : Prop) [Decidable c] {f g : DataBuf → Option (α × DataBuf)}
    (hf : Reads f) (hg : Reads g) : Reads (fun buf => if c then f buf else g buf) := by
  by_cases hc : c
  · simpa [hc] using hf
  · simpa [hc] using hg

/-- A successful run of the varint loop has read a prefix of its input and nothing else. -/
theorem varintLoop_consumed (l : List Byte) :
    ∀ (n pos v pos1 : Nat), DataBuf.varintLoop l n pos = some (v, pos1) →
      ∃ got rest, l = got ++ rest ∧ pos1 = pos + got.length
        ∧ ∀ (rest2 : List Byte) (pos2 : Nat),
            DataBuf.varintLoop (got ++ rest2) n pos2 = some (v, pos2 + got.length) := by
  induction l with
  | nil =>
    intro n pos v pos1 h
    simp [DataBuf.varintLoop] at h
  | cons b t ih =>
    intro n pos v pos1 h
    by_cases hb : b.val &&& 0x80 > 0
    · simp only [DataBuf.varintLoop, if_pos hb] at h
      obtain ⟨got, rest, ht, hp, hall⟩ := ih _ _ _ _ h
      refine ⟨b :: got, rest, by rw [ht, List.cons_append], ?_, ?_⟩
      · rw [hp, List.length_cons]
        omega
      · intro rest2 pos2
        have hstep := hall rest2 (pos2 + 1)
        rw [List.cons_append]
        simp only [DataBuf.varintLoop, if_pos hb, List.length_cons, hstep]
        congr 2
        omega
    · simp only [DataBuf.varintLoop, if_neg hb, Option.some.injEq, Prod.mk.injEq] at h
      obtain ⟨rfl, rfl⟩ := h
      refine ⟨[b], t, rfl, rfl, ?_⟩
      intro rest2 pos2
      simp only [List.cons_append, List.nil_append, DataBuf.varintLoop, if_neg hb,
        List.length_cons, List.length_nil]

theorem Reads_ShiftVarint : Reads DataBuf.ShiftVarint := by
  intro buf v buf1 h
  unfold DataBuf.ShiftVarint at h
  split at h
  · exact absurd h (by simp)
  · rename_i r hr
    simp only [Option.some.injEq, Prod.mk.injEq] at h
    obtain ⟨rfl, rfl⟩ := h
    obtain ⟨got, rest, hl, hp, hall⟩ := varintLoop_consumed _ _ _ _ _ hr
    refine ⟨got, rest, hl, by simp [DataBuf.skip, hp], ?_⟩
    intro buf2 rest2 h2
    unfold DataBuf.remaining at h2
    simp [DataBuf.ShiftVarint, h2, hall, DataBuf.skip]

theorem slice_consumed (buf : DataBuf) (n : Nat) (val : List Byte) (hpos : 0 < n)
    (h : buf.slice n = some val) :
    val.length = n ∧ ∃ rest, buf.remaining = val ++ rest
      ∧ ∀ (buf2 : DataBuf) (rest2 : List Byte),
          buf2.remaining = val ++ rest2 → buf2.slice n = some val := by
  unfold DataBuf.slice at h
  split at h
  · rename_i hle
    simp only [Option.some.injEq] at h
    have hlen : val.length = n := by
      rw [← h, List.length_take, List.length_drop]
      omega
    refine ⟨hlen, buf.b.drop (buf.pos + n), ?_, ?_⟩
    · unfold DataBuf.remaining
      rw [← h, ← List.drop_drop, List.take_append_drop]
    · intro buf2 rest2 h2
      have := DataBuf.slice_of_remaining buf2 val rest2 h2
        (List.length_pos.mp (by omega))
      rwa [hlen] at this
  · exact absurd h (by simp)

theorem Reads_ShiftBytes (n : Nat) (hpos : 0 < n) : Reads (fun buf => buf.ShiftBytes n) := by
  intro buf v buf1 h
  simp only [DataBuf.ShiftBytes] at h
  split at h
  · exact absurd h (by simp)
  · rename_i val hs
    simp only [Option.some.injEq, Prod.mk.injEq] at h
    obtain ⟨rfl, rfl⟩ := h
    obtain ⟨hlen, rest, hr, hall⟩ := slice_consumed buf n val hpos hs
    refine ⟨val, rest, hr, by rw [hlen]; rfl, ?_⟩
    intro buf2 rest2 h2
    simp only [DataBuf.ShiftBytes, hall buf2 rest2 h2, hlen]
    rfl

theorem Reads_ShiftU32bit : Reads DataBuf.ShiftU32bit := by
  intro buf v buf1 h
  simp only [DataBuf.ShiftU32bit] at h
  split at h
  · exact absurd h (by simp)
  · rename_i val hs
    simp only [Option.some.injEq, Prod.mk.injEq] at h
    obtain ⟨rfl, rfl⟩ := h
    obtain ⟨hlen, rest, hr, hall⟩ := slice_consumed buf 4 val (by omega) hs
    refine ⟨val, rest, hr, by rw [hlen]; rfl, ?_⟩
    intro buf2 rest2 h2
    simp only [DataBuf.ShiftU32bit, hall buf2 rest2 h2, hlen]
    rfl

theorem Reads_Shift32bit : Reads DataBuf.Shift32bit := by
  intro buf v buf1 h
  simp only [DataBuf.Shift32bit] at h
  split at h
  · exact absurd h (by simp)
  · rename_i val hs
    simp only [Option.some.injEq, Prod.mk.injEq] at h
    obtain ⟨rfl, rfl⟩ := h
    obtain ⟨hlen, rest, hr, hall⟩ := slice_consumed buf 4 val (by omega) hs
    refine ⟨val, rest, hr, by rw [hlen]; rfl, ?_⟩
    intro buf2 rest2 h2
    simp only [DataBuf.Shift32bit, hall buf2 rest2 h2, hlen]
    rfl

theorem Reads_decodeTxIndexRecord : Reads decodeTxIndexRecord := by
  refine Reads.bind Reads_ShiftVarint (fun a1 => ?_)
  dsimp only
  refine Reads.bind Reads_ShiftVarint (fun a2 => ?_)
  dsimp only
  refine Reads.bind Reads_ShiftVarint (fun a3 => ?_)
  dsimp only
  exact Reads.pure _

theorem Reads_decodeFileInfoRecord : Reads decodeFileInfoRecord := by
  refine Reads.bind Reads_ShiftVarint (fun a1 => ?_)
  dsimp only
  refine Reads.bind Reads_ShiftVarint (fun a2 => ?_)
  dsimp only
  refine Reads.bind Reads_ShiftVarint (fun a3 => ?_)
  dsimp only
  refine Reads.bind Reads_ShiftVarint (fun a4 => ?_)
  dsimp only
  refine Reads.bind Reads_ShiftVarint (fun a5 => ?_)
  dsimp only
  refine Reads.bind Reads_ShiftVarint (fun a6 => ?_)
  dsimp only
  refine Reads.bind Reads_ShiftVarint (fun a7 => ?_)
  dsimp only
  exact Reads.pure _

theorem Reads_decodeBlockIndexRecordBody : Reads decodeBlockIndexRecordBody := by
  refine Reads.bind Reads_ShiftVarint (fun aH => ?_)
  dsimp only
  refine Reads.bind Reads_ShiftVarint (fun aS => ?_)
  dsimp only
  refine Reads.bind Reads_ShiftVarint (fun aN => ?_)
  dsimp only
  refine Reads.bind (Reads.ite _ (Reads.map _ Reads_ShiftVarint) (Reads.pure _)) (fun aF => ?_)
  dsimp only
  refine Reads.bind (Reads.ite _ (Reads.map _ Reads_ShiftVarint) (Reads.pure _)) (fun aD => ?_)
  dsimp only
  refine Reads.bind (Reads.ite _ (Reads.map _ Reads_ShiftVarint) (Reads.pure _)) (fun aU => ?_)
  dsimp only
  refine Reads.bind Reads_Shift32bit (fun b1 => ?_)
  dsimp only
  refine Reads.bind (Reads_ShiftBytes 32 (by omega)) (fun b2 => ?_)
  dsimp only
  refine Reads.bind (Reads_ShiftBytes 32 (by omega)) (fun b3 => ?_)
  dsimp only
  refine Reads.bind Reads_ShiftU32bit (fun b4 => ?_)
  dsimp only
  refine Reads.bind Reads_ShiftU32bit (fun b5 => ?_)
  dsimp only
  refine Reads.bind Reads_ShiftU32bit (fun b6 => ?_)
  dsimp only
  exact Reads.pure _

theorem Reads_decodeBlockIndexRecord : Reads decodeBlockIndexRecord :=
  Reads.bind Reads_ShiftVarint (fun _ => Reads_decodeBlockIndexRecordBody)

/-- A reader that needs bytes beyond the end of `b` fails on `b` when `b` has no spare
capacity. -/
theorem Reads.truncated {α : Type} {f : DataBuf → Option (α × DataBuf)} (hf : Reads f)
    (b ext : List Byte) (v : α) (buf1 : DataBuf)
    (h : f (NewDataBuf (b ++ ext)) = some (v, buf1)) (hlen : b.length < buf1.pos) :
    f (NewDataBuf b) = none := by
  cases hfb : f (NewDataBuf b) with
  | none => rfl
  | some r =>
    obtain ⟨w, bufw⟩ := r
    obtain ⟨got, rest, hr, _, hall⟩ := hf _ _ _ hfb
    have hb : b = got ++ rest := by
      rw [NewDataBuf_remaining, List.append_nil] at hr
      exact hr
    have h2 := hall (NewDataBuf (b ++ ext)) (rest ++ ext)
      (by rw [NewDataBuf_remaining, List.append_nil, hb, List.append_assoc])
    rw [h] at h2
    simp only [Option.some.injEq, Prod.mk.injEq] at h2
    have hpos : buf1.pos = got.length := by
      rw [h2.2]
      simp [DataBuf.skip, NewDataBuf]
    have : got.length ≤ b.length := by
      rw [hb, List.length_append]
      omega
    omega

/-- Readers agree on buffers with the same remaining bytes. -/
theorem Reads.same_remaining {α : Type} {f : DataBuf → Option (α × DataBuf)} (hf : Reads f)
    (A B : DataBuf) (h : A.remaining = B.remaining) :
    (f A).map (fun r => r.1) = (f B).map (fun r => r.1) := by
  cases hA : f A with
  | some r =>
    obtain ⟨v, A1⟩ := r
    obtain ⟨got, rest, hr, _, hall⟩ := hf _ _ _ hA
    rw [hall B rest (by rw [← h, hr])]
    rfl
  | none =>
    cases hB : f B with
    | none => rfl
    | some r =>
      obtain ⟨v, B1⟩ := r
      obtain ⟨got, rest, hr, _, hall⟩ := hf _ _ _ hB
      rw [hall A rest (by rw [h, hr])] at hA
      exact absurd hA (by simp)

end db

end blockchainparser

namespace blockchainparser

set_option maxRecDepth 1000000

namespace db

/-! ## Claims about the metadata-record decoders -/

/-- C15: ContinuationVarint fixed points.  `ShiftVarint` returns 0 on the single byte
`00`, 127 on the single byte `7F` and 128 on the two bytes `80 00`, each time leaving the
position at the end of those bytes. -/
theorem ShiftVarint_fixed_points :
    DataBuf.ShiftVarint (NewDataBuf [0x00]) = some (0, { b := [0x00], pos := 1 })
      ∧ DataBuf.ShiftVarint (NewDataBuf [0x7F]) = some (127, { b := [0x7F], pos := 1 })
      ∧ DataBuf.ShiftVarint (NewDataBuf [0x80, 0x00])
          = some (128, { b := [0x80, 0x00], pos := 2 }) := by
  decide

/-- C16: conditional fields of a BlockIndexRecord.  Let `e0`, `eh`, `es`, `en` be the
complete encodings of the discarded varint, the height, the status and the transaction
count, and `H` the 80 bytes of the header tuple.  If between `en` and `H` there stand
exactly `ef` (a complete encoding when the status has the have-data or the have-undo bit,
empty otherwise), then `ed` (a complete encoding when have-data is set, empty otherwise),
then `eu` (a complete encoding when have-undo is set, empty otherwise), then
`NewBlockIndexRecordFromBytes` succeeds, consumes exactly those bytes, sets `NFile`,
`NDataPos`, `NUndoPos` to the values of the encodings that are present and to 0 for the
absent ones, and reads the header tuple from `H`. -/
theorem BlockIndexRecord_conditional_fields (e0 eh es en ef ed eu H rest : List Byte)
    (h0 : isVarint e0 = true) (hh : isVarint eh = true) (hs : isVarint es = true)
    (hn : isVarint en = true) (hH : H.length = 80)
    (hf : if (u32 (varintValue es) &&& BLOCK_HAVE_DATA > 0
                ∨ u32 (varintValue es) &&& BLOCK_HAVE_UNDO > 0)
          then isVarint ef = true else ef = [])
    (hd : if u32 (varintValue es) &&& BLOCK_HAVE_DATA > 0 then isVarint ed = true else ed = [])
    (hu : if u32 (varintValue es) &&& BLOCK_HAVE_UNDO > 0 then isVarint eu = true
          else eu = []) :
    decodeBlockIndexRecord (NewDataBuf (e0 ++ eh ++ es ++ en ++ ef ++ ed ++ eu ++ H ++ rest))
        = some (recordOf (i32 (varintValue eh)) (u32 (varintValue es)) (u32 (varintValue en))
                  (if (u32 (varintValue es) &&& BLOCK_HAVE_DATA > 0
                        ∨ u32 (varintValue es) &&& BLOCK_HAVE_UNDO > 0)
                   then i32 (varintValue ef) else 0)
                  (if u32 (varintValue es) &&& BLOCK_HAVE_DATA > 0
                   then u32 (varintValue ed) else 0)
                  (if u32 (varintValue es) &&& BLOCK_HAVE_UNDO > 0
                   then u32 (varintValue eu) else 0) H,
                (NewDataBuf (e0 ++ eh ++ es ++ en ++ ef ++ ed ++ eu ++ H ++ rest)).skip
                  (e0.length + eh.length + es.length + en.length + ef.length + ed.length
                    + eu.length + 80))
      ∧ NewBlockIndexRecordFromBytes (e0 ++ eh ++ es ++ en ++ ef ++ ed ++ eu ++ H ++ rest)
        = some (recordOf (i32 (varintValue eh)) (u32 (varintValue es)) (u32 (varintValue en))
                  (if (u32 (varintValue es) &&& BLOCK_HAVE_DATA > 0
                        ∨ u32 (varintValue es) &&& BLOCK_HAVE_UNDO > 0)
                   then i32 (varintValue ef) else 0)
                  (if u32 (varintValue es) &&& BLOCK_HAVE_DATA > 0
                   then u32 (varintValue ed) else 0)
                  (if u32 (varintValue es) &&& BLOCK_HAVE_UNDO > 0
                   then u32 (varintValue eu) else 0) H) := by
  have hsplit := header_split H hH
  have hd0 := decodeBlockIndexRecord_segments e0 eh es en ef ed eu (H.take 4)
    ((H.drop 4).take 32) ((H.drop 36).take 32) ((H.drop 68).take 4) ((H.drop 72).take 4)
    ((H.drop 76).take 4) rest h0 hh hs hn hf hd hu (by simp [hH]) (by simp [hH])
    (by simp [hH]) (by simp [hH]) (by simp [hH]) (by simp [hH])
    (NewDataBuf (e0 ++ eh ++ es ++ en ++ ef ++ ed ++ eu ++ H ++ rest))
    (by rw [NewDataBuf_remaining, List.append_nil]
        conv_lhs => rw [hsplit]
        simp only [List.append_assoc])
  exact ⟨hd0, by rw [NewBlockIndexRecordFromBytes, hd0]; rfl⟩

/-- C16 at two records over `headerV1`: with status 24 (both bits) the three varints `03`,
`08`, `09` are consumed before the header; with status 1 (neither bit) the header starts
right after the transaction count and the three fields are 0. -/
theorem BlockIndexRecord_conditional_fields_witness :
    NewBlockIndexRecordFromBytes
        ([0x83, 0x00] ++ [5] ++ [24] ++ [1] ++ [3] ++ [8] ++ [9] ++ headerV1 ++ [])
        = some (recordOf 5 24 1 3 8 9 headerV1)
      ∧ NewBlockIndexRecordFromBytes
        ([0x83, 0x00] ++ [5] ++ [1] ++ [1] ++ [] ++ [] ++ [] ++ headerV1 ++ [])
        = some (recordOf 5 1 1 0 0 0 headerV1) := by
  have h1 := (BlockIndexRecord_conditional_fields [0x83, 0x00] [5] [24] [1] [3] [8] [9]
    headerV1 [] (by decide) (by decide) (by decide) (by decide) (by decide) (by decide)
    (by decide) (by decide)).2
  have h2 := (BlockIndexRecord_conditional_fields [0x83, 0x00] [5] [1] [1] [] [] []
    headerV1 [] (by decide) (by decide) (by decide) (by decide) (by decide) (by decide)
    (by decide) (by decide)).2
  refine ⟨?_, ?_⟩
  · rw [h1]
    decide
  · rw [h2]
    decide

end db

end blockchainparser

namespace blockchainparser

set_option maxRecDepth 1000000

namespace db

/-- The decoders cannot tell the value from what stands behind it: a value `b` with the
bytes `spare` behind it is read as the value `b ++ spare`. -/
theorem NewDataBuf_append (b spare : List Byte) :
    NewDataBuf b spare = NewDataBuf (b ++ spare) := by
  simp [NewDataBuf]

/-- C17 as stated fails.  Take the remainder `05 01 01` followed by the first 79 bytes of
`headerV1`, one byte short of a record body.  Behind the leading varint `07`, on a value
with one spare byte `00` in its backing array, the decoder returns the record of
`headerV1`; on a value with the spare byte `01` it returns a record with another
`NNonce`; and behind the leading varint `83 00`, on a value without spare capacity, it
panics. -/
theorem leading_varint_remainder_cut_short :
    NewBlockIndexRecordFromBytes ([0x07] ++ ([5, 1, 1] ++ headerV1.take 79)) [0x00]
        = some (recordOf 5 1 1 0 0 0 headerV1)
      ∧ NewBlockIndexRecordFromBytes ([0x07] ++ ([5, 1, 1] ++ headerV1.take 79)) [0x01]
        = some { recordOf 5 1 1 0 0 0 headerV1 with NNonce := 16777216 }
      ∧ NewBlockIndexRecordFromBytes ([0x83, 0x00] ++ ([5, 1, 1] ++ headerV1.take 79))
        = none := by
  decide

/-- C17 amended: the leading varint of a BlockIndexRecord is not interpreted.  Let `r`
hold a complete record body, so that the fields after the leading varint are all read
within `r` and give the record `rec`.  Then for complete encodings `v1`, `v2`,
`NewBlockIndexRecordFromBytes (v1 ++ r)` and `NewBlockIndexRecordFromBytes (v2 ++ r)` both
return `rec`, whatever bytes `spare1`, `spare2` stand behind the two values. -/
theorem leading_varint_not_interpreted (v1 v2 r spare1 spare2 : List Byte)
    (rec : BlockIndexRecord) (bufr : DataBuf)
    (h1 : isVarint v1 = true) (h2 : isVarint v2 = true)
    (hr : decodeBlockIndexRecordBody (NewDataBuf r) = some (rec, bufr)) :
    NewBlockIndexRecordFromBytes (v1 ++ r) spare1 = some rec
      ∧ NewBlockIndexRecordFromBytes (v2 ++ r) spare2 = some rec := by
  obtain ⟨got, rest, hgot, _, hall⟩ := Reads_decodeBlockIndexRecordBody _ _ _ hr
  rw [NewDataBuf_remaining, List.append_nil] at hgot
  have key : ∀ v spare : List Byte, isVarint v = true →
      NewBlockIndexRecordFromBytes (v ++ r) spare = some rec := by
    intro v spare hv
    have hrem : (NewDataBuf (v ++ r) spare).remaining = v ++ (r ++ spare) := by
      rw [NewDataBuf_remaining, List.append_assoc]
    have s := DataBuf.ShiftVarint_of_remaining _ v _ hrem hv
    have r1 := DataBuf.remaining_skip _ v _ hrem
    have hb := hall _ (rest ++ spare) (by rw [r1, hgot, List.append_assoc])
    simp only [NewBlockIndexRecordFromBytes, decodeBlockIndexRecord_eq_body, s,
      Option.bind_eq_bind, Option.some_bind, hb, Option.map_some']
  exact ⟨key v1 spare1 h1, key v2 spare2 h2⟩

/-- C17 amended, at the leading varints `83 00` and `07` before the same complete body,
the second value with two spare bytes behind it: both records are the one with
`Version = 1` read from the fixed header field. -/
theorem leading_varint_not_interpreted_witness :
    isVarint [0x83, 0x00] = true ∧ isVarint [0x07] = true
      ∧ decodeBlockIndexRecordBody (NewDataBuf ([5, 1, 1] ++ headerV1))
          = some (recordOf 5 1 1 0 0 0 headerV1, { b := [5, 1, 1] ++ headerV1, pos := 83 })
      ∧ (NewBlockIndexRecordFromBytes ([0x83, 0x00] ++ ([5, 1, 1] ++ headerV1)) []
            = some (recordOf 5 1 1 0 0 0 headerV1)
          ∧ NewBlockIndexRecordFromBytes ([0x07] ++ ([5, 1, 1] ++ headerV1)) [9, 9]
            = some (recordOf 5 1 1 0 0 0 headerV1))
      ∧ (recordOf 5 1 1 0 0 0 headerV1).Version = 1 :=
  ⟨by decide, by decide, by decide,
   leading_varint_not_interpreted [0x83, 0x00] [0x07] ([5, 1, 1] ++ headerV1) [] [9, 9]
     (recordOf 5 1 1 0 0 0 headerV1) { b := [5, 1, 1] ++ headerV1, pos := 83 }
     (by decide) (by decide) (by decide),
   by decide⟩

/-- C18: `NewFileInfoRecordFromBytes` decodes exactly seven consecutive
ContinuationVarints from the start of the value, `e1` to `e7`, and assigns them in this
order: `NumOfBlocks`, `Size`, `UndoSize`, `HeightFirst`, `HeightLast`, each the value
modulo 2^32, and `TimeFirst`, `TimeLast`, each the value taken as a signed 64-bit count of
Unix seconds.  Whatever follows the seven encodings, in the value (`rest`) or behind it
(`spare`), is not read: the position ends right after `e7`. -/
theorem NewFileInfoRecordFromBytes_seven_varints (e1 e2 e3 e4 e5 e6 e7 rest spare : List Byte)
    (h1 : isVarint e1 = true) (h2 : isVarint e2 = true) (h3 : isVarint e3 = true)
    (h4 : isVarint e4 = true) (h5 : isVarint e5 = true) (h6 : isVarint e6 = true)
    (h7 : isVarint e7 = true) :
    decodeFileInfoRecord (NewDataBuf (e1 ++ e2 ++ e3 ++ e4 ++ e5 ++ e6 ++ e7 ++ rest) spare)
        = some ({ NumOfBlocks := varintValue e1 % 4294967296,
                  Size := varintValue e2 % 4294967296,
                  UndoSize := varintValue e3 % 4294967296,
                  HeightFirst := varintValue e4 % 4294967296,
                  HeightLast := varintValue e5 % 4294967296,
                  TimeFirst := Time.ofUnix (toInt64 (varintValue e6)),
                  TimeLast := Time.ofUnix (toInt64 (varintValue e7)) },
                (NewDataBuf (e1 ++ e2 ++ e3 ++ e4 ++ e5 ++ e6 ++ e7 ++ rest) spare).skip
                  (e1.length + e2.length + e3.length + e4.length + e5.length + e6.length
                    + e7.length))
      ∧ NewFileInfoRecordFromBytes (e1 ++ e2 ++ e3 ++ e4 ++ e5 ++ e6 ++ e7 ++ rest) spare
        = some { NumOfBlocks := varintValue e1 % 4294967296,
                 Size := varintValue e2 % 4294967296,
                 UndoSize := varintValue e3 % 4294967296,
                 HeightFirst := varintValue e4 % 4294967296,
                 HeightLast := varintValue e5 % 4294967296,
                 TimeFirst := Time.ofUnix (toInt64 (varintValue e6)),
                 TimeLast := Time.ofUnix (toInt64 (varintValue e7)) } := by
  have key : ∀ buf : DataBuf,
      buf.remaining = e1 ++ e2 ++ e3 ++ e4 ++ e5 ++ e6 ++ e7 ++ (rest ++ spare) →
      decodeFileInfoRecord buf
        = some ({ NumOfBlocks := varintValue e1 % 4294967296,
                  Size := varintValue e2 % 4294967296,
                  UndoSize := varintValue e3 % 4294967296,
                  HeightFirst := varintValue e4 % 4294967296,
                  HeightLast := varintValue e5 % 4294967296,
                  TimeFirst := Time.ofUnix (toInt64 (varintValue e6)),
                  TimeLast := Time.ofUnix (toInt64 (varintValue e7)) },
                buf.skip (e1.length + e2.length + e3.length + e4.length + e5.length
                  + e6.length + e7.length)) := by
    intro buf hrem
    have s1 := DataBuf.ShiftVarint_at buf 0 [] e1 _ (by simpa using hrem) rfl h1
    have s2 := DataBuf.ShiftVarint_at buf e1.length e1 e2 _ (by simpa using hrem) rfl h2
    have s3 := DataBuf.ShiftVarint_at buf (e1.length + e2.length) (e1 ++ e2) e3 _
      (by simpa using hrem) (by simp only [List.length_append]) h3
    have s4 := DataBuf.ShiftVarint_at buf (e1.length + e2.length + e3.length) (e1 ++ e2 ++ e3) e4
      _ (by simpa using hrem) (by simp only [List.length_append]) h4
    have s5 := DataBuf.ShiftVarint_at buf (e1.length + e2.length + e3.length + e4.length)
      (e1 ++ e2 ++ e3 ++ e4) e5 _ (by simpa using hrem) (by simp only [List.length_append]) h5
    have s6 := DataBuf.ShiftVarint_at buf
      (e1.length + e2.length + e3.length + e4.length + e5.length)
      (e1 ++ e2 ++ e3 ++ e4 ++ e5) e6 _ (by simpa using hrem)
      (by simp only [List.length_append]) h6
    have s7 := DataBuf.ShiftVarint_at buf
      (e1.length + e2.length + e3.length + e4.length + e5.length + e6.length)
      (e1 ++ e2 ++ e3 ++ e4 ++ e5 ++ e6) e7 _ (by simpa using hrem)
      (by simp only [List.length_append]) h7
    rw [DataBuf.skip_zero] at s1
    simp only [Nat.zero_add] at s1
    simp only [decodeFileInfoRecord, s1, s2, s3, s4, s5, s6, s7, Option.bind_eq_bind,
      Option.some_bind, Option.pure_def, u32]
  have hd := key (NewDataBuf (e1 ++ e2 ++ e3 ++ e4 ++ e5 ++ e6 ++ e7 ++ rest) spare)
    (by rw [NewDataBuf_remaining, List.append_assoc])
  exact ⟨hd, by rw [NewFileInfoRecordFromBytes, hd]; rfl⟩

/-- C18 at seven encodings, the first of 2^32 + 5 (`8E FE FE FF 05`), the second of
2^32 - 1 and the sixth of 128, followed by two bytes that are not read: `NumOfBlocks` is 5
and `Size` is 4294967295. -/
theorem NewFileInfoRecordFromBytes_seven_varints_witness :
    isVarint [0x8E, 0xFE, 0xFE, 0xFF, 0x05] = true
      ∧ varintValue [0x8E, 0xFE, 0xFE, 0xFF, 0x05] = 4294967301
      ∧ varintValue [0x8E, 0xFE, 0xFE, 0xFE, 0x7F] = 4294967295
      ∧ NewFileInfoRecordFromBytes
          ([0x8E, 0xFE, 0xFE, 0xFF, 0x05] ++ [0x8E, 0xFE, 0xFE, 0xFE, 0x7F] ++ [3] ++ [4] ++ [5]
            ++ [0x80, 0x00] ++ [7] ++ [0xFF, 0xFF]) []
        = some { NumOfBlocks := 5, Size := 4294967295, UndoSize := 3, HeightFirst := 4,
                 HeightLast := 5, TimeFirst := Time.ofUnix 128, TimeLast := Time.ofUnix 7 } := by
  have h := (NewFileInfoRecordFromBytes_seven_varints [0x8E, 0xFE, 0xFE, 0xFF, 0x05]
    [0x8E, 0xFE, 0xFE, 0xFE, 0x7F] [3] [4] [5] [0x80, 0x00] [7]
    [0xFF, 0xFF] [] (by decide) (by decide) (by decide) (by decide) (by decide) (by decide)
    (by decide)).2
  refine ⟨by decide, by decide, by decide, ?_⟩
  rw [h]
  decide

/-- C19: `NewTxIndexRecordFromBytes` decodes exactly three consecutive ContinuationVarints
from the start of the value, `e1`, `e2`, `e3`, and assigns them in this order: `NFile`,
the value modulo 2^32 read as a signed 32-bit number, and `NDataPos`, `NTxOffset`, each the
value modulo 2^32.  Whatever follows the three encodings, in the value (`rest`) or behind
it (`spare`), is not read: the position ends right after `e3`. -/
theorem NewTxIndexRecordFromBytes_three_varints (e1 e2 e3 rest spare : List Byte)
    (h1 : isVarint e1 = true) (h2 : isVarint e2 = true) (h3 : isVarint e3 = true) :
    decodeTxIndexRecord (NewDataBuf (e1 ++ e2 ++ e3 ++ rest) spare)
        = some ({ NFile := if varintValue e1 % 4294967296 < 2147483648
                           then ((varintValue e1 % 4294967296 : Nat) : Int)
                           else ((varintValue e1 % 4294967296 : Nat) : Int) - 4294967296,
                  NDataPos := varintValue e2 % 4294967296,
                  NTxOffset := varintValue e3 % 4294967296 },
                (NewDataBuf (e1 ++ e2 ++ e3 ++ rest) spare).skip
                  (e1.length + e2.length + e3.length))
      ∧ NewTxIndexRecordFromBytes (e1 ++ e2 ++ e3 ++ rest) spare
        = some { NFile := if varintValue e1 % 4294967296 < 2147483648
                          then ((varintValue e1 % 4294967296 : Nat) : Int)
                          else ((varintValue e1 % 4294967296 : Nat) : Int) - 4294967296,
                 NDataPos := varintValue e2 % 4294967296,
                 NTxOffset := varintValue e3 % 4294967296 } := by
  have hrem : (NewDataBuf (e1 ++ e2 ++ e3 ++ rest) spare).remaining
      = e1 ++ e2 ++ e3 ++ (rest ++ spare) := by
    rw [NewDataBuf_remaining, List.append_assoc]
  have s1 := DataBuf.ShiftVarint_at (NewDataBuf (e1 ++ e2 ++ e3 ++ rest) spare) 0 [] e1
    (e2 ++ e3 ++ (rest ++ spare)) (by simpa using hrem) rfl h1
  have s2 := DataBuf.ShiftVarint_at (NewDataBuf (e1 ++ e2 ++ e3 ++ rest) spare) e1.length e1 e2
    (e3 ++ (rest ++ spare)) (by simpa using hrem) rfl h2
  have s3 := DataBuf.ShiftVarint_at (NewDataBuf (e1 ++ e2 ++ e3 ++ rest) spare)
    (e1.length + e2.length) (e1 ++ e2) e3 (rest ++ spare) (by simpa using hrem)
    (by simp only [List.length_append]) h3
  rw [DataBuf.skip_zero] at s1
  simp only [Nat.zero_add] at s1
  have hd : decodeTxIndexRecord (NewDataBuf (e1 ++ e2 ++ e3 ++ rest) spare)
      = some ({ NFile := if varintValue e1 % 4294967296 < 2147483648
                         then ((varintValue e1 % 4294967296 : Nat) : Int)
                         else ((varintValue e1 % 4294967296 : Nat) : Int) - 4294967296,
                NDataPos := varintValue e2 % 4294967296,
                NTxOffset := varintValue e3 % 4294967296 },
              (NewDataBuf (e1 ++ e2 ++ e3 ++ rest) spare).skip
                (e1.length + e2.length + e3.length)) := by
    simp only [decodeTxIndexRecord, s1, s2, s3, Option.bind_eq_bind, Option.some_bind,
      Option.pure_def, u32, i32, toInt32]
  exact ⟨hd, by simp only [NewTxIndexRecordFromBytes, hd, Option.map_some']⟩

/-- C19 at the encodings of 2^32 - 1 (`8E FE FE FE 7F`), of 2^32 + 128 and of 2^33 + 7,
followed by a byte that is not read: `NFile` is -1, `NDataPos` is 128 and `NTxOffset`
is 7. -/
theorem NewTxIndexRecordFromBytes_three_varints_witness :
    isVarint [0x8E, 0xFE, 0xFE, 0xFE, 0x7F] = true
      ∧ varintValue [0x8E, 0xFE, 0xFE, 0xFE, 0x7F] = 4294967295
      ∧ varintValue [0x8E, 0xFE, 0xFF, 0x80, 0x00] = 4294967424
      ∧ varintValue [0x9E, 0xFE, 0xFE, 0xFF, 0x07] = 8589934599
      ∧ NewTxIndexRecordFromBytes
          ([0x8E, 0xFE, 0xFE, 0xFE, 0x7F] ++ [0x8E, 0xFE, 0xFF, 0x80, 0x00]
            ++ [0x9E, 0xFE, 0xFE, 0xFF, 0x07] ++ [0xFF]) []
        = some { NFile := -1, NDataPos := 128, NTxOffset := 7 } := by
  have h := (NewTxIndexRecordFromBytes_three_varints [0x8E, 0xFE, 0xFE, 0xFE, 0x7F]
    [0x8E, 0xFE, 0xFF, 0x80, 0x00] [0x9E, 0xFE, 0xFE, 0xFF, 0x07] [0xFF] [] (by decide)
    (by decide) (by decide)).2
  refine ⟨by decide, by decide, by decide, by decide, ?_⟩
  rw [h]
  decide

/-- C20 as stated fails.  The two-byte value `01 80` ends inside its second varint (its
last byte has the top bit set); with six zero bytes behind it in its backing array,
`NewTxIndexRecordFromBytes` reads on into them and returns the record
`{NFile 1, NDataPos 128, NTxOffset 0}`.  Likewise the empty value with seven spare zero
bytes gives an all-zero `FileInfoRecord`. -/
theorem truncated_value_read_into_spare_capacity :
    NewTxIndexRecordFromBytes [0x01, 0x80] [0, 0, 0, 0, 0, 0]
        = some { NFile := 1, NDataPos := 128, NTxOffset := 0 }
      ∧ NewFileInfoRecordFromBytes [] [0, 0, 0, 0, 0, 0, 0]
        = some { NumOfBlocks := 0, Size := 0, UndoSize := 0, HeightFirst := 0,
                 HeightLast := 0, TimeFirst := Time.ofUnix 0, TimeLast := Time.ofUnix 0 } := by
  decide

/-- C20 amended: metadata record decoding is all-or-nothing on a value without spare
capacity.  If a byte string `b` ends before all fields have been read, that is, if on `b`
followed by more bytes the decoder reads past the end of `b`, then on `b` itself, taken
as a slice whose capacity is its length, `NewBlockIndexRecordFromBytes`,
`NewFileInfoRecordFromBytes` and `NewTxIndexRecordFromBytes` fail (a run-time panic) and
return no record; in particular on the empty string and on the single byte `80`.  On a
value `b` with the bytes `spare` behind it each decoder does what it does on the value
`b ++ spare`. -/
theorem truncated_record_fails (b ext : List Byte) :
    (∀ rec buf1, decodeBlockIndexRecord (NewDataBuf (b ++ ext)) = some (rec, buf1) →
        b.length < buf1.pos → NewBlockIndexRecordFromBytes b = none)
      ∧ (∀ rec buf1, decodeFileInfoRecord (NewDataBuf (b ++ ext)) = some (rec, buf1) →
        b.length < buf1.pos → NewFileInfoRecordFromBytes b = none)
      ∧ (∀ rec buf1, decodeTxIndexRecord (NewDataBuf (b ++ ext)) = some (rec, buf1) →
        b.length < buf1.pos → NewTxIndexRecordFromBytes b = none)
      ∧ NewBlockIndexRecordFromBytes [] = none ∧ NewFileInfoRecordFromBytes [] = none
      ∧ NewTxIndexRecordFromBytes [] = none
      ∧ NewBlockIndexRecordFromBytes [0x80] = none ∧ NewFileInfoRecordFromBytes [0x80] = none
      ∧ NewTxIndexRecordFromBytes [0x80] = none
      ∧ (∀ spare, NewBlockIndexRecordFromBytes b spare
            = NewBlockIndexRecordFromBytes (b ++ spare))
      ∧ (∀ spare, NewFileInfoRecordFromBytes b spare = NewFileInfoRecordFromBytes (b ++ spare))
      ∧ (∀ spare, NewTxIndexRecordFromBytes b spare
            = NewTxIndexRecordFromBytes (b ++ spare)) := by
  refine ⟨?_, ?_, ?_, by decide, by decide, by decide, by decide, by decide, by decide,
    ?_, ?_, ?_⟩
  · intro rec buf1 h hlen
    rw [NewBlockIndexRecordFromBytes,
      Reads.truncated Reads_decodeBlockIndexRecord b ext rec buf1 h hlen]
    rfl
  · intro rec buf1 h hlen
    rw [NewFileInfoRecordFromBytes,
      Reads.truncated Reads_decodeFileInfoRecord b ext rec buf1 h hlen]
    rfl
  · intro rec buf1 h hlen
    rw [NewTxIndexRecordFromBytes,
      Reads.truncated Reads_decodeTxIndexRecord b ext rec buf1 h hlen]
    rfl
  · intro spare
    rw [NewBlockIndexRecordFromBytes, NewBlockIndexRecordFromBytes, NewDataBuf_append]
  · intro spare
    rw [NewFileInfoRecordFromBytes, NewFileInfoRecordFromBytes, NewDataBuf_append]
  · intro spare
    rw [NewTxIndexRecordFromBytes, NewTxIndexRecordFromBytes, NewDataBuf_append]

/-- C20 amended, at the transaction-index value `01 80 00 05` cut after its second byte:
the whole value decodes with four bytes read, the two-byte value `01 80` without spare
capacity fails. -/
theorem truncated_record_fails_witness :
    decodeTxIndexRecord (NewDataBuf ([1, 0x80] ++ [0x00, 5]))
        = some ({ NFile := 1, NDataPos := 128, NTxOffset := 5 },
                { b := [1, 0x80, 0x00, 5], pos := 4 })
      ∧ NewTxIndexRecordFromBytes [1, 0x80] = none :=
  ⟨by decide,
   (truncated_record_fails [1, 0x80] [0x00, 5]).2.2.1 _ _
     (by decide : decodeTxIndexRecord (NewDataBuf ([1, 0x80] ++ [0x00, 5]))
        = some ({ NFile := 1, NDataPos := 128, NTxOffset := 5 },
                { b := [1, 0x80, 0x00, 5], pos := 4 }))
     (by decide)⟩

end db

end blockchainparser

namespace blockchainparser

set_option maxRecDepth 1000000

/-! ## The transaction decoder: helper lemmas -/

theorem BlockFile.Peek_eq (bf : BlockFile) (n : Nat) :
    bf.Peek n = (.ok (bf.ReadBytes n).1, bf) := by
  unfold BlockFile.Peek
  rw [File.Seek_current]
  dsimp only
  rw [File.Seek_absolute]
  obtain ⟨⟨contents, offset⟩, num⟩ := bf
  rfl

theorem BlockFile.ReadByte_advance (bf : BlockFile) (b : Byte) (rest : List Byte)
    (h : bf.file.contents.drop bf.file.offset = b :: rest) :
    bf.ReadByte = (b, bf.advance 1) := by
  have h1 : bf.ReadBytes 1 = ([b], bf.advance 1) := BlockFile.ReadBytes_advance bf [b] rest h
  simp [BlockFile.ReadByte, h1]

/-- The decoder after the version, with the marker and flag decision made explicit. -/
theorem ParseBlockTransactionFromFile_head (bf : BlockFile) (v0 v1 v2 v3 p fl : Byte)
    (rest : List Byte)
    (h : bf.file.contents.drop bf.file.offset = v0 :: v1 :: v2 :: v3 :: p :: fl :: rest) :
    ParseBlockTransactionFromFile bf =
      (let start := if p = 0 then bf.advance 6 else bf.advance 4
       let txFlag := if p = 0 then fl.val else 0
       let n := start.ReadVarint
       match readInputs n.1 n.2 [] with
       | (none, bfp) => (.error .makeslice, bfp)
       | (some vin, bfi) =>
         let nout := bfi.ReadVarint
         match readOutputs nout.1 nout.2 [] with
         | (none, bfp) => (.error .makeslice, bfp)
         | (some vout, bfo) =>
           match (if txFlag % 2 = 1 then readWitnesses n.1 0 bfo vin else (some vin, bfo)) with
           | (none, bfp) => (.error .makeslice, bfp)
           | (some vinw, bfw) =>
             let lt := bfw.ReadUint32
             (.ok { hash := none, Version := toInt32 (LittleEndian.Uint32 [v0, v1, v2, v3]),
                    Locktime := lt.1, Vin := vinw, Vout := vout,
                    StartPos := bf.file.offset },
              lt.2)) := by
  have e1 : bf.ReadBytes 4 = ([v0, v1, v2, v3], bf.advance 4) :=
    BlockFile.ReadBytes_advance bf [v0, v1, v2, v3] _ h
  have d4 : (bf.advance 4).file.contents.drop (bf.advance 4).file.offset = p :: fl :: rest :=
    BlockFile.advance_drop bf [v0, v1, v2, v3] _ h
  have e2 : (bf.advance 4).ReadBytes 1 = ([p], (bf.advance 4).advance 1) :=
    BlockFile.ReadBytes_advance (bf.advance 4) [p] _ d4
  have e3 : (bf.advance 4).ReadByte = (p, bf.advance 5) := by
    rw [BlockFile.ReadByte_advance (bf.advance 4) p _ d4, BlockFile.advance_advance]
  have d5 : (bf.advance 5).file.contents.drop (bf.advance 5).file.offset = fl :: rest := by
    have := BlockFile.advance_drop (bf.advance 4) [p] _ d4
    rwa [BlockFile.advance_advance] at this
  have e4 : (bf.advance 5).ReadByte = (fl, bf.advance 6) := by
    rw [BlockFile.ReadByte_advance (bf.advance 5) fl _ d5, BlockFile.advance_advance]
  unfold ParseBlockTransactionFromFile
  rw [BlockFile.Seek_cur]
  dsimp only
  rw [BlockFile.Peek_eq]
  dsimp only
  simp only [BlockFile.ReadInt32, e1, e2, e3, e4, List.getD_cons_zero, Int.toNat_ofNat]
  by_cases hp : p = 0
  · simp only [hp, if_true]
  · simp only [hp, if_false]

end blockchainparser

namespace blockchainparser

set_option maxRecDepth 1000000

theorem readWitnessItems_eq (n : Nat) :
    ∀ (bf : BlockFile) (acc : List (List Byte)),
      readWitnessItems n bf acc
        = ((readStackItems n bf).1.map (fun items => acc ++ items), (readStackItems n bf).2) := by
  induction n with
  | zero =>
    intro bf acc
    simp [readWitnessItems, readStackItems]
  | succ k ih =>
    intro bf acc
    simp only [readWitnessItems, readStackItems]
    rcases hrb : bf.ReadVarint.2.ReadBytesOrPanic bf.ReadVarint.1 with ⟨_ | item, bf1⟩
    · rfl
    · simp only [ih]
      rcases hrest : readStackItems k bf1 with ⟨_ | items, bf2⟩
      · rfl
      · simp

theorem setScriptWitness_append (pre : List TxInput) (m : TxInput) (mid : List TxInput)
    (w : List (List Byte)) :
    setScriptWitness (pre ++ m :: mid) pre.length w
      = pre ++ { m with ScriptWitness := w } :: mid := by
  induction pre with
  | nil => rfl
  | cons a t ih => simp [setScriptWitness, ih]

theorem readStacks_length (n : Nat) :
    ∀ (bf bf1 : BlockFile) (stks : List (List (List Byte))),
      readStacks n bf = (some stks, bf1) → stks.length = n := by
  induction n with
  | zero =>
    intro bf bf1 stks h
    simp only [readStacks, Prod.mk.injEq, Option.some.injEq] at h
    rw [← h.1]
    rfl
  | succ k ih =>
    intro bf bf1 stks h
    simp only [readStacks] at h
    rcases hs : readStack bf with ⟨_ | s, bf2⟩
    · rw [hs] at h
      simp at h
    · rw [hs] at h
      dsimp only at h
      rcases hr : readStacks k bf2 with ⟨_ | r, bf3⟩
      · rw [hr] at h
        simp at h
      · rw [hr] at h
        simp only [Prod.mk.injEq, Option.some.injEq] at h
        rw [← h.1, List.length_cons, ih _ _ _ hr]

theorem readWitnesses_eq (n : Nat) :
    ∀ (bf : BlockFile) (pre mid : List TxInput), mid.length = n →
      readWitnesses n pre.length bf (pre ++ mid)
        = ((readStacks n bf).1.map (fun stks => pre ++ attachWitnesses mid stks),
           (readStacks n bf).2) := by
  induction n with
  | zero =>
    intro bf pre mid hmid
    have : mid = [] := List.length_eq_zero.mp hmid
    subst this
    simp [readWitnesses, readStacks, attachWitnesses]
  | succ k ih =>
    intro bf pre mid hmid
    match mid, hmid with
    | m :: mid1, hmid =>
      have hlen : mid1.length = k := by simpa using hmid
      simp only [readWitnesses, readStacks, readStack, readWitnessItems_eq, List.nil_append]
      by_cases hc : bf.ReadVarint.1 * 24 ≤ maxAlloc
      · simp only [hc, if_true]
        rcases hs : readStackItems bf.ReadVarint.1 bf.ReadVarint.2 with ⟨_ | s, bf2⟩
        · rfl
        · have step := ih bf2 (pre ++ [{ m with ScriptWitness := s }]) mid1 hlen
          simp only [List.length_append, List.length_singleton, List.append_assoc,
            List.singleton_append] at step
          simp only [Option.map_some', id_eq, List.append_nil, setScriptWitness_append, step]
          rcases hr : readStacks k bf2 with ⟨_ | r, bf3⟩
          · rfl
          · simp [attachWitnesses]
      · simp only [hc, if_false]
        rfl

theorem readInputs_spec (n : Nat) :
    ∀ (bf bf1 : BlockFile) (acc vin : List TxInput),
      readInputs n bf acc = (some vin, bf1) →
        vin.length = acc.length + n ∧ ∀ inp ∈ vin, inp ∈ acc ∨ inp.ScriptWitness = [] := by
  induction n with
  | zero =>
    intro bf bf1 acc vin h
    simp only [readInputs, Prod.mk.injEq, Option.some.injEq] at h
    rw [← h.1]
    exact ⟨rfl, fun inp hin => Or.inl hin⟩
  | succ k ih =>
    intro bf bf1 acc vin h
    simp only [readInputs] at h
    rcases hrb : ((bf.ReadBytes 32).2.ReadUint32.2.ReadVarint.2.ReadBytesOrPanic
        (bf.ReadBytes 32).2.ReadUint32.2.ReadVarint.1) with ⟨_ | script, bf4⟩
    · rw [hrb] at h
      simp at h
    · rw [hrb] at h
      dsimp only at h
      obtain ⟨hl, hm⟩ := ih _ _ _ _ h
      refine ⟨?_, ?_⟩
      · rw [hl, List.length_append, List.length_singleton]
        omega
      · intro inp hin
        rcases hm inp hin with h1 | h1
        · rw [List.mem_append, List.mem_singleton] at h1
          rcases h1 with h1 | h1
          · exact Or.inl h1
          · exact Or.inr (by rw [h1])
        · exact Or.inr h1

end blockchainparser

namespace blockchainparser

set_option maxRecDepth 1000000

/-! ## Claims about the transaction decoder -/

/-- C11: on the 12 bytes `01000000 00 01 00 00 00000000` the decoder takes the extended
encoding (marker `00`, flag `01`), returns `Version = 1`, no inputs, no outputs,
`Locktime = 0` and consumes all 12 bytes; `HasWitness()` is false; and `Txid()` is the
double hash of the 10 bytes `01000000 00 00 00000000`. -/
theorem extended_without_inputs :
    ParseBlockTransactionFromFile (BlockFile.ofBytes extendedNoInputs 0)
        = (.ok emptyTxV1, BlockFile.ofBytes extendedNoInputs 12)
      ∧ extendedNoInputs.length = 12
      ∧ emptyTxV1.Version = 1 ∧ emptyTxV1.Vin = [] ∧ emptyTxV1.Vout = []
      ∧ emptyTxV1.Locktime = 0
      ∧ emptyTxV1.HasWitness = false
      ∧ emptyTxV1.txidBin = [1, 0, 0, 0, 0, 0, 0, 0, 0, 0]
      ∧ emptyTxV1.Txid = DoubleSha256 [1, 0, 0, 0, 0, 0, 0, 0, 0, 0] := by
  refine ⟨by decide, by decide, rfl, rfl, rfl, rfl, by decide, by decide, by decide⟩

/-- C12 as stated fails: on `legacyZeroInputs` (version, input count `00`, output count
`01`, one output of value 0 with an empty script, locktime 0; 19 bytes) the decoder takes
the `00` as the marker and the `01` as the flag, so it returns no output, not one, and
stops after 12 bytes. -/
theorem zero_input_count_taken_as_marker :
    ParseBlockTransactionFromFile (BlockFile.ofBytes legacyZeroInputs 0)
        = (.ok emptyTxV1, BlockFile.ofBytes legacyZeroInputs 12)
      ∧ legacyZeroInputs.length = 19
      ∧ emptyTxV1.Vout.length ≠ 1 := by
  refine ⟨by decide, by decide, by decide⟩

/-- C12 amended: when the version is followed by a byte `00`, the decoder consumes that
byte as the marker and the next byte `fl` as the flag, and reads the CompactSize input
count from the byte after the flag (cursor 6 bytes past the start); the inputs, the output
count, the outputs, the witness stacks when bit 0 of `fl` is set, and the locktime follow
from there.  The transaction is returned unless a length or count read on the way is more
than `make` allocates, which is a run-time panic. -/
theorem zero_byte_after_version_is_marker (blockFile : BlockFile) (v0 v1 v2 v3 fl : Byte)
    (rest : List Byte)
    (h : blockFile.file.contents.drop blockFile.file.offset
          = v0 :: v1 :: v2 :: v3 :: 0 :: fl :: rest) :
    ParseBlockTransactionFromFile blockFile =
      (let n := (blockFile.advance 6).ReadVarint
       match readInputs n.1 n.2 [] with
       | (none, bfp) => (.error .makeslice, bfp)
       | (some vin, bfi) =>
         let nout := bfi.ReadVarint
         match readOutputs nout.1 nout.2 [] with
         | (none, bfp) => (.error .makeslice, bfp)
         | (some vout, bfo) =>
           match (if fl.val % 2 = 1 then readWitnesses n.1 0 bfo vin else (some vin, bfo)) with
           | (none, bfp) => (.error .makeslice, bfp)
           | (some vinw, bfw) =>
             let lt := bfw.ReadUint32
             (.ok { hash := none, Version := toInt32 (LittleEndian.Uint32 [v0, v1, v2, v3]),
                    Locktime := lt.1, Vin := vinw, Vout := vout,
                    StartPos := blockFile.file.offset },
              lt.2)) := by
  rw [ParseBlockTransactionFromFile_head blockFile v0 v1 v2 v3 0 fl rest h]
  simp only [if_true]

/-- C12 amended, at `legacyZeroInputs`: the input count is the byte at offset 6. -/
theorem zero_byte_after_version_is_marker_witness :
    (BlockFile.ofBytes legacyZeroInputs 0).file.contents.drop 0
        = 1 :: 0 :: 0 :: 0 :: 0 :: 1 :: List.replicate 13 0
      ∧ ((BlockFile.ofBytes legacyZeroInputs 0).advance 6).ReadVarint
        = (0, BlockFile.ofBytes legacyZeroInputs 7)
      ∧ ParseBlockTransactionFromFile (BlockFile.ofBytes legacyZeroInputs 0)
        = (.ok emptyTxV1, BlockFile.ofBytes legacyZeroInputs 12) := by
  have h := zero_byte_after_version_is_marker (BlockFile.ofBytes legacyZeroInputs 0) 1 0 0 0 1
    (List.replicate 13 0) (by decide)
  refine ⟨by decide, by decide, ?_⟩
  rw [h]
  decide

/-- C14: `HasWitness()` is true exactly when some input has a witness stack with at least
one item; hence it is false for a transaction without inputs and when every stack is
empty. -/
theorem HasWitness_iff (tx : Transaction) :
    (tx.HasWitness = true ↔ ∃ inp ∈ tx.Vin, 0 < inp.ScriptWitness.length)
      ∧ (tx.Vin = [] → tx.HasWitness = false)
      ∧ ((∀ inp ∈ tx.Vin, inp.ScriptWitness = []) → tx.HasWitness = false) := by
  have key : ∀ l : List TxInput,
      hasWitnessLoop l = true ↔ ∃ inp ∈ l, 0 < inp.ScriptWitness.length := by
    intro l
    induction l with
    | nil => simp [hasWitnessLoop]
    | cons a t ih =>
      by_cases ha : a.ScriptWitness.length > 0
      · simp only [hasWitnessLoop, if_pos ha, true_iff]
        exact ⟨a, List.mem_cons_self a t, ha⟩
      · simp only [hasWitnessLoop, if_neg ha, ih, List.mem_cons, exists_eq_or_imp]
        constructor
        · intro h
          exact Or.inr h
        · rintro (h | h)
          · exact absurd h ha
          · exact h
  refine ⟨key tx.Vin, ?_, ?_⟩
  · intro h
    simp [Transaction.HasWitness, h, hasWitnessLoop]
  · intro h
    cases hw : tx.HasWitness with
    | false => rfl
    | true =>
      obtain ⟨inp, hin, hpos⟩ := (key tx.Vin).mp hw
      rw [h inp hin] at hpos
      exact absurd hpos (by simp)

end blockchainparser

namespace blockchainparser

set_option maxRecDepth 1000000

/-- C13: the witness step.  Let the version be followed by the bytes `p` and `fl`, let `n`
be the input count (read 6 bytes past the start when `p = 0`, else 4 bytes past it), and
let the inputs `vin` and the outputs `vout` have been read after it, every script length
within what `make` allocates.  If `p = 0` and bit 0 of `fl` is set, the decoder reads,
after the outputs and before the locktime, `n` witness stacks one after the other (each a
CompactSize item count followed by that many length-prefixed items) and stores them in
order as the `ScriptWitness` of the inputs; it panics when a stack or an item is larger
than `make` allocates.  If `p` is non-zero (legacy) or bit 0 of `fl` is clear, the
locktime is read right after the outputs and every input has an empty witness stack. -/
theorem witness_step (blockFile : BlockFile) (v0 v1 v2 v3 p fl : Byte) (rest : List Byte)
    (vin : List TxInput) (vout : List TxOutput) (bf1 bf2 : BlockFile)
    (h : blockFile.file.contents.drop blockFile.file.offset
          = v0 :: v1 :: v2 :: v3 :: p :: fl :: rest)
    (hin : readInputs (if p = 0 then blockFile.advance 6 else blockFile.advance 4).ReadVarint.1
              (if p = 0 then blockFile.advance 6 else blockFile.advance 4).ReadVarint.2 []
            = (some vin, bf1))
    (hout : readOutputs bf1.ReadVarint.1 bf1.ReadVarint.2 [] = (some vout, bf2)) :
    (p = 0 ∧ fl.val % 2 = 1 →
        (∀ stks bf3, readStacks (blockFile.advance 6).ReadVarint.1 bf2 = (some stks, bf3) →
          ParseBlockTransactionFromFile blockFile
            = (.ok { hash := none, Version := toInt32 (LittleEndian.Uint32 [v0, v1, v2, v3]),
                     Locktime := bf3.ReadUint32.1, Vin := attachWitnesses vin stks,
                     Vout := vout, StartPos := blockFile.file.offset },
               bf3.ReadUint32.2)
            ∧ vin.length = (blockFile.advance 6).ReadVarint.1
            ∧ stks.length = (blockFile.advance 6).ReadVarint.1)
          ∧ (∀ bfp, readStacks (blockFile.advance 6).ReadVarint.1 bf2 = (none, bfp) →
              ParseBlockTransactionFromFile blockFile = (.error .makeslice, bfp)))
      ∧ (p ≠ 0 ∨ fl.val % 2 ≠ 1 →
        ParseBlockTransactionFromFile blockFile
          = (.ok { hash := none, Version := toInt32 (LittleEndian.Uint32 [v0, v1, v2, v3]),
                   Locktime := bf2.ReadUint32.1, Vin := vin, Vout := vout,
                   StartPos := blockFile.file.offset },
             bf2.ReadUint32.2)
          ∧ ∀ inp ∈ vin, inp.ScriptWitness = []) := by
  have hhead := ParseBlockTransactionFromFile_head blockFile v0 v1 v2 v3 p fl rest h
  dsimp only at hhead
  have hins := readInputs_spec _ _ _ _ _ hin
  have hempty : ∀ inp ∈ vin, inp.ScriptWitness = [] := by
    intro inp hmem
    rcases hins.2 inp hmem with h1 | h1
    · simp at h1
    · exact h1
  rw [hin] at hhead
  dsimp only at hhead
  rw [hout] at hhead
  dsimp only at hhead
  by_cases hp : p = 0
  · subst hp
    simp only [if_true] at hhead hins
    have hlen : vin.length = (blockFile.advance 6).ReadVarint.1 := by simpa using hins.1
    refine ⟨?_, ?_⟩
    · rintro ⟨_, hfl⟩
      have hw := readWitnesses_eq (blockFile.advance 6).ReadVarint.1 bf2 [] vin hlen
      simp only [List.nil_append, List.length_nil] at hw
      simp only [hfl, if_true, hw] at hhead
      refine ⟨?_, ?_⟩
      · intro stks bf3 hst
        refine ⟨?_, hlen, readStacks_length _ _ _ _ hst⟩
        rw [hhead, hst]
        rfl
      · intro bfp hst
        rw [hhead, hst]
        rfl
    · intro hcase
      have hfl : ¬ (fl.val % 2 = 1) := by
        rcases hcase with h1 | h1
        · exact absurd rfl h1
        · exact h1
      refine ⟨?_, hempty⟩
      rw [hhead]
      simp only [if_neg hfl]
  · simp only [if_neg hp] at hhead
    refine ⟨?_, ?_⟩
    · rintro ⟨h0, _⟩
      exact absurd h0 hp
    · intro _
      refine ⟨?_, hempty⟩
      rw [hhead]
      simp only [Nat.zero_mod, Nat.zero_ne_one, if_false]

/-- C13 at `segwitStream` (marker `00`, flag `01`, one input: the stack `[30 44, 02]` is
read after the output and attached to the input) and at `legacyStream` (byte `01` after
the version: no witness bytes, empty stack). -/
theorem witness_step_witness :
    ParseBlockTransactionFromFile (BlockFile.ofBytes segwitStream 0)
        = (.ok txWithWitness, BlockFile.ofBytes segwitStream 70)
      ∧ readStacks 1 (BlockFile.ofBytes segwitStream 60)
        = (some [[[0x30, 0x44], [0x02]]], BlockFile.ofBytes segwitStream 66)
      ∧ ParseBlockTransactionFromFile (BlockFile.ofBytes legacyStream 0)
        = (.ok txWithoutWitness, BlockFile.ofBytes legacyStream 62) := by
  have h1 := ((witness_step (BlockFile.ofBytes segwitStream 0) 2 0 0 0 0 1
    ([1] ++ List.replicate 32 9 ++ [1, 0, 0, 0, 1, 0x51, 0xFF, 0xFF, 0xFF, 0xFF, 1, 0x88, 0x13,
      0, 0, 0, 0, 0, 0, 1, 0x6a, 2, 2, 0x30, 0x44, 1, 0x02, 0, 0, 0, 0])
    txWithoutWitness.Vin txWithoutWitness.Vout (BlockFile.ofBytes segwitStream 49)
    (BlockFile.ofBytes segwitStream 60) (by decide) (by decide) (by decide)).1
    ⟨rfl, by decide⟩).1 [[[0x30, 0x44], [0x02]]] (BlockFile.ofBytes segwitStream 66) (by decide)
  have h2 := (witness_step (BlockFile.ofBytes legacyStream 0) 2 0 0 0 1 9
    (List.replicate 31 9 ++ [1, 0, 0, 0, 1, 0x51, 0xFF, 0xFF, 0xFF, 0xFF, 1, 0x88, 0x13,
      0, 0, 0, 0, 0, 0, 1, 0x6a, 0, 0, 0, 0])
    txWithoutWitness.Vin txWithoutWitness.Vout (BlockFile.ofBytes legacyStream 47)
    (BlockFile.ofBytes legacyStream 58) (by decide) (by decide) (by decide)).2
    (Or.inl (by decide))
  refine ⟨?_, by decide, ?_⟩
  · rw [h1.1]
    decide
  · rw [h2.1]
    decide

/-- On `oversizedScriptStream` the decoder panics: the script length read for the first
input is 2^64 - 1, more than `make` allocates. -/
theorem oversized_script_length_panics :
    ParseBlockTransactionFromFile (BlockFile.ofBytes oversizedScriptStream 0)
      = (.error .makeslice, BlockFile.ofBytes oversizedScriptStream 50) := by
  decide

end blockchainparser

namespace blockchainparser

set_option maxRecDepth 1000000

/-! ## `ReverseHex` is list reversal -/

theorem swapBytes_length (l : List Byte) (i o : Nat) : (swapBytes l i o).length = l.length := by
  simp [swapBytes]

theorem swapBytes_getElem (l : List Byte) (i o m : Nat) (hi : i < l.length)
    (ho : o < l.length) :
    (swapBytes l i o)[m]? = if m = o then l[i]? else if m = i then l[o]? else l[m]? := by
  unfold swapBytes
  rw [List.getElem?_set, List.getElem?_set]
  simp only [List.length_set, List.getD_eq_getElem?_getD]
  by_cases h1 : o = m
  · subst h1
    simp [ho, List.getElem?_eq_getElem hi]
  · by_cases h2 : i = m
    · subst h2
      simp [h1, hi, List.getElem?_eq_getElem ho, Ne.symm h1]
    · simp [h1, h2, Ne.symm h1, Ne.symm h2]

theorem reverseHexLoop_length (k : Nat) (l : List Byte) :
    (reverseHexLoop k l).length = l.length := by
  induction k generalizing l with
  | zero => rfl
  | succ k ih => rw [reverseHexLoop, ih, swapBytes_length]

/-- After the `k` iterations that are left, the outer `k` positions on either side hold the
mirrored element and the positions between them are untouched. -/
theorem reverseHexLoop_getElem (k : Nat) (l : List Byte) (hk : 2 * k ≤ l.length) (j : Nat) :
    (reverseHexLoop k l)[j]?
      = if j < k ∨ (l.length ≤ j + k ∧ j < l.length) then l[l.length - 1 - j]? else l[j]? := by
  induction k generalizing l with
  | zero =>
    have : ¬ (l.length ≤ j ∧ j < l.length) := by omega
    simp [reverseHexLoop, this]
  | succ k ih =>
    rw [reverseHexLoop, ih _ (by rw [swapBytes_length]; omega), swapBytes_length,
      swapBytes_getElem l k _ _ (by omega) (by omega),
      swapBytes_getElem l k _ _ (by omega) (by omega)]
    by_cases c1 : j < k ∨ (l.length ≤ j + k ∧ j < l.length)
    · have c2 : j < k + 1 ∨ (l.length ≤ j + (k + 1) ∧ j < l.length) := by omega
      rw [if_pos c1, if_pos c2, if_neg (by omega), if_neg (by omega)]
    · rw [if_neg c1]
      by_cases c3 : j = l.length - 1 - k
      · rw [if_pos c3, if_pos (by omega)]
        congr 1
        omega
      · rw [if_neg c3]
        by_cases c4 : j = k
        · rw [if_pos c4, if_pos (by omega)]
          subst c4
          rfl
        · rw [if_neg c4, if_neg (by omega)]

theorem ReverseHex_eq_reverse (b : List Byte) : ReverseHex b = b.reverse := by
  apply List.ext_getElem?
  intro j
  unfold ReverseHex
  rw [reverseHexLoop_getElem _ _ (by omega)]
  by_cases hj : j < b.length
  · rw [List.getElem?_reverse hj]
    by_cases c : j < b.length / 2 ∨ (b.length ≤ j + b.length / 2 ∧ j < b.length)
    · rw [if_pos c]
    · rw [if_neg c]
      congr 1
      omega
  · rw [if_neg (by omega), List.getElem?_eq_none (by omega),
      List.getElem?_eq_none (by simp; omega)]

/-- C21: for every byte sequence `b`, of any length, `ReverseHex b` is as long as `b`, its
element `i` is element `len(b) - 1 - i` of `b` for every `i < len(b)` (and it has no
element beyond), and `ReverseHex (ReverseHex b) = b`. -/
theorem ReverseHex_reverses (b : List Byte) :
    (ReverseHex b).length = b.length
    ∧ (∀ i : Nat, (ReverseHex b)[i]? = if i < b.length then b[b.length - 1 - i]? else none)
    ∧ ReverseHex (ReverseHex b) = b := by
  refine ⟨?_, ?_, ?_⟩
  · rw [ReverseHex_eq_reverse, List.length_reverse]
  · intro i
    rw [ReverseHex_eq_reverse]
    by_cases hi : i < b.length
    · rw [if_pos hi, List.getElem?_reverse hi]
    · rw [if_neg hi, List.getElem?_eq_none (by simp; omega)]
  · rw [ReverseHex_eq_reverse, ReverseHex_eq_reverse, List.reverse_reverse]

/-! ## Display form and key order -/

theorem hex.fromHexChar_hextable (d : Nat) (h : d < 16) :
    hex.fromHexChar (hex.hextable d) = some d := by
  interval_cases d <;> rfl

theorem hex.DecodeString_EncodeToString (l : List Byte) :
    hex.DecodeString (hex.EncodeToString l) = .ok l := by
  induction l with
  | nil => rfl
  | cons v l ih =>
    have hv := v.isLt
    rw [hex.EncodeToString, hex.DecodeString,
      hex.fromHexChar_hextable _ (by omega), hex.fromHexChar_hextable _ (by omega)]
    dsimp only
    rw [ih]
    dsimp only
    congr 2
    apply Fin.ext
    rw [byte_val]
    omega

/-- C22: display hex and key order are inverse.  For every byte sequence `h`, hex-decoding
`Hash256(h).String()` succeeds with `ReverseHex h`, and `ReverseHex` of that is `h`; so
`GetBlockIndexRecordByBigEndianHex` on the display string of `h` asks the store for the
key `'b'` (0x62) followed by `h`, and `GetTxIndexRecordByBigEndianHex` for the key `'t'`
(0x74) followed by `h`, whatever the store `indexDb` answers. -/
theorem display_hex_is_reversed_key (h : List Byte) (indexDb : db.IndexDb) :
    hex.DecodeString (Hash256.String h) = .ok (ReverseHex h)
    ∧ ReverseHex (ReverseHex h) = h
    ∧ db.GetBlockIndexRecordByBigEndianHex indexDb (Hash256.String h)
        = (match indexDb.Get (0x62 :: h) with
           | .error e => .error (.get e)
           | .ok data => .ok (db.NewBlockIndexRecordFromBytes data))
    ∧ db.GetTxIndexRecordByBigEndianHex indexDb (Hash256.String h)
        = (match indexDb.Get (0x74 :: h) with
           | .error e => .error (.get e)
           | .ok data => .ok (db.NewTxIndexRecordFromBytes data)) := by
  have e1 : hex.DecodeString (Hash256.String h) = .ok (ReverseHex h) :=
    hex.DecodeString_EncodeToString _
  have e2 : ReverseHex (ReverseHex h) = h := by
    rw [ReverseHex_eq_reverse, ReverseHex_eq_reverse, List.reverse_reverse]
  refine ⟨e1, e2, ?_, ?_⟩
  · unfold db.GetBlockIndexRecordByBigEndianHex
    rw [e1]
    dsimp only
    rw [e2]
    rfl
  · unfold db.GetTxIndexRecordByBigEndianHex
    rw [e1]
    dsimp only
    rw [e2]
    rfl

/-! ## The cursor at the end of the data -/

theorem BlockFile.ReadBytes_padded (bf : BlockFile) (n : Nat) :
    bf.ReadBytes n = (bf.padded n, bf.advance (min n bf.left)) := by
  unfold BlockFile.ReadBytes File.Read BlockFile.padded BlockFile.advance BlockFile.left
  simp only [List.length_take, List.length_drop, List.take_append_eq_append_take,
    List.take_replicate]
  congr 3
  omega

/-- C23 as stated fails: no read reports truncation.  With two bytes `01 02` left,
`ReadUint32`, `ReadInt32`, `ReadInt64` and `ReadUint64` return 513, the value of
`01 02 00 00 ...`, and stop at offset 2; with nothing left `ReadByte` returns 0 and
`ReadBytes 3` returns three zero bytes; with one byte `07` left `ReadUint16` returns 7;
and `ReadVarint` on `FD 05` returns 5, the value of `05 00`. -/
theorem reads_past_end_return_values :
    (BlockFile.ofBytes [1, 2] 0).ReadUint32 = (513, BlockFile.ofBytes [1, 2] 2)
    ∧ (BlockFile.ofBytes [] 0).ReadByte = (0, BlockFile.ofBytes [] 0)
    ∧ (BlockFile.ofBytes [] 0).ReadBytes 3 = ([0, 0, 0], BlockFile.ofBytes [] 0)
    ∧ (BlockFile.ofBytes [7] 0).ReadUint16 = (7, BlockFile.ofBytes [7] 1)
    ∧ (BlockFile.ofBytes [1, 2] 0).ReadInt32 = (513, BlockFile.ofBytes [1, 2] 2)
    ∧ (BlockFile.ofBytes [1, 2] 0).ReadInt64 = (513, BlockFile.ofBytes [1, 2] 2)
    ∧ (BlockFile.ofBytes [1, 2] 0).ReadUint64 = (513, BlockFile.ofBytes [1, 2] 2)
    ∧ (BlockFile.ofBytes [0xFD, 5] 0).ReadVarint = (5, BlockFile.ofBytes [0xFD, 5] 2) := by
  decide

/-- C23 amended: in every cursor state, also one in which fewer bytes remain than the read
requires, each read returns a value and no error.  `ReadBytes n`, for `n` within what
`make` allocates (`n ≤ maxAlloc`; above that the call panics), returns the bytes that
remain, at most `n`, followed by zero bytes up to length `n`, and advances the cursor by
the number of bytes that remained; `ReadByte`, `ReadUint16`, `ReadInt32`, `ReadUint32`,
`ReadInt64` and `ReadUint64` return the value of such a zero-filled buffer of 1, 2, 4, 4, 8
and 8 bytes; `ReadVarint` reads its first byte so and then, for FF, FE or FD, the 8-, 4-
or 2-byte payload so. -/
theorem reads_zero_fill (bf : BlockFile) (n : Nat) (hn : n ≤ maxAlloc) :
    bf.ReadBytesOrPanic n = (some (bf.padded n), bf.advance (min n bf.left))
    ∧ (∀ m, maxAlloc < m → bf.ReadBytesOrPanic m = (none, bf))
    ∧ bf.ReadByte = ((bf.padded 1).getD 0 0, bf.advance (min 1 bf.left))
    ∧ bf.ReadUint16 = (LittleEndian.Uint16 (bf.padded 2), bf.advance (min 2 bf.left))
    ∧ bf.ReadInt32 = (toInt32 (LittleEndian.Uint32 (bf.padded 4)), bf.advance (min 4 bf.left))
    ∧ bf.ReadUint32 = (LittleEndian.Uint32 (bf.padded 4), bf.advance (min 4 bf.left))
    ∧ bf.ReadInt64 = (toInt64 (LittleEndian.Uint64 (bf.padded 8)), bf.advance (min 8 bf.left))
    ∧ bf.ReadUint64 = (LittleEndian.Uint64 (bf.padded 8), bf.advance (min 8 bf.left))
    ∧ bf.ReadVarint
        = (if (bf.padded 1).getD 0 0 = 0xFF then
             (LittleEndian.Uint64 ((bf.advance (min 1 bf.left)).padded 8),
              (bf.advance (min 1 bf.left)).advance (min 8 (bf.advance (min 1 bf.left)).left))
           else if (bf.padded 1).getD 0 0 = 0xFE then
             (LittleEndian.Uint32 ((bf.advance (min 1 bf.left)).padded 4),
              (bf.advance (min 1 bf.left)).advance (min 4 (bf.advance (min 1 bf.left)).left))
           else if (bf.padded 1).getD 0 0 = 0xFD then
             (LittleEndian.Uint16 ((bf.advance (min 1 bf.left)).padded 2),
              (bf.advance (min 1 bf.left)).advance (min 2 (bf.advance (min 1 bf.left)).left))
           else (((bf.padded 1).getD 0 0).val, bf.advance (min 1 bf.left))) := by
  refine ⟨?_, ?_, ?_⟩
  · simp only [BlockFile.ReadBytesOrPanic, if_pos hn, BlockFile.ReadBytes_padded]
  · intro m hm
    simp only [BlockFile.ReadBytesOrPanic, if_neg (Nat.not_le.mpr hm)]
  · simp only [BlockFile.ReadByte, BlockFile.ReadUint16, BlockFile.ReadInt32,
      BlockFile.ReadUint32, BlockFile.ReadInt64, BlockFile.ReadUint64, BlockFile.ReadVarint,
      BlockFile.ReadBytes_padded, and_self]

/-- C23 amended, with two bytes `01 02` left: `ReadBytes 5` returns `01 02 00 00 00` and
stops at offset 2, and `ReadBytes` of 2^64 - 1 bytes panics. -/
theorem reads_zero_fill_witness :
    5 ≤ maxAlloc ∧ maxAlloc < 18446744073709551615
      ∧ (BlockFile.ofBytes [1, 2] 0).ReadBytesOrPanic 5
          = (some [1, 2, 0, 0, 0], BlockFile.ofBytes [1, 2] 2)
      ∧ (BlockFile.ofBytes [1, 2] 0).ReadBytesOrPanic 18446744073709551615
          = (none, BlockFile.ofBytes [1, 2] 0) := by
  have h := reads_zero_fill (BlockFile.ofBytes [1, 2] 0) 5 (by decide)
  refine ⟨by decide, by decide, ?_, ?_⟩
  · rw [h.1]
    decide
  · exact h.2.1 18446744073709551615 (by decide)

/-- C24: `Peek` does not consume.  In a cursor state whose remaining bytes start with the
`n` bytes `got`, `Peek n` returns `got` without error and leaves the cursor as it was, and
`ReadBytes n` right after it returns the same `got` and advances by `n`. -/
theorem Peek_does_not_consume (bf : BlockFile) (n : Nat) (got rest : List Byte)
    (h : bf.file.contents.drop bf.file.offset = got ++ rest) (hn : got.length = n) :
    bf.Peek n = (.ok got, bf) ∧ (bf.Peek n).2.ReadBytes n = (got, bf.advance n) := by
  subst hn
  have e := BlockFile.ReadBytes_advance bf got rest h
  rw [BlockFile.Peek_eq, e]
  exact ⟨rfl, rfl⟩

/-- C24 at offset 1 of `probeStream`, peeking two bytes. -/
theorem Peek_does_not_consume_witness :
    (BlockFile.ofBytes probeStream 1).file.contents.drop (BlockFile.ofBytes probeStream 1).file.offset
        = [0xf9, 0xbe] ++ [0xb4, 0xd8, 1, 2]
    ∧ (BlockFile.ofBytes probeStream 1).Peek 2
        = (.ok [0xf9, 0xbe], BlockFile.ofBytes probeStream 1)
    ∧ ((BlockFile.ofBytes probeStream 1).Peek 2).2.ReadBytes 2
        = ([0xf9, 0xbe], (BlockFile.ofBytes probeStream 1).advance 2) :=
  ⟨by decide,
   Peek_does_not_consume (BlockFile.ofBytes probeStream 1) 2 [0xf9, 0xbe] [0xb4, 0xd8, 1, 2]
    (by decide) (by decide)⟩

/-- C25 fails on the code: `ParseBlockFromFile` never assigns `StartPos`.  On
`recordAtOne`, whose record begins at offset 1, the call from offset 1 succeeds with the
mainnet magic and `Length = 81`, and the block it returns has `StartPos = 0`, not 1. -/
theorem ParseBlockFromFile_StartPos_not_set :
    (ParseBlockFromFile (BlockFile.ofBytes recordAtOne 1) BLOCK_MAGIC_ID_BITCOIN).1.map
        (fun block => (block.MagicId, block.Length, block.StartPos))
      = .ok (BLOCK_MAGIC_ID_BITCOIN, 81, 0) := by
  decide

/-- C26 fails on the code: `Txid` has a value receiver.  For `txWithoutWitness`, whose
cached hash is unset, the call returns the txid and the caller's transaction still has its
hash unset afterwards; the hash was stored only in the copy the body ran on. -/
theorem Txid_call_leaves_hash_unset :
    txWithoutWitness.hash = none
    ∧ (Transaction.callTxid txWithoutWitness).1 = txWithoutWitness.Txid
    ∧ (Transaction.callTxid txWithoutWitness).2.hash = none
    ∧ (Transaction.txidBody txWithoutWitness).2.hash = some txWithoutWitness.Txid := by
  refine ⟨rfl, rfl, rfl, rfl⟩

end blockchainparser

namespace blockchainparser

namespace rpc

set_option maxRecDepth 1000000

/-! ## CompactSize in package rpc -/

theorem Uint16_PutUint16 (n : Nat) (h : n < 65536) :
    LittleEndian.Uint16 (LittleEndian.PutUint16 n) = n := by
  simp only [LittleEndian.PutUint16, LittleEndian.Uint16, byte_val]
  omega

theorem Uint32_PutUint32 (n : Nat) (h : n < 4294967296) :
    LittleEndian.Uint32 (LittleEndian.PutUint32 n) = n := by
  simp only [LittleEndian.PutUint32, LittleEndian.Uint32, byte_val]
  omega

theorem Uint64_PutUint64 (n : Nat) (h : n < 18446744073709551616) :
    LittleEndian.Uint64 (LittleEndian.PutUint64 n) = n := by
  simp only [LittleEndian.PutUint64, LittleEndian.Uint64, byte_val]
  omega

/-- C27: CompactSize round trip at the RPC boundary.  For every unsigned 64-bit `n`,
`shift_varint` on a `TxnBuf` that holds `pack_varint n`, read from position 0, does not
panic, returns `n` and leaves the position at the end of the buffer. -/
theorem shift_varint_pack_varint (n : Nat) (h : n < 18446744073709551616) :
    TxnBuf.shift_varint { b := pack_varint n, pos := 0 }
      = some (n, { b := pack_varint n, pos := (pack_varint n).length }) := by
  unfold pack_varint
  by_cases h1 : n > 0xFFFFFFFF
  · rw [if_pos h1]
    have e := Uint64_PutUint64 n h
    simp only [TxnBuf.shift_varint, TxnBuf.shift_byte, TxnBuf.slice, TxnBuf.shift_64bit]
    simp [LittleEndian.PutUint64] at e ⊢
    exact e
  · rw [if_neg h1]
    by_cases h2 : n > 0xFFFF
    · rw [if_pos h2]
      have e := Uint32_PutUint32 n (by omega)
      have m : n % 4294967296 = n := Nat.mod_eq_of_lt (by omega)
      rw [m]
      simp only [TxnBuf.shift_varint, TxnBuf.shift_byte, TxnBuf.slice, TxnBuf.shift_32bit]
      simp [LittleEndian.PutUint32] at e ⊢
      exact e
    · rw [if_neg h2]
      by_cases h3 : n > 0xFC
      · rw [if_pos h3]
        have e := Uint16_PutUint16 n (by omega)
        have m : n % 65536 = n := Nat.mod_eq_of_lt (by omega)
        rw [m]
        simp only [TxnBuf.shift_varint, TxnBuf.shift_byte, TxnBuf.slice, TxnBuf.shift_16bit]
        simp [LittleEndian.PutUint16] at e ⊢
        exact e
      · rw [if_neg h3]
        have hv : (byte n).val = n := by rw [byte_val]; omega
        have n1 : byte n ≠ 0xFF := by
          intro c
          have t : n = 255 := by rw [← hv, c]; rfl
          omega
        have n2 : byte n ≠ 0xFE := by
          intro c
          have t : n = 254 := by rw [← hv, c]; rfl
          omega
        have n3 : byte n ≠ 0xFD := by
          intro c
          have t : n = 253 := by rw [← hv, c]; rfl
          omega
        simp [TxnBuf.shift_varint, TxnBuf.shift_byte, TxnBuf.slice, n1, n2, n3, hv]

/-- C27 at `n = 70000`, encoded as `FE 70 11 01 00`. -/
theorem shift_varint_pack_varint_witness :
    (70000 : Nat) < 18446744073709551616
    ∧ pack_varint 70000 = [0xFE, 0x70, 0x11, 0x01, 0x00]
    ∧ TxnBuf.shift_varint { b := pack_varint 70000, pos := 0 }
        = some (70000, { b := pack_varint 70000, pos := (pack_varint 70000).length }) :=
  ⟨by decide, by decide, shift_varint_pack_varint 70000 (by decide)⟩

/-- C28 fails on the code: the two encoders differ from 253 on.  `Varint 253` is the one
byte `FD` where `pack_varint 253` is `FD FD 00`; `Varint 255` is `FF` against `FD FF 00`;
`Varint 256` is `FD 01 00` against `FD 00 01`; `Varint 65536` is `FE 00 01 00 00` against
`FE 00 00 01 00`. -/
theorem Varint_differs_from_pack_varint :
    Varint 253 = [0xFD] ∧ pack_varint 253 = [0xFD, 0xFD, 0x00]
    ∧ Varint 255 = [0xFF] ∧ pack_varint 255 = [0xFD, 0xFF, 0x00]
    ∧ Varint 256 = [0xFD, 0x01, 0x00] ∧ pack_varint 256 = [0xFD, 0x00, 0x01]
    ∧ Varint 65536 = [0xFE, 0x00, 0x01, 0x00, 0x00]
    ∧ pack_varint 65536 = [0xFE, 0x00, 0x00, 0x01, 0x00] := by
  decide

end rpc

end blockchainparser

namespace blockchainparser

set_option maxRecDepth 1000000

/-! ## The record decoder behind a magic that matches -/

theorem BlockFile.ReadBytes_after (bf : BlockFile) (n : Nat) :
    bf.ReadBytes n = (bf.padded n, bf.after n) :=
  BlockFile.ReadBytes_padded bf n

theorem BlockFile.after_after (bf : BlockFile) (a b : Nat) :
    (bf.after a).after b = bf.after (a + b) := by
  unfold BlockFile.after BlockFile.advance BlockFile.left
  simp only [BlockFile.mk.injEq, File.mk.injEq, true_and, and_true]
  omega

theorem zeroFill_drop (l : List Byte) (a b : Nat) :
    ((l.drop (min a l.length)) ++ List.replicate b (0 : Byte)).take b
      = ((l ++ List.replicate (a + b) (0 : Byte)).take (a + b)).drop a := by
  apply List.ext_getElem?
  intro i
  simp only [List.getElem?_take, List.getElem?_drop, List.getElem?_append,
    List.getElem?_replicate, List.length_drop]
  by_cases hi : i < b
  · have h2 : a + i < a + b := by omega
    simp only [hi, h2, if_true]
    by_cases ha : a ≤ l.length
    · rw [Nat.min_eq_left ha]
      by_cases hl : a + i < l.length
      · have : i < l.length - a := by omega
        simp [this, hl]
      · have : ¬ i < l.length - a := by omega
        simp only [this, hl, if_false]
        have h3 : i - (l.length - a) < b := by omega
        have h4 : a + i - l.length < a + b := by omega
        simp [h3, h4]
    · have hmin : min a l.length = l.length := Nat.min_eq_right (by omega)
      rw [hmin]
      have : ¬ a + i < l.length := by omega
      simp only [Nat.sub_self, Nat.not_lt_zero, if_false, this, Nat.sub_zero, hi, if_true]
      have h4 : a + i - l.length < a + b := by omega
      simp [h4]
  · have h2 : ¬ a + i < a + b := by omega
    simp [hi, h2]

theorem BlockFile.padded_after (bf : BlockFile) (a b : Nat) :
    (bf.after a).padded b = (bf.padded (a + b)).drop a := by
  have h := zeroFill_drop (bf.file.contents.drop bf.file.offset) a b
  unfold BlockFile.padded BlockFile.after BlockFile.advance BlockFile.left
  simp only [List.length_drop] at h
  rw [← h]
  simp only [← List.drop_drop, Nat.add_comm]

theorem BlockFile.padded_take (bf : BlockFile) (a b : Nat) :
    (bf.padded (a + b)).take a = bf.padded a := by
  unfold BlockFile.padded
  apply List.ext_getElem?
  intro i
  simp only [List.getElem?_take, List.getElem?_append, List.getElem?_replicate]
  by_cases hi : i < a
  · have : i < a + b := by omega
    simp only [hi, this, if_true]
    split
    · rfl
    · have h3 : i - (List.drop bf.file.offset bf.file.contents).length < a := by omega
      have h4 : i - (List.drop bf.file.offset bf.file.contents).length < a + b := by omega
      rw [if_pos h3, if_pos h4]
  · simp [hi]

theorem BlockFile.padded_segment (c : BlockFile) (a b k : Nat) (h : a + b ≤ k) :
    ((c.padded k).drop a).take b = (c.after a).padded b := by
  obtain ⟨d, rfl⟩ := Nat.exists_eq_add_of_le h
  rw [BlockFile.padded_after, ← BlockFile.padded_take c (a + b) d, List.take_drop]

theorem BlockFile.padded_of_drop (bf : BlockFile) (got rest : List Byte)
    (h : bf.file.contents.drop bf.file.offset = got ++ rest) :
    bf.padded got.length = got ∧ bf.after got.length = bf.advance got.length := by
  have e := BlockFile.ReadBytes_advance bf got rest h
  rw [BlockFile.ReadBytes_after] at e
  exact ⟨congrArg Prod.fst e, congrArg Prod.snd e⟩

/-- The header reads on any cursor: the length field is the zero-filled read of 4 bytes
and the six header fields are those of the zero-filled read of the 80 bytes after it. -/
theorem ParseBlockHeaderFromFile_padded (bf : BlockFile) (block : Block) :
    ParseBlockHeaderFromFile bf block
      = (none,
         { block with
           Length := LittleEndian.Uint32 (bf.padded 4),
           Version := (headerOf ((bf.after 4).padded 80)).Version,
           HashPrev := (headerOf ((bf.after 4).padded 80)).HashPrev,
           HashMerkle := (headerOf ((bf.after 4).padded 80)).HashMerkle,
           Timestamp := (headerOf ((bf.after 4).padded 80)).Timestamp,
           TargetDifficulty := (headerOf ((bf.after 4).padded 80)).TargetDifficulty,
           Nonce := (headerOf ((bf.after 4).padded 80)).Nonce },
         bf.after 84) := by
  have s0 : ((bf.after 4).padded 80).take 4 = (bf.after 4).padded 4 := by
    have := BlockFile.padded_segment (bf.after 4) 0 4 80 (by omega)
    simpa [BlockFile.after, BlockFile.advance_zero] using this
  have s1 := BlockFile.padded_segment (bf.after 4) 4 32 80 (by omega)
  have s2 := BlockFile.padded_segment (bf.after 4) 36 32 80 (by omega)
  have s3 := BlockFile.padded_segment (bf.after 4) 68 4 80 (by omega)
  have s4 := BlockFile.padded_segment (bf.after 4) 72 4 80 (by omega)
  have s5 := BlockFile.padded_segment (bf.after 4) 76 4 80 (by omega)
  simp only [BlockFile.after_after, Nat.reduceAdd] at s1 s2 s3 s4 s5
  simp only [ParseBlockHeaderFromFile, BlockFile.ReadUint32, BlockFile.ReadInt32,
    BlockFile.ReadBytes_after, BlockFile.after_after, Nat.reduceAdd, headerOf, s0, s1, s2, s3,
    s4, s5]

theorem ParseBlockTransactionFromFile_result (bf : BlockFile) :
    (∃ tx bf2, ParseBlockTransactionFromFile bf = (.ok tx, bf2) ∧ tx.StartPos = bf.file.offset)
      ∨ ∃ bfp, ParseBlockTransactionFromFile bf = (.error .makeslice, bfp) := by
  unfold ParseBlockTransactionFromFile
  rw [BlockFile.Seek_cur]
  dsimp only
  rw [BlockFile.Peek_eq]
  dsimp only
  split
  · exact Or.inr ⟨_, rfl⟩
  · split
    · exact Or.inr ⟨_, rfl⟩
    · split
      · exact Or.inr ⟨_, rfl⟩
      · exact Or.inl ⟨_, _, rfl, by simp⟩

theorem decodeTransactions_length (n : Nat) :
    ∀ (bf bf2 : BlockFile) (txs : List Transaction),
      decodeTransactions n bf = some (txs, bf2) → txs.length = n := by
  induction n with
  | zero =>
    intro bf bf2 txs h
    simp only [decodeTransactions, Option.some.injEq, Prod.mk.injEq] at h
    rw [← h.1]
    rfl
  | succ k ih =>
    intro bf bf2 txs h
    rw [decodeTransactions] at h
    rcases hp : ParseBlockTransactionFromFile bf with ⟨_ | tx, bf1⟩
    · rw [hp] at h
      simp at h
    · rw [hp] at h
      dsimp only at h
      rcases hd : decodeTransactions k bf1 with _ | ⟨r1, r2⟩
      · rw [hd] at h
        simp at h
      · rw [hd] at h
        simp only [Option.some.injEq, Prod.mk.injEq] at h
        rw [← h.1, List.length_cons, ih _ _ _ hd]

/-- The accumulating loop of `ParseBlockTransactionsFromFile` appends what decoding one
transaction after the other gives, and stops with the panic of the first transaction that
cannot be decoded. -/
theorem readTransactions_eq (n : Nat) :
    ∀ (bf : BlockFile) (block : Block),
      (∀ txs bf2, decodeTransactions n bf = some (txs, bf2) →
        readTransactions n bf block
          = (none, { block with Transactions := block.Transactions ++ txs }, bf2))
      ∧ (decodeTransactions n bf = none →
          ∃ blk bfp, readTransactions n bf block = (some .makeslice, blk, bfp)) := by
  induction n with
  | zero =>
    intro bf block
    refine ⟨?_, ?_⟩
    · intro txs bf2 h
      simp only [decodeTransactions, Option.some.injEq, Prod.mk.injEq] at h
      rw [← h.1, ← h.2]
      simp [readTransactions]
    · intro h
      simp [decodeTransactions] at h
  | succ k ih =>
    intro bf block
    rcases ParseBlockTransactionFromFile_result bf with ⟨tx, bf1, e, _⟩ | ⟨bfp, e⟩
    · obtain ⟨ih1, ih2⟩ := ih bf1 { block with Transactions := block.Transactions ++ [tx] }
      refine ⟨?_, ?_⟩
      · intro txs bf2 h
        rw [decodeTransactions, e] at h
        dsimp only at h
        rcases hd : decodeTransactions k bf1 with _ | ⟨r1, r2⟩
        · rw [hd] at h
          simp at h
        · rw [hd] at h
          simp only [Option.some.injEq, Prod.mk.injEq] at h
          rw [readTransactions, e]
          dsimp only
          rw [ih1 r1 r2 hd, ← h.1, ← h.2]
          simp
      · intro h
        rw [decodeTransactions, e] at h
        dsimp only at h
        rcases hd : decodeTransactions k bf1 with _ | ⟨r1, r2⟩
        · obtain ⟨blk, bfp, hr⟩ := ih2 hd
          refine ⟨blk, bfp, ?_⟩
          rw [readTransactions, e]
          exact hr
        · rw [hd] at h
          simp at h
    · refine ⟨?_, ?_⟩
      · intro txs bf2 h
        rw [decodeTransactions, e] at h
        simp at h
      · intro _
        refine ⟨block, bfp, ?_⟩
        rw [readTransactions, e]

theorem BlockFile.ReadUint32_advance (bf : BlockFile) (m rest : List Byte) (hm : m.length = 4)
    (h : bf.file.contents.drop bf.file.offset = m ++ rest) :
    bf.ReadUint32 = (LittleEndian.Uint32 m, bf.advance 4) := by
  have e := BlockFile.ReadBytes_advance bf m rest h
  rw [hm] at e
  simp [BlockFile.ReadUint32, e]

/-- The record decoder behind a magic that matches: the block when the transactions can be
decoded, the panic when they cannot. -/
theorem ParseBlockFromFile_of_magic (bf : BlockFile) (magicHeader : Nat) (m rest : List Byte)
    (hm : m.length = 4) (hcur : bf.file.contents.drop bf.file.offset = m ++ rest)
    (hmagic : LittleEndian.Uint32 m = magicHeader) :
    (∀ txs bfEnd,
        decodeTransactions ((bf.advance 4).after 84).ReadVarint.1
            ((bf.advance 4).after 84).ReadVarint.2 = some (txs, bfEnd) →
        ParseBlockFromFile bf magicHeader
          = (.ok { toBlockHeader := headerOf (((bf.advance 4).after 4).padded 80),
                   MagicId := magicHeader,
                   Length := LittleEndian.Uint32 ((bf.advance 4).padded 4),
                   TransactionCount := ((bf.advance 4).after 84).ReadVarint.1,
                   Transactions := txs, StartPos := 0 },
             bfEnd))
      ∧ (decodeTransactions ((bf.advance 4).after 84).ReadVarint.1
            ((bf.advance 4).after 84).ReadVarint.2 = none →
          ∃ bfp, ParseBlockFromFile bf magicHeader = (.error .makeslice, bfp)) := by
  have e1 := BlockFile.ReadUint32_advance bf m _ hm hcur
  have e2 := ParseBlockHeaderFromFile_padded (bf.advance 4)
    { Block.zero with MagicId := LittleEndian.Uint32 m }
  subst hmagic
  obtain ⟨t1, t2⟩ := readTransactions_eq ((bf.advance 4).after 84).ReadVarint.1
    ((bf.advance 4).after 84).ReadVarint.2
    { hash := Block.zero.hash,
      Version := (headerOf (((bf.advance 4).after 4).padded 80)).Version,
      HashPrev := (headerOf (((bf.advance 4).after 4).padded 80)).HashPrev,
      HashMerkle := (headerOf (((bf.advance 4).after 4).padded 80)).HashMerkle,
      Timestamp := (headerOf (((bf.advance 4).after 4).padded 80)).Timestamp,
      TargetDifficulty := (headerOf (((bf.advance 4).after 4).padded 80)).TargetDifficulty,
      Nonce := (headerOf (((bf.advance 4).after 4).padded 80)).Nonce,
      MagicId := LittleEndian.Uint32 m,
      Length := LittleEndian.Uint32 ((bf.advance 4).padded 4),
      TransactionCount := ((bf.advance 4).after 84).ReadVarint.1,
      Transactions := Block.zero.Transactions, StartPos := Block.zero.StartPos }
  refine ⟨?_, ?_⟩
  · intro txs bfEnd hd
    unfold ParseBlockFromFile
    rw [BlockFile.Seek_cur]
    dsimp only
    rw [e1]
    dsimp only
    rw [if_neg (by simp), e2]
    dsimp only
    unfold ParseBlockTransactionsFromFile
    dsimp only
    rw [t1 txs bfEnd hd]
    rfl
  · intro hd
    obtain ⟨blk, bfp, hr⟩ := t2 hd
    refine ⟨bfp, ?_⟩
    unfold ParseBlockFromFile
    rw [BlockFile.Seek_cur]
    dsimp only
    rw [e1]
    dsimp only
    rw [if_neg (by simp), e2]
    dsimp only
    unfold ParseBlockTransactionsFromFile
    dsimp only
    rw [hr]
    rfl

/-- C29: successful block decode structure.  For every cursor state whose next 4 bytes `m`
are the expected magic, whatever follows them (a read past the end of the file gives zero
bytes): when `ParseBlockFromFile` returns a block, its `MagicId` is the expected magic,
its `Length` the little-endian value of the 4 bytes read after `m`, its header the one
that the 80 bytes read after those serialize, its `TransactionCount` the CompactSize
read next, and its `Transactions` the list got by decoding that many transactions one
after the other from there, each from where the one before it ended, with exactly
`TransactionCount` entries, the cursor left after the last one.  It does return that
block whenever the transactions can be decoded so.  When the 4 length bytes `L` and the
80 header bytes `H` are in the file, they are what is read, and the count is read 88
bytes past the start. -/
theorem ParseBlockFromFile_structure (bf : BlockFile) (magicHeader : Nat) (m rest : List Byte)
    (hm : m.length = 4) (hcur : bf.file.contents.drop bf.file.offset = m ++ rest)
    (hmagic : LittleEndian.Uint32 m = magicHeader) :
    (∀ block bfEnd, ParseBlockFromFile bf magicHeader = (.ok block, bfEnd) →
        block.MagicId = magicHeader
        ∧ block.Length = LittleEndian.Uint32 ((bf.advance 4).padded 4)
        ∧ block.toBlockHeader = headerOf (((bf.advance 4).after 4).padded 80)
        ∧ block.TransactionCount = ((bf.advance 4).after 84).ReadVarint.1
        ∧ decodeTransactions ((bf.advance 4).after 84).ReadVarint.1
            ((bf.advance 4).after 84).ReadVarint.2 = some (block.Transactions, bfEnd)
        ∧ block.Transactions.length = block.TransactionCount)
      ∧ (∀ txs bfEnd,
          decodeTransactions ((bf.advance 4).after 84).ReadVarint.1
              ((bf.advance 4).after 84).ReadVarint.2 = some (txs, bfEnd) →
          ParseBlockFromFile bf magicHeader
            = (.ok { toBlockHeader := headerOf (((bf.advance 4).after 4).padded 80),
                     MagicId := magicHeader,
                     Length := LittleEndian.Uint32 ((bf.advance 4).padded 4),
                     TransactionCount := ((bf.advance 4).after 84).ReadVarint.1,
                     Transactions := txs, StartPos := 0 },
               bfEnd))
      ∧ (∀ L H rest2 : List Byte, L.length = 4 → H.length = 80 → rest = L ++ (H ++ rest2) →
          (bf.advance 4).padded 4 = L ∧ ((bf.advance 4).after 4).padded 80 = H
            ∧ (bf.advance 4).after 84 = bf.advance 88) := by
  obtain ⟨hsome, hnone⟩ := ParseBlockFromFile_of_magic bf magicHeader m rest hm hcur hmagic
  refine ⟨?_, hsome, ?_⟩
  · intro block bfEnd hok
    rcases hd : decodeTransactions ((bf.advance 4).after 84).ReadVarint.1
        ((bf.advance 4).after 84).ReadVarint.2 with _ | ⟨txs, bf2⟩
    · obtain ⟨bfp, hp⟩ := hnone hd
      rw [hp] at hok
      simp at hok
    · have hs := hsome txs bf2 hd
      rw [hs] at hok
      simp only [Prod.mk.injEq, Except.ok.injEq] at hok
      obtain ⟨hb, he⟩ := hok
      subst hb
      subst he
      exact ⟨rfl, rfl, rfl, rfl, rfl, decodeTransactions_length _ _ _ _ hd⟩
  · intro L H rest2 hL hH hrest
    subst hrest
    have d4 := BlockFile.advance_drop bf m _ hcur
    rw [hm] at d4
    have p1 := BlockFile.padded_of_drop (bf.advance 4) L _ d4
    rw [hL] at p1
    have d8 := BlockFile.advance_drop (bf.advance 4) L _ d4
    rw [hL] at d8
    have p2 := BlockFile.padded_of_drop ((bf.advance 4).advance 4) H _ d8
    rw [hH] at p2
    have a84 : (bf.advance 4).after 84 = ((bf.advance 4).after 4).after 80 := by
      rw [BlockFile.after_after]
    rw [a84, p1.2, p2.1, p2.2]
    exact ⟨p1.1, rfl, by simp only [BlockFile.advance_advance]⟩

/-- C29 at `recordOneTx`, a mainnet record with one transaction, read from offset 0: the
block returned has `Length` 143, the header of `headerV1` and the one transaction of
`legacyStream`, decoded at offset 89. -/
theorem ParseBlockFromFile_structure_witness :
    (BlockFile.ofBytes recordOneTx 0).file.contents.drop (BlockFile.ofBytes recordOneTx 0).file.offset
        = [0xf9, 0xbe, 0xb4, 0xd9] ++ ([0x8F, 0, 0, 0] ++ (headerV1 ++ ([1] ++ legacyStream)))
    ∧ LittleEndian.Uint32 [0xf9, 0xbe, 0xb4, 0xd9] = BLOCK_MAGIC_ID_BITCOIN
    ∧ ParseBlockFromFile (BlockFile.ofBytes recordOneTx 0) BLOCK_MAGIC_ID_BITCOIN
        = (.ok { toBlockHeader := headerOf headerV1, MagicId := BLOCK_MAGIC_ID_BITCOIN,
                 Length := 143, TransactionCount := 1,
                 Transactions := [{ txWithoutWitness with StartPos := 89 }], StartPos := 0 },
           BlockFile.ofBytes recordOneTx 151) := by
  have h := ParseBlockFromFile_structure (BlockFile.ofBytes recordOneTx 0) BLOCK_MAGIC_ID_BITCOIN
    [0xf9, 0xbe, 0xb4, 0xd9] ([0x8F, 0, 0, 0] ++ (headerV1 ++ ([1] ++ legacyStream)))
    (by decide) (by decide) (by decide)
  obtain ⟨hL, hH, hc⟩ := h.2.2 [0x8F, 0, 0, 0] headerV1 ([1] ++ legacyStream) (by decide)
    (by decide) rfl
  have hd : decodeTransactions
      (((BlockFile.ofBytes recordOneTx 0).advance 4).after 84).ReadVarint.1
      (((BlockFile.ofBytes recordOneTx 0).advance 4).after 84).ReadVarint.2
      = some ([{ txWithoutWitness with StartPos := 89 }], BlockFile.ofBytes recordOneTx 151) := by
    rw [hc]
    decide
  refine ⟨by decide, by decide, ?_⟩
  rw [h.2.1 _ _ hd, hL, hH, hc]
  decide

theorem ParseBlockHeaderFromFile_of_header (bf : BlockFile) (block : Block)
    (L H rest : List Byte) (hL : L.length = 4) (hH : H.length = 80)
    (hcur : bf.file.contents.drop bf.file.offset = L ++ (H ++ rest)) :
    ParseBlockHeaderFromFile bf block
      = (none,
         { block with
           Length := LittleEndian.Uint32 L, Version := (headerOf H).Version,
           HashPrev := (headerOf H).HashPrev, HashMerkle := (headerOf H).HashMerkle,
           Timestamp := (headerOf H).Timestamp,
           TargetDifficulty := (headerOf H).TargetDifficulty, Nonce := (headerOf H).Nonce },
         bf.advance 84) := by
  have hsplit := header_split H hH
  exact ParseBlockHeaderFromFile_segments bf block L (H.take 4)
    ((H.drop 4).take 32) ((H.drop 36).take 32) ((H.drop 68).take 4) ((H.drop 72).take 4)
    ((H.drop 76).take 4) rest hL (by simp [hH]) (by simp [hH]) (by simp [hH]) (by simp [hH])
    (by simp [hH]) (by simp [hH])
    (by rw [hcur]; conv_lhs => rw [hsplit]; simp only [List.append_assoc])

/-! ## Positions taken from the index -/

theorem File.Seek_relative (f : File) (n : Nat) :
    f.Seek (n : Int) 1 = (.ok ((f.offset : Int) + n), { f with offset := f.offset + n }) := by
  have h : ¬ ((f.offset : Int) + (n : Int) < 0) := by omega
  have t : ((f.offset : Int) + (n : Int)).toNat = f.offset + n := by omega
  simp [File.Seek, h, t]

theorem BlockFile.Seek_forward (bf : BlockFile) (n : Nat) :
    bf.Seek (n : Int) 1 = (.ok ((bf.file.offset : Int) + n), bf.advance n) := by
  simp [BlockFile.Seek, File.Seek_relative, BlockFile.advance]

theorem sub32_of_le (pos : Nat) (h8 : 8 ≤ pos) (h32 : pos < 4294967296) :
    sub32 pos 8 = pos - 8 := by
  unfold sub32
  omega

/-- The position arithmetic of `NewTxFromFile` on a file that holds, at position
`pos - 8`, four bytes `m`, the 4-byte length and the 80-byte header: the value of `m` is
compared with the expected magic and, when they agree, the transaction is decoded with
the cursor at the absolute position `pos + 80 + txPos`. -/
theorem NewTxFromFile_of_header_present (blockFile : BlockFile) (magicHeader pos txPos : Nat)
    (m L H rest : List Byte) (h8 : 8 ≤ pos) (h32 : pos < 4294967296)
    (hm : m.length = 4) (hL : L.length = 4) (hH : H.length = 80)
    (hcur : blockFile.file.contents.drop (pos - 8) = m ++ (L ++ (H ++ rest))) :
    NewTxFromFile (.ok blockFile) magicHeader pos txPos
        = (if LittleEndian.Uint32 m = magicHeader then
             (ParseBlockTransactionFromFile
               { blockFile with file := { blockFile.file with offset := pos + 80 + txPos } }).1
           else .error .invalidMagic) := by
  have hc : ({ blockFile with file := { blockFile.file with offset := pos - 8 } } :
      BlockFile).file.contents.drop
        ({ blockFile with file := { blockFile.file with offset := pos - 8 } } :
          BlockFile).file.offset = m ++ (L ++ (H ++ rest)) := hcur
  have e1 := BlockFile.ReadUint32_advance _ m _ hm hc
  have d4 := BlockFile.advance_drop _ m _ hc
  rw [hm] at d4
  have e2 := ParseBlockHeaderFromFile_of_header _
    { Block.zero with MagicId := LittleEndian.Uint32 m } L H rest hL hH d4
  simp only [BlockFile.advance_advance, Nat.reduceAdd] at e2
  unfold NewTxFromFile
  dsimp only
  rw [sub32_of_le pos h8 h32, BlockFile.Seek_set]
  dsimp only
  rw [e1]
  dsimp only
  by_cases hmagic : LittleEndian.Uint32 m = magicHeader
  · rw [if_neg (by simpa using hmagic), if_pos hmagic, e2]
    dsimp only
    rw [BlockFile.Seek_forward]
    dsimp only
    congr 3
    simp only [BlockFile.advance]
    congr 2
    omega
  · rw [if_pos hmagic, if_neg hmagic]

/-- On such a file every transaction that `NewTxFromFile` returns has
`StartPos = pos + 80 + txPos`. -/
theorem NewTxFromFile_StartPos_of_header_present (blockFile : BlockFile)
    (magicHeader pos txPos : Nat) (m L H rest : List Byte) (tx : Transaction)
    (h8 : 8 ≤ pos) (h32 : pos < 4294967296)
    (hm : m.length = 4) (hL : L.length = 4) (hH : H.length = 80)
    (hcur : blockFile.file.contents.drop (pos - 8) = m ++ (L ++ (H ++ rest)))
    (hok : NewTxFromFile (.ok blockFile) magicHeader pos txPos = .ok tx) :
    LittleEndian.Uint32 m = magicHeader ∧ tx.StartPos = pos + 80 + txPos := by
  rw [NewTxFromFile_of_header_present blockFile magicHeader pos txPos m L H rest h8 h32 hm hL hH
    hcur] at hok
  by_cases hmagic : LittleEndian.Uint32 m = magicHeader
  · rw [if_pos hmagic] at hok
    refine ⟨hmagic, ?_⟩
    rcases ParseBlockTransactionFromFile_result
      { blockFile with file := { blockFile.file with offset := pos + 80 + txPos } }
      with ⟨tx2, bf2, e, hs⟩ | ⟨bfp, e⟩
    · rw [e] at hok
      simp only [Except.ok.injEq] at hok
      rw [← hok, hs]
    · rw [e] at hok
      simp at hok
  · rw [if_neg hmagic] at hok
    simp at hok

/-- C30 fails on the code when the file ends inside the header.  On `fileWithTx`, which
holds the whole record at offset 12, `NewTxFromFile` with data offset 20 and in-block
offset 6 returns the transaction decoded at 20 + 80 + 6 = 106, with `StartPos = 106`.  On
`fileCutInHeader`, 24 bytes long, the header reads stop at the end of the file, the
relative seek starts from offset 24, and `NewTxFromFile` with the same offsets returns,
without error, a transaction made of zero bytes with `StartPos = 30`. -/
theorem NewTxFromFile_short_file_position :
    NewTxFromFile (.ok (BlockFile.ofBytes fileWithTx 0)) BLOCK_MAGIC_ID_BITCOIN 20 6
        = .ok { txWithoutWitness with StartPos := 106 }
      ∧ fileCutInHeader.length = 24
      ∧ NewTxFromFile (.ok (BlockFile.ofBytes fileCutInHeader 0)) BLOCK_MAGIC_ID_BITCOIN 20 6
        = .ok { hash := none, Version := 0, Locktime := 0, Vin := [], Vout := [],
                StartPos := 30 } := by
  decide

end blockchainparser

namespace blockchainparser

set_option maxRecDepth 1000000

/-! ## Decoding the serialization that `Txid` hashes -/

theorem Varint_small (n : Nat) (h : n ≤ 252) : Varint n = [byte n] := by
  unfold Varint
  rw [if_neg (by omega), if_neg (by omega), if_neg (by omega)]

theorem BlockFile.ReadVarint_small (bf : BlockFile) (n : Nat) (rest : List Byte) (h : n ≤ 252)
    (hcur : bf.file.contents.drop bf.file.offset = byte n :: rest) :
    bf.ReadVarint = (n, bf.advance 1) := by
  have hv : (byte n).val = n := by rw [byte_val]; omega
  have n1 : byte n ≠ 0xFF := by
    intro c
    have t : n = 255 := by rw [← hv, c]; rfl
    omega
  have n2 : byte n ≠ 0xFE := by
    intro c
    have t : n = 254 := by rw [← hv, c]; rfl
    omega
  have n3 : byte n ≠ 0xFD := by
    intro c
    have t : n = 253 := by rw [← hv, c]; rfl
    omega
  unfold BlockFile.ReadVarint
  rw [BlockFile.ReadByte_advance bf (byte n) rest hcur]
  dsimp only
  rw [if_neg n1, if_neg n2, if_neg n3, hv]

theorem BlockFile.ReadUint64_advance (bf : BlockFile) (m rest : List Byte) (hm : m.length = 8)
    (h : bf.file.contents.drop bf.file.offset = m ++ rest) :
    bf.ReadUint64 = (LittleEndian.Uint64 m, bf.advance 8) := by
  have e := BlockFile.ReadBytes_advance bf m rest h
  rw [hm] at e
  simp [BlockFile.ReadUint64, e]

theorem BlockFile.ReadInt32_advance (bf : BlockFile) (m rest : List Byte) (hm : m.length = 4)
    (h : bf.file.contents.drop bf.file.offset = m ++ rest) :
    bf.ReadInt32 = (toInt32 (LittleEndian.Uint32 m), bf.advance 4) := by
  have e := BlockFile.ReadBytes_advance bf m rest h
  rw [hm] at e
  simp [BlockFile.ReadInt32, e]

theorem toInt32_toUint32 (v : Int) (h1 : -2147483648 ≤ v) (h2 : v < 2147483648) :
    toInt32 (toUint32 v) = v := by
  unfold toInt32 toUint32
  split <;> omega

theorem toInt64_toUint64 (v : Int) (h1 : -9223372036854775808 ≤ v)
    (h2 : v < 9223372036854775808) : toInt64 (toUint64 v) = v := by
  unfold toInt64 toUint64
  split <;> omega

theorem toUint32_lt (v : Int) : toUint32 v < 4294967296 := by
  unfold toUint32
  omega

theorem toUint64_lt (v : Int) : toUint64 v < 18446744073709551616 := by
  unfold toUint64
  omega

theorem TxInput_Binary_length (inp : TxInput) (h : inp.small) :
    inp.Binary.length = 32 + 4 + 1 + inp.Script.length + 4 := by
  obtain ⟨h1, _, h3, _⟩ := h
  simp [TxInput.Binary, Varint_small _ h3, LittleEndian.PutUint32, h1]
  omega

theorem TxOutput_Binary_length (out : TxOutput) (h : out.small) :
    out.Binary.length = 8 + 1 + out.Script.length := by
  obtain ⟨_, _, h3⟩ := h
  simp [TxOutput.Binary, Varint_small _ h3, LittleEndian.PutUint64]
  omega

theorem BlockFile.ReadBytesOrPanic_advance (bf : BlockFile) (got rest : List Byte)
    (h : bf.file.contents.drop bf.file.offset = got ++ rest) (hlen : got.length ≤ 252) :
    bf.ReadBytesOrPanic got.length = (some got, bf.advance got.length) := by
  have hle : got.length ≤ maxAlloc := Nat.le_trans hlen (by decide)
  simp only [BlockFile.ReadBytesOrPanic, if_pos hle, BlockFile.ReadBytes_advance bf got rest h]

/-- The input loop reads back what `TxInput.Binary` wrote, one input after the other. -/
theorem readInputs_Binary (ins : List TxInput) :
    ∀ (bf : BlockFile) (acc : List TxInput) (rest : List Byte),
      (∀ inp ∈ ins, inp.small) →
      bf.file.contents.drop bf.file.offset = (ins.map TxInput.Binary).flatten ++ rest →
      readInputs ins.length bf acc
        = (some (acc ++ ins.map (fun inp => { inp with ScriptWitness := [] })),
           bf.advance (ins.map TxInput.Binary).flatten.length) := by
  induction ins with
  | nil =>
    intro bf acc rest _ _
    simp [readInputs, BlockFile.advance_zero]
  | cons i t ih =>
    intro bf acc rest hs hcur
    have hi : i.small := hs i (List.mem_cons_self _ _)
    obtain ⟨h1, h2, h3, h4⟩ := hi
    have hcur2 : bf.file.contents.drop bf.file.offset
        = i.Hash ++ (LittleEndian.PutUint32 i.Index ++ (byte i.Script.length :: (i.Script
            ++ (LittleEndian.PutUint32 i.Sequence ++ ((t.map TxInput.Binary).flatten ++ rest))))) := by
      rw [hcur]
      simp [TxInput.Binary, Varint_small _ h3]
    have e1 := BlockFile.ReadBytes_advance bf _ _ hcur2
    have d1 := BlockFile.advance_drop bf _ _ hcur2
    rw [h1] at e1 d1
    have e2 := BlockFile.ReadUint32_advance _ (LittleEndian.PutUint32 i.Index) _ rfl d1
    have d2 := BlockFile.advance_drop _ _ _ d1
    rw [rpc.Uint32_PutUint32 _ h2] at e2
    rw [show (LittleEndian.PutUint32 i.Index).length = 4 from rfl] at d2
    have e3 := BlockFile.ReadVarint_small _ _ _ h3 d2
    have d3 := BlockFile.advance_drop _ [byte i.Script.length] _ d2
    rw [show ([byte i.Script.length] : List Byte).length = 1 from rfl] at d3
    have e4 := BlockFile.ReadBytesOrPanic_advance _ _ _ d3 h3
    have d4 := BlockFile.advance_drop _ _ _ d3
    have e5 := BlockFile.ReadUint32_advance _ (LittleEndian.PutUint32 i.Sequence) _ rfl d4
    have d5 := BlockFile.advance_drop _ _ _ d4
    rw [rpc.Uint32_PutUint32 _ h4] at e5
    rw [show (LittleEndian.PutUint32 i.Sequence).length = 4 from rfl] at d5
    have step := ih _ (acc ++ [{ i with ScriptWitness := [] }]) rest
      (fun x hx => hs x (List.mem_cons_of_mem _ hx)) d5
    simp only [List.length_cons, readInputs, e1, e2, e3, e4, e5]
    rw [step]
    have hlen := TxInput_Binary_length i ⟨h1, h2, h3, h4⟩
    simp only [BlockFile.advance_advance, List.map_cons, List.flatten_cons, List.length_append,
      hlen, List.append_assoc, List.singleton_append]

/-- The output loop reads back what `TxOutput.Binary` wrote. -/
theorem readOutputs_Binary (outs : List TxOutput) :
    ∀ (bf : BlockFile) (acc : List TxOutput) (rest : List Byte),
      (∀ out ∈ outs, out.small) →
      bf.file.contents.drop bf.file.offset = (outs.map TxOutput.Binary).flatten ++ rest →
      readOutputs outs.length bf acc
        = (some (acc ++ outs), bf.advance (outs.map TxOutput.Binary).flatten.length) := by
  induction outs with
  | nil =>
    intro bf acc rest _ _
    simp [readOutputs, BlockFile.advance_zero]
  | cons o t ih =>
    intro bf acc rest hs hcur
    have ho : o.small := hs o (List.mem_cons_self _ _)
    obtain ⟨h1, h2, h3⟩ := ho
    have hcur2 : bf.file.contents.drop bf.file.offset
        = LittleEndian.PutUint64 (toUint64 o.Value) ++ (byte o.Script.length :: (o.Script
            ++ ((t.map TxOutput.Binary).flatten ++ rest))) := by
      rw [hcur]
      simp [TxOutput.Binary, Varint_small _ h3]
    have e1 := BlockFile.ReadUint64_advance bf (LittleEndian.PutUint64 (toUint64 o.Value)) _ rfl hcur2
    have d1 := BlockFile.advance_drop bf _ _ hcur2
    rw [rpc.Uint64_PutUint64 _ (toUint64_lt _)] at e1
    rw [show (LittleEndian.PutUint64 (toUint64 o.Value)).length = 8 from rfl] at d1
    have e2 := BlockFile.ReadVarint_small _ _ _ h3 d1
    have d2 := BlockFile.advance_drop _ [byte o.Script.length] _ d1
    rw [show ([byte o.Script.length] : List Byte).length = 1 from rfl] at d2
    have e3 := BlockFile.ReadBytesOrPanic_advance _ _ _ d2 h3
    have d3 := BlockFile.advance_drop _ _ _ d2
    have step := ih _ (acc ++ [o]) rest
      (fun x hx => hs x (List.mem_cons_of_mem _ hx)) d3
    simp only [List.length_cons, readOutputs, e1, e2, e3, toInt64_toUint64 _ h1 h2]
    rw [step]
    have hlen := TxOutput_Binary_length o ⟨h1, h2, h3⟩
    simp only [BlockFile.advance_advance, List.map_cons, List.flatten_cons, List.length_append,
      hlen, List.append_assoc, List.singleton_append]

/-- C31: decoding undoes the serialization that `Txid` hashes, in the single-byte
CompactSize range.  For a transaction with 1 to 252 inputs and at most 252 outputs, whose
inputs have a 32-byte hash and a script of at most 252 bytes and whose outputs have a
script of at most 252 bytes (all fields within their Go types), with the bytes that `Txid`
builds standing at the cursor: `ParseBlockTransactionFromFile` succeeds and returns the
same `Version` and `Locktime`, the same inputs (`Hash`, `Index`, `Script`, `Sequence`)
with empty witness stacks, and the same outputs (`Value`, `Script`), and leaves the cursor
at the end of those bytes. -/
theorem decode_txid_serialization (tx : Transaction) (bf : BlockFile) (rest : List Byte)
    (hver : -2147483648 ≤ tx.Version ∧ tx.Version < 2147483648)
    (hlock : tx.Locktime < 4294967296)
    (hin : 1 ≤ tx.Vin.length ∧ tx.Vin.length ≤ 252)
    (hout : tx.Vout.length ≤ 252)
    (hvin : ∀ inp ∈ tx.Vin, inp.small)
    (hvout : ∀ out ∈ tx.Vout, out.small)
    (hcur : bf.file.contents.drop bf.file.offset = tx.txidBin ++ rest) :
    ParseBlockTransactionFromFile bf
      = (.ok { hash := none, Version := tx.Version, Locktime := tx.Locktime,
               Vin := tx.Vin.map (fun inp => { inp with ScriptWitness := [] }),
               Vout := tx.Vout, StartPos := bf.file.offset },
         bf.advance tx.txidBin.length) := by
  have hcur2 : bf.file.contents.drop bf.file.offset
      = LittleEndian.PutUint32 (toUint32 tx.Version) ++ (byte tx.Vin.length
          :: ((tx.Vin.map TxInput.Binary).flatten ++ (byte tx.Vout.length
            :: ((tx.Vout.map TxOutput.Binary).flatten
              ++ (LittleEndian.PutUint32 tx.Locktime ++ rest))))) := by
    rw [hcur]
    simp [Transaction.txidBin, Varint_small _ hin.2, Varint_small _ hout]
  have hlenBin : tx.txidBin.length
      = 4 + 1 + (tx.Vin.map TxInput.Binary).flatten.length + 1
        + (tx.Vout.map TxOutput.Binary).flatten.length + 4 := by
    simp [Transaction.txidBin, Varint_small _ hin.2, Varint_small _ hout,
      LittleEndian.PutUint32]
    omega
  have e1 := BlockFile.ReadInt32_advance bf (LittleEndian.PutUint32 (toUint32 tx.Version)) _
    rfl hcur2
  have d1 := BlockFile.advance_drop bf _ _ hcur2
  rw [rpc.Uint32_PutUint32 _ (toUint32_lt _), toInt32_toUint32 _ hver.1 hver.2] at e1
  rw [show (LittleEndian.PutUint32 (toUint32 tx.Version)).length = 4 from rfl] at d1
  have ep : ((bf.advance 4).ReadBytes 1).1 = [byte tx.Vin.length] := by
    have t := BlockFile.ReadBytes_advance (bf.advance 4) [byte tx.Vin.length] _ d1
    rw [show ([byte tx.Vin.length] : List Byte).length = 1 from rfl] at t
    rw [t]
  have hp : byte tx.Vin.length ≠ 0 := by
    intro c
    have hv : (byte tx.Vin.length).val = tx.Vin.length := by rw [byte_val]; omega
    have t : tx.Vin.length = 0 := by rw [← hv, c]; rfl
    omega
  have e2 := BlockFile.ReadVarint_small _ _ _ hin.2 d1
  have d2 := BlockFile.advance_drop _ [byte tx.Vin.length] _ d1
  rw [show ([byte tx.Vin.length] : List Byte).length = 1 from rfl] at d2
  have e3 := readInputs_Binary tx.Vin _ [] _ hvin d2
  have d3 := BlockFile.advance_drop _ _ _ d2
  have e4 := BlockFile.ReadVarint_small _ _ _ hout d3
  have d4 := BlockFile.advance_drop _ [byte tx.Vout.length] _ d3
  rw [show ([byte tx.Vout.length] : List Byte).length = 1 from rfl] at d4
  have e5 := readOutputs_Binary tx.Vout _ [] _ hvout d4
  have d5 := BlockFile.advance_drop _ _ _ d4
  have e6 := BlockFile.ReadUint32_advance _ (LittleEndian.PutUint32 tx.Locktime) _ rfl d5
  rw [rpc.Uint32_PutUint32 _ hlock] at e6
  unfold ParseBlockTransactionFromFile
  rw [BlockFile.Seek_cur]
  dsimp only
  rw [BlockFile.Peek_eq]
  dsimp only
  simp only [e1, ep, List.getD_cons_zero, if_neg hp, e2, e3, e4, e5, e6, List.nil_append,
    Int.toNat_ofNat]
  simp only [BlockFile.advance_advance] at e6
  simp only [BlockFile.advance_advance, hlenBin, Nat.zero_mod, zero_ne_one, if_false, e6]

/-- C31 at `txWithoutWitness`, whose serialization is `legacyStream`. -/
theorem decode_txid_serialization_witness :
    (BlockFile.ofBytes legacyStream 0).file.contents.drop (BlockFile.ofBytes legacyStream 0).file.offset
        = txWithoutWitness.txidBin ++ []
    ∧ ParseBlockTransactionFromFile (BlockFile.ofBytes legacyStream 0)
      = (.ok { hash := none, Version := txWithoutWitness.Version,
               Locktime := txWithoutWitness.Locktime,
               Vin := txWithoutWitness.Vin.map (fun inp => { inp with ScriptWitness := [] }),
               Vout := txWithoutWitness.Vout,
               StartPos := (BlockFile.ofBytes legacyStream 0).file.offset },
         (BlockFile.ofBytes legacyStream 0).advance txWithoutWitness.txidBin.length) :=
  ⟨by decide,
   decode_txid_serialization txWithoutWitness (BlockFile.ofBytes legacyStream 0) []
    (by decide) (by decide) (by decide) (by decide)
    (by intro inp h; simp [txWithoutWitness] at h; subst h; decide)
    (by intro out h; simp [txWithoutWitness] at h; subst h; decide)
    (by decide)⟩

end blockchainparser

namespace blockchainparser

namespace db

set_option maxRecDepth 1000000

/-! ## The ContinuationVarint as a number -/

theorem low_bits : ∀ b : Byte, b.val &&& 0x7F = b.val % 128 := by decide

theorem mul_or_digit (n d : Nat) (hd : d < 128) : n * 128 ||| d = n * 128 + d := by
  have h := Nat.mul_add_lt_is_or (i := 7) (b := d) (by norm_num; exact hd) n
  norm_num at h
  rw [Nat.mul_comm n 128, h]

theorem shift_or_digit (n d : Nat) (hd : d < 128) : (n <<< 7) ||| d = n * 128 + d := by
  rw [Nat.shiftLeft_eq]
  exact mul_or_digit n d hd

theorem isVarint_split (e : List Byte) (he : isVarint e = true) :
    ∃ (cs : List Byte) (f : Byte), e = cs ++ [f] ∧ (∀ c ∈ cs, 128 ≤ c.val) ∧ f.val < 128 := by
  induction e with
  | nil => simp [isVarint] at he
  | cons b t ih =>
    cases t with
    | nil =>
      have hb : b.val < 128 := by simpa [isVarint] using he
      exact ⟨[], b, rfl, by simp, hb⟩
    | cons c t2 =>
      have hb : 128 ≤ b.val ∧ isVarint (c :: t2) = true := by
        simpa [isVarint] using he
      obtain ⟨cs, f, e1, e2, e3⟩ := ih hb.2
      refine ⟨b :: cs, f, by rw [e1]; rfl, ?_, e3⟩
      intro x hx
      rcases List.mem_cons.mp hx with h | h
      · rw [h]; exact hb.1
      · exact e2 x h

theorem varintLoop_contAcc (cs : List Byte) (f : Byte) (hf : f.val < 128) :
    ∀ (n pos : Nat) (rest : List Byte), (∀ c ∈ cs, 128 ≤ c.val) →
      (n + 2) * 128 ^ (cs.length + 1) ≤ 18446744073709551616 →
      DataBuf.varintLoop (cs ++ f :: rest) n pos
        = some (contAcc cs n * 128 + f.val, pos + cs.length + 1) := by
  induction cs with
  | nil =>
    intro n pos rest _ hb
    have hnot : ¬ (f.val &&& 0x80 > 0) := by
      rw [top_bit_iff]
      omega
    have hn : n * 128 < 18446744073709551616 := by
      simp only [List.length_nil, zero_add, pow_one] at hb
      omega
    simp only [List.nil_append, DataBuf.varintLoop, if_neg hnot, contAcc, List.foldl_nil,
      List.length_nil, low_bits]
    rw [Nat.shiftLeft_eq, show (2 : Nat) ^ 7 = 128 from rfl, Nat.mod_eq_of_lt hn,
      mul_or_digit n _ (Nat.mod_lt _ (by norm_num)), Nat.mod_eq_of_lt hf]
  | cons c cs ih =>
    intro n pos rest hc hb
    have hc1 : 128 ≤ c.val := hc c (List.mem_cons_self _ _)
    have hset : c.val &&& 0x80 > 0 := (top_bit_iff c).mpr hc1
    have hcl := c.isLt
    have hpow : 128 ≤ 128 ^ (cs.length + 1) := by
      calc 128 = 128 ^ 1 := by norm_num
        _ ≤ 128 ^ (cs.length + 1) := Nat.pow_le_pow_right (by norm_num) (by omega)
    have hb2 : (n + 2) * 128 * 128 ^ (cs.length + 1) ≤ 18446744073709551616 := by
      have : (n + 2) * 128 * 128 ^ (cs.length + 1) = (n + 2) * 128 ^ ((c :: cs).length + 1) := by
        simp only [List.length_cons]
        ring
      rw [this]
      exact hb
    have hn : (n + 2) * 128 * 128 ≤ 18446744073709551616 :=
      le_trans (Nat.mul_le_mul_left _ hpow) hb2
    have hnext : (n * 128 + c.val % 128 + 1 + 2) * 128 ^ (cs.length + 1)
        ≤ 18446744073709551616 :=
      le_trans (Nat.mul_le_mul_right _ (by omega)) hb2
    have e1 : (n <<< 7) % 18446744073709551616 = n <<< 7 := by
      rw [Nat.shiftLeft_eq]
      exact Nat.mod_eq_of_lt (by norm_num; omega)
    have step := ih (n * 128 + c.val % 128 + 1) (pos + 1) rest
      (fun x hx => hc x (List.mem_cons_of_mem _ hx)) hnext
    simp only [List.cons_append, DataBuf.varintLoop, if_pos hset, low_bits, e1]
    rw [shift_or_digit n _ (Nat.mod_lt _ (by norm_num)),
      Nat.mod_eq_of_lt (by omega)]
    refine Eq.trans step ?_
    simp only [contAcc, List.foldl_cons, List.length_cons]
    congr 2
    omega

theorem contAcc_concat (cs : List Byte) (c : Byte) (n : Nat) :
    contAcc (cs ++ [c]) n = contAcc cs n * 128 + c.val % 128 + 1 := by
  simp [contAcc, List.foldl_append]

theorem contAcc_injective (cs1 : List Byte) :
    ∀ cs2 : List Byte, (∀ c ∈ cs1, 128 ≤ c.val) → (∀ c ∈ cs2, 128 ≤ c.val) →
      contAcc cs1 0 = contAcc cs2 0 → cs1 = cs2 := by
  induction cs1 using List.reverseRecOn with
  | nil =>
    intro cs2 _ _ h
    rcases List.eq_nil_or_concat cs2 with h2 | ⟨l, c, h2⟩
    · exact h2.symm
    · rw [h2, List.concat_eq_append, contAcc_concat] at h
      simp [contAcc] at h
  | append_singleton l1 c1 ih =>
    intro cs2 h1 h2 h
    rcases List.eq_nil_or_concat cs2 with e2 | ⟨l2, c2, e2⟩
    · rw [e2, contAcc_concat] at h
      simp [contAcc] at h
    · rw [List.concat_eq_append] at e2
      subst e2
      rw [contAcc_concat, contAcc_concat] at h
      have hc1 := h1 c1 (by simp)
      have hc2 := h2 c2 (by simp)
      have hl1 := c1.isLt
      have hl2 := c2.isLt
      have hacc : contAcc l1 0 = contAcc l2 0 := by omega
      have hc : c1 = c2 := by
        apply Fin.ext
        omega
      rw [ih l2 (fun x hx => h1 x (by simp [hx])) (fun x hx => h2 x (by simp [hx])) hacc, hc]

theorem contAcc_formula (cs : List Byte) :
    ∀ n : Nat, contAcc cs n
      = n * 128 ^ cs.length
        + (∑ i ∈ Finset.range cs.length, ((cs.getD i 0).val % 128) * 128 ^ (cs.length - 1 - i))
        + ∑ j ∈ Finset.range cs.length, 128 ^ j := by
  induction cs with
  | nil => intro n; simp [contAcc]
  | cons c cs ih =>
    intro n
    have hstep : contAcc (c :: cs) n = contAcc cs (n * 128 + c.val % 128 + 1) := rfl
    rw [hstep, ih, List.length_cons, Finset.sum_range_succ' _ cs.length,
      Finset.sum_range_succ _ cs.length]
    simp only [List.getD_cons_succ, List.getD_cons_zero, Nat.add_sub_cancel, Nat.sub_zero]
    have hsum : ∀ i ∈ Finset.range cs.length,
        ((cs.getD i 0).val % 128) * 128 ^ (cs.length - (i + 1))
          = ((cs.getD i 0).val % 128) * 128 ^ (cs.length - 1 - i) := by
      intro i _
      rw [Nat.sub_sub, Nat.add_comm 1 i]
    rw [Finset.sum_congr rfl hsum]
    ring

theorem contAcc_bound (cs : List Byte) :
    ∀ n : Nat, contAcc cs n + 2 ≤ (n + 2) * 128 ^ cs.length := by
  induction cs with
  | nil => intro n; simp [contAcc]
  | cons c cs ih =>
    intro n
    have hstep : contAcc (c :: cs) n = contAcc cs (n * 128 + c.val % 128 + 1) := rfl
    have hm : c.val % 128 < 128 := Nat.mod_lt _ (by norm_num)
    rw [hstep, List.length_cons, pow_succ]
    calc contAcc cs (n * 128 + c.val % 128 + 1) + 2
        ≤ (n * 128 + c.val % 128 + 1 + 2) * 128 ^ cs.length := ih _
      _ ≤ ((n + 2) * 128) * 128 ^ cs.length := Nat.mul_le_mul_right _ (by omega)
      _ = (n + 2) * (128 ^ cs.length * 128) := by ring

theorem closedForm_concat (cs : List Byte) (f : Byte) (hf : f.val < 128) :
    closedForm (cs ++ [f]) = contAcc cs 0 * 128 + f.val := by
  have hlen : (cs ++ [f]).length = cs.length + 1 := by simp
  unfold closedForm
  rw [hlen, Finset.sum_range_succ _ cs.length, contAcc_formula cs 0, Nat.add_sub_cancel]
  have hlast : (cs ++ [f]).getD cs.length 0 = f := by
    simp [List.getD_eq_getElem?_getD]
  have hsum : ∀ i ∈ Finset.range cs.length,
      (((cs ++ [f]).getD i 0).val % 128) * 128 ^ (cs.length - i)
        = ((cs.getD i 0).val % 128) * 128 ^ (cs.length - 1 - i) * 128 := by
    intro i hi
    have hi2 : i < cs.length := Finset.mem_range.mp hi
    have hg : (cs ++ [f]).getD i 0 = cs.getD i 0 := by
      simp [List.getD_eq_getElem?_getD, List.getElem?_append_left hi2]
    have hp : cs.length - i = (cs.length - 1 - i) + 1 := by omega
    rw [hg, hp, pow_succ]
    ring
  rw [Finset.sum_congr rfl hsum, hlast, Nat.sub_self, pow_zero, Nat.mod_eq_of_lt hf,
    ← Finset.sum_mul]
  have hgeo : ∑ j ∈ Finset.range cs.length, 128 ^ (j + 1)
      = (∑ j ∈ Finset.range cs.length, 128 ^ j) * 128 := by
    rw [Finset.sum_mul]
    exact Finset.sum_congr rfl (fun j _ => pow_succ 128 j)
  rw [hgeo]
  ring

theorem ShiftVarint_closedForm (e : List Byte) (he : isVarint e = true) (hl : e.length ≤ 9) :
    DataBuf.ShiftVarint (NewDataBuf e) = some (closedForm e, { b := e, pos := e.length })
      ∧ closedForm e < 18446744073709551616 := by
  obtain ⟨cs, f, e1, hcs, hf⟩ := isVarint_split e he
  subst e1
  have hlen : cs.length + 1 ≤ 9 := by simpa using hl
  have hpow : 128 ^ (cs.length + 1) ≤ 128 ^ 9 := Nat.pow_le_pow_right (by norm_num) hlen
  have hb : (0 + 2) * 128 ^ (cs.length + 1) ≤ 18446744073709551616 := by
    have : (2 : Nat) * 128 ^ 9 = 18446744073709551616 := by norm_num
    omega
  have hloop := varintLoop_contAcc cs f hf 0 0 [] hcs hb
  have hbound := contAcc_bound cs 0
  refine ⟨?_, ?_⟩
  · simp only [DataBuf.ShiftVarint, NewDataBuf, List.drop_zero, List.append_nil]
    rw [show cs ++ [f] = cs ++ f :: [] from rfl, hloop, closedForm_concat cs f hf]
    simp
  · rw [closedForm_concat cs f hf]
    have h2 : (0 + 2) * 128 ^ cs.length * 128 ≤ 18446744073709551616 := by
      rw [Nat.mul_assoc, ← pow_succ]
      exact hb
    omega

/-- C32: the ContinuationVarint decoding is one-to-one on encodings of at most 9 bytes.
For `e1` and `e2`, each made of at most 8 bytes with the top bit set followed by one byte
with the top bit clear: `ShiftVarint` on `e1` returns the closed form of `e1`, the sum
over `i` of `d_i * 128^(k-i)` plus the sum over `j = 1..k` of `128^j` for its 7-bit
digits `d_0 .. d_k`, consuming all of `e1`; that value is below 2^64, so nothing
overflows; and if `ShiftVarint` returns the same value on `e1` and on `e2`, then
`e1 = e2`. -/
theorem ShiftVarint_injective (e1 e2 : List Byte)
    (h1 : isVarint e1 = true) (h2 : isVarint e2 = true)
    (l1 : e1.length ≤ 9) (l2 : e2.length ≤ 9) :
    DataBuf.ShiftVarint (NewDataBuf e1) = some (closedForm e1, { b := e1, pos := e1.length })
      ∧ closedForm e1 < 18446744073709551616
      ∧ ((DataBuf.ShiftVarint (NewDataBuf e1)).map Prod.fst
            = (DataBuf.ShiftVarint (NewDataBuf e2)).map Prod.fst → e1 = e2) := by
  have c1 := ShiftVarint_closedForm e1 h1 l1
  have c2 := ShiftVarint_closedForm e2 h2 l2
  refine ⟨c1.1, c1.2, ?_⟩
  intro hv
  rw [c1.1, c2.1] at hv
  have hv2 : closedForm e1 = closedForm e2 := by simpa using hv
  obtain ⟨cs1, f1, r1, hcs1, hf1⟩ := isVarint_split e1 h1
  obtain ⟨cs2, f2, r2, hcs2, hf2⟩ := isVarint_split e2 h2
  subst r1 r2
  rw [closedForm_concat cs1 f1 hf1, closedForm_concat cs2 f2 hf2] at hv2
  have ha : contAcc cs1 0 = contAcc cs2 0 := by omega
  have hf : f1 = f2 := by
    apply Fin.ext
    omega
  rw [contAcc_injective cs1 cs2 hcs1 hcs2 ha, hf]

/-- C32 at `80 00` (value 128) and `7F` (value 127). -/
theorem ShiftVarint_injective_witness :
    isVarint [0x80, 0x00] = true ∧ isVarint [0x7F] = true
      ∧ closedForm [0x80, 0x00] = 128
      ∧ (DataBuf.ShiftVarint (NewDataBuf [0x80, 0x00])
          = some (closedForm [0x80, 0x00], { b := [0x80, 0x00], pos := 2 })
        ∧ closedForm [0x80, 0x00] < 18446744073709551616
        ∧ ((DataBuf.ShiftVarint (NewDataBuf [0x80, 0x00])).map Prod.fst
              = (DataBuf.ShiftVarint (NewDataBuf [0x7F])).map Prod.fst
            → ([0x80, 0x00] : List Byte) = [0x7F])) :=
  ⟨by decide, by decide, by decide,
   ShiftVarint_injective [0x80, 0x00] [0x7F] (by decide) (by decide) (by decide)
    (by decide)⟩

end db

end blockchainparser
